import Mathlib

/-!
# icon-merger: masks, layout and compositing

A shallow embedding of `main.go` (package `main` of li-go/icon-merger) together with the
parts of Go's `image`, `image/color` and `image/draw` packages that the program calls.

Conventions of the embedding

* Go `int` is the 64-bit two's-complement integer of the usual 64-bit targets.  Values are
  integers of `ℤ`; every `+`, `-`, `*` that the program performs on `int` is followed by
  `wrapInt`, the reduction into `[-2^63, 2^63)`.
* `float32` / `float64` values are the rationals they denote.  Every floating-point operation
  is the exact operation followed by IEEE-754 round-to-nearest, ties-to-even, at 24 resp. 53
  bits of precision (`roundNearestEven`).  Infinities and NaN are not represented: every
  magnitude the program can produce from `int` inputs is below `2^130`, far from overflow.
  Products and sums are rounded one by one (no fused multiply-add).
* `uint32` arithmetic of `image/draw` is arithmetic of `ℕ` reduced modulo `2^32`; a conversion
  to `uint8` is a reduction modulo `256`.
* The field `AtFunc` of `AlphaMask` holds one of the two functions `circleAtFunc` and
  `rectangleAtFunc`; it is represented by a tag (`Shape`) and `AlphaMask.At` dispatches on it.
* The function `main` is a function of explicit state (`mainRun`): the files, the two output
  streams and the record of the calls made on files are a value of `World`; the outcomes of
  the codecs, of `resize.Resize` and of `os.Create` are given by a value of `Env`; the
  process ends with a value of `Exit`.  A panic is an end of its own, the report that the Go
  runtime prints for it is not part of the error stream of the model.
-/

namespace IconMerger

/-! ## Machine integers -/

/-- Reduction of an integer into the range of a 64-bit signed `int`. -/
def wrapInt (z : ℤ) : ℤ := (z + 2 ^ 63) % 2 ^ 64 - 2 ^ 63

/-! ## Package `image`: points and rectangles -/

/-- Go `image.Point`. -/
structure Point where
  X : ℤ
  Y : ℤ
deriving DecidableEq

/-- Go `image.Rectangle`: the points with `Min.X <= x < Max.X`, `Min.Y <= y < Max.Y`. -/
structure Rectangle where
  Min : Point
  Max : Point
deriving DecidableEq

/-- Go `image.Pt`. -/
def Pt (x y : ℤ) : Point := ⟨x, y⟩

/-- Go `image.ZP`, the zero point. -/
def ZP : Point := ⟨0, 0⟩

/-- Go `image.ZR`, the zero rectangle. -/
def ZR : Rectangle := ⟨ZP, ZP⟩

/-- Go `Rectangle.Dx`: `r.Max.X - r.Min.X`. -/
def Rectangle.Dx (r : Rectangle) : ℤ := wrapInt (r.Max.X - r.Min.X)

/-- Go `Rectangle.Dy`: `r.Max.Y - r.Min.Y`. -/
def Rectangle.Dy (r : Rectangle) : ℤ := wrapInt (r.Max.Y - r.Min.Y)

/-- Go `Rectangle.Size`. -/
def Rectangle.Size (r : Rectangle) : Point :=
  ⟨wrapInt (r.Max.X - r.Min.X), wrapInt (r.Max.Y - r.Min.Y)⟩

/-- Go `Point.In`: half-open containment. -/
def Point.In (p : Point) (r : Rectangle) : Bool :=
  decide (r.Min.X ≤ p.X) && decide (p.X < r.Max.X) &&
    decide (r.Min.Y ≤ p.Y) && decide (p.Y < r.Max.Y)

/-- Go `Point.Sub`. -/
def Point.Sub (p q : Point) : Point := ⟨wrapInt (p.X - q.X), wrapInt (p.Y - q.Y)⟩

/-- Go `Rectangle.Add`: translation by a point. -/
def Rectangle.Add (r : Rectangle) (p : Point) : Rectangle :=
  ⟨⟨wrapInt (r.Min.X + p.X), wrapInt (r.Min.Y + p.Y)⟩,
   ⟨wrapInt (r.Max.X + p.X), wrapInt (r.Max.Y + p.Y)⟩⟩

/-- Go `Rectangle.Empty`. -/
def Rectangle.Empty (r : Rectangle) : Bool :=
  decide (r.Min.X ≥ r.Max.X) || decide (r.Min.Y ≥ r.Max.Y)

/-- Go `Rectangle.Intersect`: the largest rectangle contained in both, `ZR` when that is
empty. -/
def Rectangle.Intersect (r s : Rectangle) : Rectangle :=
  let minX := if r.Min.X < s.Min.X then s.Min.X else r.Min.X
  let minY := if r.Min.Y < s.Min.Y then s.Min.Y else r.Min.Y
  let maxX := if r.Max.X > s.Max.X then s.Max.X else r.Max.X
  let maxY := if r.Max.Y > s.Max.Y then s.Max.Y else r.Max.Y
  let t : Rectangle := ⟨⟨minX, minY⟩, ⟨maxX, maxY⟩⟩
  if t.Empty then ZR else t

/-- Go `Rectangle.In`: every point of `r` is a point of `s` (an empty `r` is in every `s`). -/
def Rectangle.In (r s : Rectangle) : Bool :=
  if r.Empty then true
  else decide (s.Min.X ≤ r.Min.X) && decide (r.Max.X ≤ s.Max.X) &&
    decide (s.Min.Y ≤ r.Min.Y) && decide (r.Max.Y ≤ s.Max.Y)

/-! ## Floating point -/

/-- Nearest integer to a rational, a tie going to the even neighbour. -/
def roundHalfEven (q : ℚ) : ℤ :=
  if q - ⌊q⌋ < 1 / 2 then ⌊q⌋
  else if 1 / 2 < q - ⌊q⌋ then ⌊q⌋ + 1
  else if ⌊q⌋ % 2 = 0 then ⌊q⌋ else ⌊q⌋ + 1

/-- Exponent of the unit in the last place around `q` in the binary format with `prec`
significand bits and least exponent `emin`: `floor(log2 |q|) - (prec - 1)`, but not below
`emin` (the spacing of the subnormal numbers is `2^emin`). -/
def ulpExp (prec : ℕ) (emin : ℤ) (q : ℚ) : ℤ :=
  max (Int.log 2 |q| - ((prec : ℤ) - 1)) emin

/-- IEEE-754 round-to-nearest, ties-to-even, onto the binary format with `prec` significand
bits and least exponent `emin`: `q` goes to the nearest multiple of the spacing
`2^(ulpExp prec emin q)`, a tie going to the even multiple. -/
def roundNearestEven (prec : ℕ) (emin : ℤ) (q : ℚ) : ℚ :=
  (roundHalfEven (q / (2 : ℚ) ^ ulpExp prec emin q) : ℚ) * (2 : ℚ) ^ ulpExp prec emin q

/-- Rounding onto `float32` (binary32). -/
def f32 (q : ℚ) : ℚ := roundNearestEven 24 (-149) q

/-- Rounding onto `float64` (binary64). -/
def f64 (q : ℚ) : ℚ := roundNearestEven 53 (-1074) q

/-- Go conversion `float32(n)` of an `int`. -/
def float32OfInt (n : ℤ) : ℚ := f32 (n : ℚ)

/-- Go conversion `float64(n)` of an `int`. -/
def float64OfInt (n : ℤ) : ℚ := f64 (n : ℚ)

/-- Go `float32` division. -/
def divF32 (a b : ℚ) : ℚ := f32 (a / b)

/-- Go `float64` addition. -/
def addF64 (a b : ℚ) : ℚ := f64 (a + b)

/-- Go `float64` multiplication. -/
def mulF64 (a b : ℚ) : ℚ := f64 (a * b)

/-- Go conversion `int(f)` of a floating-point value: the fraction is discarded
(truncation towards zero).  A value outside the range of `int`, for which Go leaves the
result to the implementation, is reduced like any other `int` result; the program never
produces one. -/
def truncToInt (q : ℚ) : ℤ := wrapInt (if 0 ≤ q then ⌊q⌋ else ⌈q⌉)

/-! ## Package `image/color` -/

/-- Go `color.Alpha`: an 8-bit opacity. -/
structure Alpha where
  A : ℕ
deriving DecidableEq

/-- The four 16-bit channels returned by the method `RGBA()` of a Go `color.Color`
(alpha-premultiplied, each a `uint32`). -/
structure Color16 where
  r : ℕ
  g : ℕ
  b : ℕ
  a : ℕ
deriving DecidableEq

/-- Go `color.RGBA`: 8-bit alpha-premultiplied channels. -/
structure RGBA where
  R : ℕ
  G : ℕ
  B : ℕ
  A : ℕ
deriving DecidableEq

/-- Go method `RGBA()` of `color.Alpha`: `a := uint32(c.A); a |= a << 8; return a, a, a, a`. -/
def Alpha.toColor16 (c : Alpha) : Color16 :=
  let a := (c.A ||| (c.A <<< 8)) % 2 ^ 32
  ⟨a, a, a, a⟩

/-- Go method `RGBA()` of `color.RGBA`: each channel `v` becomes `v | v << 8`. -/
def RGBA.toColor16 (c : RGBA) : Color16 :=
  ⟨(c.R ||| (c.R <<< 8)) % 2 ^ 32, (c.G ||| (c.G <<< 8)) % 2 ^ 32,
   (c.B ||| (c.B <<< 8)) % 2 ^ 32, (c.A ||| (c.A <<< 8)) % 2 ^ 32⟩

/-- Go `color.RGBAModel.Convert` on a colour given by its `RGBA()` channels:
`RGBA{uint8(r >> 8), uint8(g >> 8), uint8(b >> 8), uint8(a >> 8)}`. -/
def Color16.toRGBA (c : Color16) : RGBA :=
  ⟨(c.r >>> 8) % 256, (c.g >>> 8) % 256, (c.b >>> 8) % 256, (c.a >>> 8) % 256⟩

/-- The channels of a `color.RGBA` are `uint8` values. -/
def RGBA.Is8 (c : RGBA) : Prop := c.R ≤ 255 ∧ c.G ≤ 255 ∧ c.B ≤ 255 ∧ c.A ≤ 255

instance (c : RGBA) : Decidable c.Is8 := by
  unfold RGBA.Is8
  infer_instance

/-- The contract of `color.Color.RGBA`: every channel lies in `[0, 0xffff]`. -/
def Color16.Valid (c : Color16) : Prop :=
  c.r ≤ 0xffff ∧ c.g ≤ 0xffff ∧ c.b ≤ 0xffff ∧ c.a ≤ 0xffff

instance (c : Color16) : Decidable c.Valid := by
  unfold Color16.Valid
  infer_instance

/-! ## `main.go`: the alpha masks -/

/-- The two functions the program stores in the field `AtFunc` of an `AlphaMask`. -/
inductive Shape where
  | circle
  | rectangle
deriving DecidableEq

/-- Go `AlphaMask`. -/
structure AlphaMask where
  Outer : Rectangle
  Inner : Rectangle
  Reverse : Bool
  AtFunc : Shape

/-- Go `(*AlphaMask).Bounds`. -/
def AlphaMask.Bounds (m : AlphaMask) : Rectangle := m.Outer

/-- Go `alphaOf`. -/
def alphaOf (inner reverse : Bool) : Alpha :=
  if inner then
    if reverse then ⟨0⟩ else ⟨255⟩
  else if reverse then ⟨255⟩
  else ⟨0⟩

/-- The floating-point part of the closure of `circleAtFunc`, as a function of the `int`s
`x - X`, `y - Y` and `R`: with `xx, yy, rr := float64(x-X)+0.5, float64(y-Y)+0.5, float64(R)`
the comparison `xx*xx+yy*yy < rr*rr`. -/
def circleTest (n k R : ℤ) : Bool :=
  let xx := addF64 (float64OfInt n) (1 / 2)
  let yy := addF64 (float64OfInt k) (1 / 2)
  let rr := float64OfInt R
  decide (addF64 (mulF64 xx xx) (mulF64 yy yy) < mulF64 rr rr)

/-- The first argument that `circleAtFunc` passes to `alphaOf`: the body of the closure, from
`x -= m.Inner.Min.X` to the comparison. -/
def circleInside (m : AlphaMask) (x y : ℤ) : Bool :=
  let x := wrapInt (x - m.Inner.Min.X)
  let y := wrapInt (y - m.Inner.Min.Y)
  let X := Int.tdiv m.Inner.Dx 2
  let Y := Int.tdiv m.Inner.Dy 2
  let R := Int.tdiv m.Inner.Dx 2
  circleTest (wrapInt (x - X)) (wrapInt (y - Y)) R

/-- Go `circleAtFunc`, applied to a mask and a pixel. -/
def circleAtFunc (m : AlphaMask) (x y : ℤ) : Alpha :=
  alphaOf (circleInside m x y) m.Reverse

/-- Go `rectangleAtFunc`, applied to a mask and a pixel. -/
def rectangleAtFunc (m : AlphaMask) (x y : ℤ) : Alpha :=
  alphaOf ((Pt x y).In m.Inner) m.Reverse

/-- Go `(*AlphaMask).At`: `m.AtFunc(m)(x, y)`. -/
def AlphaMask.At (m : AlphaMask) (x y : ℤ) : Alpha :=
  match m.AtFunc with
  | Shape.circle => circleAtFunc m x y
  | Shape.rectangle => rectangleAtFunc m x y

/-! ## `main.go`: the layout -/

/-- Go `bw = 1`, the border width. -/
def bw : ℤ := 1

/-- Go `int(float32(d) / 3)`, the expression that gives `w` (from the width of the source
image) and `h` (from its height). -/
def badgeSize (d : ℤ) : ℤ := truncToInt (divF32 (float32OfInt d) 3)

/-- Go `circleRect`, for a source image with `srcImg.Bounds().Dx() = W`,
`srcImg.Bounds().Dy() = H` (which are also `srcImg.Bounds().Size().X` and `.Y`). -/
def circleRect (W H : ℤ) : Rectangle :=
  ⟨Pt (wrapInt (wrapInt (W - badgeSize W) - wrapInt (2 * bw))) 0,
   Pt W (wrapInt (badgeSize H + wrapInt (2 * bw)))⟩

/-- Go `cornerRect`. -/
def cornerRect (W H : ℤ) : Rectangle :=
  ⟨Pt (wrapInt (wrapInt (W - Int.tdiv (badgeSize W) 2) - bw)) 0,
   Pt W (wrapInt (Int.tdiv (badgeSize H) 2 + bw))⟩

/-- Go `dogRect`. -/
def dogRect (W H : ℤ) : Rectangle :=
  ⟨Pt (wrapInt (wrapInt (W - badgeSize W) - bw)) bw,
   Pt (wrapInt (W - bw)) (wrapInt (badgeSize H + bw))⟩

/-- Go `outRect`: `image.Rectangle{Min: image.ZP, Max: srcImg.Bounds().Size()}`. -/
def outRect (W H : ℤ) : Rectangle := ⟨ZP, ⟨W, H⟩⟩

/-! ## Package `image` and `image/draw`: images and masked drawing -/

/-- A Go `image.Image` as the program observes it: its `Bounds()` and, for every pixel, the
channels `At(x, y).RGBA()`. -/
structure Image where
  Bounds : Rectangle
  At : ℤ → ℤ → Color16

/-- Go `*image.RGBA`: the rectangle and the stored 8-bit pixels (`Pix`, addressed by pixel
coordinates). -/
structure RGBAImage where
  Rect : Rectangle
  Pix : ℤ → ℤ → RGBA

/-- Go `image.NewRGBA`: every pixel is zero (transparent black). -/
def NewRGBA (r : Rectangle) : RGBAImage := ⟨r, fun _ _ => ⟨0, 0, 0, 0⟩⟩

/-- Go `(*image.RGBA).At`: the stored pixel, and the zero colour outside the rectangle. -/
def RGBAImage.RGBAAt (p : RGBAImage) (x y : ℤ) : RGBA :=
  if (Pt x y).In p.Rect then p.Pix x y else ⟨0, 0, 0, 0⟩

/-- An `*image.RGBA` used as the source `image.Image` of a drawing operation. -/
def RGBAImage.toImage (p : RGBAImage) : Image :=
  ⟨p.Rect, fun x y => (p.RGBAAt x y).toColor16⟩

/-- Go `draw.Op`. -/
inductive Op where
  | Over
  | Src
deriving DecidableEq

/-- The constant `m = 1<<16 - 1` of `image/draw`. -/
def drawM : ℕ := 65535

/-- Multiplication of `uint32`. -/
def mulU32 (a b : ℕ) : ℕ := (a * b) % 2 ^ 32

/-- Addition of `uint32`. -/
def addU32 (a b : ℕ) : ℕ := (a + b) % 2 ^ 32

/-- Subtraction of `uint32` (both arguments below `2^32`). -/
def subU32 (a b : ℕ) : ℕ := (a + 2 ^ 32 - b) % 2 ^ 32

/-- Conversion to `uint8`. -/
def toU8 (a : ℕ) : ℕ := a % 256

/-- One channel of the `Over` branch of `drawRGBA`: `uint8((dr*a + sr*ma) / m >> 8)`. -/
def overChannel (d a s ma : ℕ) : ℕ :=
  toU8 ((addU32 (mulU32 d a) (mulU32 s ma) / drawM) >>> 8)

/-- One channel of the `Src` branch of `drawRGBA`: `uint8(sr * ma / m >> 8)`. -/
def srcChannel (s ma : ℕ) : ℕ := toU8 ((mulU32 s ma / drawM) >>> 8)

/-- The body of the pixel loop of Go `drawRGBA`: the new value of a destination pixel `d`
from the source channels `s` and the mask alpha `ma` (both as returned by `RGBA()`).
In the `Over` branch `a := (m - (sa * ma / m)) * 0x101`. -/
def drawPixel (op : Op) (d : RGBA) (s : Color16) (ma : ℕ) : RGBA :=
  match op with
  | Op.Over =>
    let a := mulU32 (subU32 drawM (mulU32 s.a ma / drawM)) 0x101
    ⟨overChannel d.R a s.r ma, overChannel d.G a s.g ma,
     overChannel d.B a s.b ma, overChannel d.A a s.a ma⟩
  | Op.Src => ⟨srcChannel s.r ma, srcChannel s.g ma, srcChannel s.b ma, srcChannel s.a ma⟩

/-- The rectangle that Go `clip` leaves in `r`: `r` cut down to the destination bounds, to
the source bounds and to the mask bounds, the latter two translated so that `sp` resp. `mp`
falls on `r.Min`. -/
def clipRect (dstB r srcB : Rectangle) (sp : Point) (maskB : Rectangle) (mp : Point) :
    Rectangle :=
  ((r.Intersect dstB).Intersect (srcB.Add (r.Min.Sub sp))).Intersect (maskB.Add (r.Min.Sub mp))

/-- The point that Go `clip` leaves in `sp` (and, with `mp` for `p`, in `mp`): `p` moved by
as much as the minimum corner of `r` moved. -/
def clipPoint (r r' : Rectangle) (p : Point) : Point :=
  ⟨wrapInt (p.X + wrapInt (r'.Min.X - r.Min.X)), wrapInt (p.Y + wrapInt (r'.Min.Y - r.Min.Y))⟩

/-- Go `drawRGBA` (the general path of `DrawMask` for an `*image.RGBA` destination), on an
already clipped rectangle: the loop visits every pixel `(x, y)` of `r` once, with
`sx = sp.X + x - r.Min.X`, `mx = mp.X + x - r.Min.X` (likewise for `y`), and overwrites the
destination pixel by `drawPixel`.  No pixel outside `r` is written. -/
def drawRGBA (dst : RGBAImage) (r : Rectangle) (src : Image) (sp : Point) (mask : AlphaMask)
    (mp : Point) (op : Op) : RGBAImage :=
  { Rect := dst.Rect
    Pix := fun x y =>
      if (Pt x y).In r then
        drawPixel op (dst.Pix x y)
          (src.At (wrapInt (sp.X + x - r.Min.X)) (wrapInt (sp.Y + y - r.Min.Y)))
          ((mask.At (wrapInt (mp.X + x - r.Min.X)) (wrapInt (mp.Y + y - r.Min.Y))).toColor16.a)
      else dst.Pix x y }

/-- Go `draw.DrawMask` for an `*image.RGBA` destination and a mask that is an `*AlphaMask`
(neither `nil` nor an `*image.Alpha`, so that none of the fast paths applies): clip, return
if nothing is left, else `drawRGBA`. -/
def DrawMask (dst : RGBAImage) (r : Rectangle) (src : Image) (sp : Point) (mask : AlphaMask)
    (mp : Point) (op : Op) : RGBAImage :=
  let r' := clipRect dst.Rect r src.Bounds sp mask.Bounds mp
  if r'.Empty then dst
  else drawRGBA dst r' src (clipPoint r r' sp) mask (clipPoint r r' mp) op

/-! ## `main.go`: the three drawing passes -/

/-- The image `out` after the first `draw.DrawMask` of `main`: the source drawn with `draw.Src`
through the reversed circle mask over `circleRect`. -/
def pass1 (srcImg : Image) : RGBAImage :=
  let W := srcImg.Bounds.Dx
  let H := srcImg.Bounds.Dy
  DrawMask (NewRGBA (outRect W H)) (outRect W H) srcImg ZP
    ⟨outRect W H, circleRect W H, true, Shape.circle⟩ ZP Op.Src

/-- The image `out` after the second `draw.DrawMask` of `main`: `out` drawn onto itself with
`draw.Src` through the reversed rectangle mask over `cornerRect`.  Source and destination
are the same image and `sp = r.Min`, so the loop reads every pixel just before it
overwrites that same pixel: the source is the image as it was before the pass. -/
def pass2 (srcImg : Image) : RGBAImage :=
  let W := srcImg.Bounds.Dx
  let H := srcImg.Bounds.Dy
  DrawMask (pass1 srcImg) (outRect W H) (pass1 srcImg).toImage ZP
    ⟨outRect W H, cornerRect W H, true, Shape.rectangle⟩ ZP Op.Src

/-- The mask of the third pass: a non-reversed circle whose outer and inner regions are both
`image.Rectangle{Min: image.ZP, Max: dogRect.Size()}`. -/
def overlayMask (W H : ℤ) : AlphaMask :=
  ⟨⟨ZP, (dogRect W H).Size⟩, ⟨ZP, (dogRect W H).Size⟩, false, Shape.circle⟩

/-- The image `out` after the third `draw.DrawMask` of `main`, which is the image that is
encoded: `overImg`, the overlay as returned by `resize.Resize(uint(w), uint(h), ...)`, drawn
with `draw.Over` at `dogRect` through the circle mask. -/
def pass3 (srcImg overImg : Image) : RGBAImage :=
  let W := srcImg.Bounds.Dx
  let H := srcImg.Bounds.Dy
  DrawMask (pass2 srcImg) (dogRect W H) overImg ZP (overlayMask W H) ZP Op.Over

/-! ## `main.go`: the function `main` and the operating system -/

/-- The Go variable `usage`, a raw string that ends with a line break. -/
def usage : String :=
  "Usage:\n\tslack-icon-merger \x7bSRC_IMAGE_FILE\x7d \x7bOVER_IMAGE_FILE\x7d\n"

/-- The Go variable `outPath` of `main`. -/
def outPath : String := "./merged.png"

/-- Go `uint(z)` for an `int`: the value modulo `2^64`. -/
def uintOfInt (z : ℤ) : ℕ := (z % 2 ^ 64).toNat

/-- How the process ends: `os.Exit(code)` or the return of `main` (status 0), or an uncaught
`panic(err)`, the abnormal termination of the Go runtime. -/
inductive Exit where
  | status (code : ℕ)
  | panic
  deriving DecidableEq

/-- A call of `main` on a file: `os.Open(path)`, `image.Decode` of the file opened at `path`,
`os.Create(path)`, `png.Encode` to the file created at `path`, and the deferred `Close()`. -/
inductive Event where
  | osOpen (path : String)
  | imageDecode (path : String)
  | osCreate (path : String)
  | pngEncode (path : String)
  | fileClose (path : String)
  deriving DecidableEq

/-- The state outside the program: the content of every file (`none` for a path that
`os.Open` cannot open), the text written to the two output streams by `fmt`, and the calls
made on files so far, in order. -/
structure World where
  files : String → Option (List ℕ)
  stdout : String
  stderr : String
  calls : List Event

/-- The outcomes of the library calls that `main` does not control: `image.Decode` on the
bytes of a file (`none` for an error), `resize.Resize(w, h, img, resize.NearestNeighbor)`,
whether `os.Create(path)` succeeds, and `png.Encode`, which gives the bytes that reach the
file and whether it returns without error. -/
structure Env where
  decode : List ℕ → Option Image
  resize : ℕ → ℕ → Image → Image
  creatable : String → Bool
  encode : RGBAImage → List ℕ × Bool

/-- Appends a call to the record of calls. -/
def World.log (v : World) (e : Event) : World := { v with calls := v.calls ++ [e] }

/-- Replaces the content of the file at `path`. -/
def World.write (v : World) (path : String) (data : List ℕ) : World :=
  { v with files := Function.update v.files path (some data) }

/-- The function `main` run with `os.Args = args`, from the state `v` of the files and
streams: the state it leaves and how the process ends. `os.Exit` ends the process at once;
a panic runs the deferred `Close()` calls, last deferred first, and so does the return. -/
def mainRun (args : List String) (env : Env) (v : World) : World × Exit :=
  if args.length < 3 then
    ({ v with stderr := v.stderr ++ usage ++ "\n" }, Exit.status 1)
  else
    let srcImgPath := args.getD 1 ""
    let overImgPath := args.getD 2 ""
    let v1 := v.log (Event.osOpen srcImgPath)
    match v.files srcImgPath with
    | none => (v1, Exit.panic)
    | some srcData =>
      let v2 := v1.log (Event.osOpen overImgPath)
      match v.files overImgPath with
      | none => (v2.log (Event.fileClose srcImgPath), Exit.panic)
      | some overData =>
        let v3 := v2.log (Event.imageDecode srcImgPath)
        match env.decode srcData with
        | none =>
          ((v3.log (Event.fileClose overImgPath)).log (Event.fileClose srcImgPath), Exit.panic)
        | some srcImg =>
          let v4 := v3.log (Event.imageDecode overImgPath)
          match env.decode overData with
          | none =>
            ((v4.log (Event.fileClose overImgPath)).log (Event.fileClose srcImgPath),
              Exit.panic)
          | some overImg =>
            let w := badgeSize srcImg.Bounds.Dx
            let h := badgeSize srcImg.Bounds.Dy
            let out := pass3 srcImg (env.resize (uintOfInt w) (uintOfInt h) overImg)
            let v5 := v4.log (Event.osCreate outPath)
            if env.creatable outPath then
              let v6 := ((v5.write outPath []).log (Event.pngEncode outPath)).write outPath
                (env.encode out).1
              if (env.encode out).2 then
                let v7 :=
                  { v6 with stdout := v6.stdout ++ "PNG image generated: " ++ outPath ++ "\n" }
                ((((v7.log (Event.fileClose outPath)).log (Event.fileClose overImgPath)).log
                  (Event.fileClose srcImgPath)), Exit.status 0)
              else
                ((((v6.log (Event.fileClose outPath)).log (Event.fileClose overImgPath)).log
                  (Event.fileClose srcImgPath)), Exit.panic)
            else
              ((v5.log (Event.fileClose overImgPath)).log (Event.fileClose srcImgPath),
                Exit.panic)

/-! ## Specification-side notions -/

/-- The number of pixels of a rectangle with `Min <= Max` (a notion of the specification;
the program does not compute it). -/
def Rectangle.area (r : Rectangle) : ℤ := (r.Max.X - r.Min.X) * (r.Max.Y - r.Min.Y)

/-- The circle test in the words of the specification, in exact rational arithmetic:
`(x' - X + 1/2)^2 + (y' - Y + 1/2)^2 < R^2` with `x' = x - I.Min.X`, `y' = y - I.Min.Y`,
`X = Dx(I)/2`, `Y = Dy(I)/2`, `R = Dx(I)/2` (truncating division). -/
def circleSpec (I : Rectangle) (x y : ℤ) : Prop :=
  (((x - I.Min.X : ℤ) : ℚ) - (Int.tdiv (I.Max.X - I.Min.X) 2 : ℤ) + 1 / 2) ^ 2 +
      (((y - I.Min.Y : ℤ) : ℚ) - (Int.tdiv (I.Max.Y - I.Min.Y) 2 : ℤ) + 1 / 2) ^ 2 <
    ((Int.tdiv (I.Max.X - I.Min.X) 2 : ℤ) : ℚ) ^ 2

instance (I : Rectangle) (x y : ℤ) : Decidable (circleSpec I x y) := by
  unfold circleSpec
  infer_instance

/-- The same test cleared of fractions, over the integers:
`(2(x'-X)+1)^2 + (2(y'-Y)+1)^2 < 4*R^2`. -/
def circleSpecInt (I : Rectangle) (x y : ℤ) : Prop :=
  (2 * ((x - I.Min.X) - Int.tdiv (I.Max.X - I.Min.X) 2) + 1) ^ 2 +
      (2 * ((y - I.Min.Y) - Int.tdiv (I.Max.Y - I.Min.Y) 2) + 1) ^ 2 <
    4 * (Int.tdiv (I.Max.X - I.Min.X) 2) ^ 2

instance (I : Rectangle) (x y : ℤ) : Decidable (circleSpecInt I x y) := by
  unfold circleSpecInt
  infer_instance

/-- Opening the file at `path` and decoding it, as the specification speaks of it: `none`
when `os.Open` or `image.Decode` fails. -/
def loadImage (env : Env) (v : World) (path : String) : Option Image :=
  (v.files path).bind env.decode

/-- The number `N` of pixels of the rectangle `r` at which the mask is opaque (opacity 255):
a notion of the specification; the program does not compute it. -/
def opaqueCount (m : AlphaMask) (r : Rectangle) : ℕ :=
  ((Finset.Ico r.Min.X r.Max.X ×ˢ Finset.Ico r.Min.Y r.Max.Y).filter
    (fun p => (m.At p.1 p.2).A = 255)).card

/-! ## Example inputs -/

/-- A 300 x 300 source image, every pixel opaque red. -/
def exampleSrc : Image := ⟨⟨⟨0, 0⟩, ⟨300, 300⟩⟩, fun _ _ => ⟨0xffff, 0, 0, 0xffff⟩⟩

/-- A 100 x 100 resized overlay (the badge size of a 300 x 300 source), every pixel opaque
blue. -/
def exampleOver : Image := ⟨⟨⟨0, 0⟩, ⟨100, 100⟩⟩, fun _ _ => ⟨0, 0, 0xffff, 0xffff⟩⟩

/-- A mask as the first pass of the program builds it for a 300 x 300 source: the reversed
circle over `circleRect = (198,0)..(300,102)`. -/
def exampleMask : AlphaMask :=
  ⟨⟨⟨0, 0⟩, ⟨300, 300⟩⟩, ⟨⟨198, 0⟩, ⟨300, 102⟩⟩, true, Shape.circle⟩

/-- A mask whose inner region is the 3 x 3 square `(0,0)..(3,3)`. -/
def exampleOddMask : AlphaMask :=
  ⟨⟨⟨0, 0⟩, ⟨3, 3⟩⟩, ⟨⟨0, 0⟩, ⟨3, 3⟩⟩, false, Shape.circle⟩

/-- A mask whose inner region `(0,0)..(4,2)` is wider than high. -/
def exampleWideMask : AlphaMask :=
  ⟨⟨⟨0, 0⟩, ⟨4, 2⟩⟩, ⟨⟨0, 0⟩, ⟨4, 2⟩⟩, false, Shape.circle⟩

/-- A mask whose inner region has `Min.X > Max.X`, with `int` coordinates so far apart that
`Dx()` wraps around to 4: `Min = (2^63 - 2, 0)`, `Max = (-2^63 + 2, 4)`. -/
def exampleWrapMask : AlphaMask :=
  ⟨⟨⟨0, 0⟩, ⟨4, 4⟩⟩, ⟨⟨2 ^ 63 - 2, 0⟩, ⟨-2 ^ 63 + 2, 4⟩⟩, false, Shape.circle⟩

/-- A mask whose inner region is the square of even side `2^54 + 4`. -/
def exampleHugeMask : AlphaMask :=
  ⟨⟨⟨0, 0⟩, ⟨2 ^ 54 + 4, 2 ^ 54 + 4⟩⟩, ⟨⟨0, 0⟩, ⟨2 ^ 54 + 4, 2 ^ 54 + 4⟩⟩, false, Shape.circle⟩

/-- A state with two files: `good.png`, which decodes, and `bad.png`, which does not. -/
def exampleWorld : World :=
  ⟨fun p => if p = "good.png" then some [1] else if p = "bad.png" then some [0] else none,
    "", "", []⟩

/-- Library outcomes under which exactly the bytes `[1]` decode to an image. -/
def exampleEnv : Env :=
  ⟨fun d => if d = [1] then some exampleSrc else none, fun _ _ i => i, fun _ => true,
    fun _ => ([], true)⟩

/-- A non-reversed circle mask whose inner region is the 5 x 5 square `(0,0)..(5,5)`. -/
def exampleFiveMask : AlphaMask :=
  ⟨⟨⟨0, 0⟩, ⟨5, 5⟩⟩, ⟨⟨0, 0⟩, ⟨5, 5⟩⟩, false, Shape.circle⟩

/-! ## Theorems: rounding to an integer -/

theorem roundHalfEven_intCast (n : ℤ) : roundHalfEven (n : ℚ) = n := by
  simp [roundHalfEven]

theorem roundHalfEven_cases (q : ℚ) :
    roundHalfEven q = ⌊q⌋ ∨ roundHalfEven q = ⌊q⌋ + 1 := by
  unfold roundHalfEven
  split_ifs <;> simp

theorem abs_roundHalfEven_sub_le (q : ℚ) : |(roundHalfEven q : ℚ) - q| ≤ 1 / 2 := by
  have h1 := Int.floor_le q
  have h2 := Int.lt_floor_add_one q
  unfold roundHalfEven
  rw [abs_le]
  split_ifs with ha hb hc
  · constructor <;> linarith
  · push_cast; constructor <;> linarith
  · constructor <;> linarith
  · push_cast; constructor <;> linarith

theorem roundHalfEven_mono {p q : ℚ} (h : p ≤ q) : roundHalfEven p ≤ roundHalfEven q := by
  have hf : ⌊p⌋ ≤ ⌊q⌋ := Int.floor_mono h
  rcases hf.lt_or_eq with hlt | heq
  · have hp : roundHalfEven p ≤ ⌊p⌋ + 1 := by
      rcases roundHalfEven_cases p with e | e <;> omega
    have hq : ⌊q⌋ ≤ roundHalfEven q := by
      rcases roundHalfEven_cases q with e | e <;> omega
    omega
  · unfold roundHalfEven
    rw [heq]
    split_ifs <;> first | omega | (exfalso; linarith)

theorem roundHalfEven_le_of_le {q : ℚ} {n : ℤ} (h : q ≤ n) : roundHalfEven q ≤ n := by
  have := roundHalfEven_mono h
  rwa [roundHalfEven_intCast] at this

theorem le_roundHalfEven_of_le {q : ℚ} {n : ℤ} (h : (n : ℚ) ≤ q) : n ≤ roundHalfEven q := by
  have := roundHalfEven_mono h
  rwa [roundHalfEven_intCast] at this

/-! ## Theorems: rounding onto a binary format -/

theorem two_zpow_pos (e : ℤ) : (0 : ℚ) < (2 : ℚ) ^ e := by positivity

theorem zpow_log_le_abs {q : ℚ} (hq : q ≠ 0) : (2 : ℚ) ^ Int.log 2 |q| ≤ |q| := by
  have h := Int.zpow_log_le_self (b := 2) (r := |q|) (by norm_num) (abs_pos.mpr hq)
  simpa using h

theorem abs_lt_zpow_log_succ (q : ℚ) : |q| < (2 : ℚ) ^ (Int.log 2 |q| + 1) := by
  have h := Int.lt_zpow_succ_log_self (b := 2) (by norm_num) |q|
  simpa using h

theorem log_lt_of_abs_lt {q : ℚ} (hq : q ≠ 0) {x : ℤ} (h : |q| < (2 : ℚ) ^ x) :
    Int.log 2 |q| < x := by
  have h2 := (Int.lt_zpow_iff_log_lt (b := 2) (R := ℚ) (by norm_num) (x := x)
    (abs_pos.mpr hq)).mp (by simpa using h)
  exact h2

theorem le_log_of_le_abs {q : ℚ} (hq : q ≠ 0) {x : ℤ} (h : (2 : ℚ) ^ x ≤ |q|) :
    x ≤ Int.log 2 |q| := by
  have h2 := (Int.zpow_le_iff_le_log (b := 2) (R := ℚ) (by norm_num) (x := x)
    (abs_pos.mpr hq)).mp (by simpa using h)
  exact h2

theorem emin_le_ulpExp (prec : ℕ) (emin : ℤ) (q : ℚ) : emin ≤ ulpExp prec emin q :=
  le_max_right _ _

theorem roundNearestEven_zero (prec : ℕ) (emin : ℤ) : roundNearestEven prec emin 0 = 0 := by
  simp [roundNearestEven, roundHalfEven]

theorem roundNearestEven_nonneg (prec : ℕ) (emin : ℤ) {q : ℚ} (hq : 0 ≤ q) :
    0 ≤ roundNearestEven prec emin q := by
  unfold roundNearestEven
  have hp := two_zpow_pos (ulpExp prec emin q)
  have h0 : ((0 : ℤ) : ℚ) ≤ q / (2 : ℚ) ^ ulpExp prec emin q := by
    simpa using div_nonneg hq hp.le
  have := le_roundHalfEven_of_le h0
  have h1 : (0 : ℚ) ≤ (roundHalfEven (q / (2 : ℚ) ^ ulpExp prec emin q) : ℚ) := by
    exact_mod_cast this
  exact mul_nonneg h1 hp.le

/-- A value `m * 2^k` whose significand `m` fits in `prec` bits, with `k` not below the least
exponent, is a value of the format: rounding leaves it unchanged. -/
theorem roundNearestEven_exact (prec : ℕ) (emin : ℤ) (m k : ℤ) (hm : |m| < 2 ^ prec)
    (hk : emin ≤ k) :
    roundNearestEven prec emin ((m : ℚ) * (2 : ℚ) ^ k) = (m : ℚ) * (2 : ℚ) ^ k := by
  by_cases hm0 : m = 0
  · subst hm0
    simp [roundNearestEven_zero]
  have hk0 := two_zpow_pos k
  have hq : (m : ℚ) * (2 : ℚ) ^ k ≠ 0 := by
    have : (m : ℚ) ≠ 0 := by exact_mod_cast hm0
    exact mul_ne_zero this hk0.ne'
  have hlt : |(m : ℚ) * (2 : ℚ) ^ k| < (2 : ℚ) ^ ((prec : ℤ) + k) := by
    rw [abs_mul, abs_of_pos hk0, zpow_add₀ (by norm_num : (2 : ℚ) ≠ 0)]
    have : |(m : ℚ)| < (2 : ℚ) ^ (prec : ℤ) := by
      rw [zpow_natCast]
      exact_mod_cast hm
    exact mul_lt_mul_of_pos_right this hk0
  have hlog := log_lt_of_abs_lt hq hlt
  have he : ulpExp prec emin ((m : ℚ) * (2 : ℚ) ^ k) ≤ k := by
    unfold ulpExp
    exact max_le (by omega) hk
  unfold roundNearestEven
  generalize ulpExp prec emin ((m : ℚ) * (2 : ℚ) ^ k) = e at he
  obtain ⟨d, rfl⟩ : ∃ d : ℕ, k = e + d := ⟨(k - e).toNat, by omega⟩
  have he0 := two_zpow_pos e
  have hdiv : (m : ℚ) * (2 : ℚ) ^ (e + (d : ℤ)) / (2 : ℚ) ^ e = ((m * 2 ^ d : ℤ) : ℚ) := by
    rw [zpow_add₀ (by norm_num : (2 : ℚ) ≠ 0), zpow_natCast]
    push_cast
    field_simp
    ring
  rw [hdiv, roundHalfEven_intCast, zpow_add₀ (by norm_num : (2 : ℚ) ≠ 0), zpow_natCast]
  push_cast
  ring

/-- When the binade of `q` is known, `2^(e+prec-1) <= |q| < 2^(e+prec)` with `e` not below the
least exponent, the rounding is the rounding of `q / 2^e` to an integer, times `2^e`. -/
theorem roundNearestEven_eq_of_binade (prec : ℕ) (emin : ℤ) (q : ℚ) (e : ℤ)
    (hlo : (2 : ℚ) ^ (e + (prec : ℤ) - 1) ≤ |q|) (hhi : |q| < (2 : ℚ) ^ (e + (prec : ℤ)))
    (he : emin ≤ e) :
    roundNearestEven prec emin q = (roundHalfEven (q / (2 : ℚ) ^ e) : ℚ) * (2 : ℚ) ^ e := by
  have hq : q ≠ 0 := by
    intro h
    subst h
    have := two_zpow_pos (e + (prec : ℤ) - 1)
    simp at hlo
    linarith
  have h1 := log_lt_of_abs_lt hq hhi
  have h2 := le_log_of_le_abs hq hlo
  have hE : ulpExp prec emin q = e := by
    unfold ulpExp
    rw [max_eq_left (by omega)]
    omega
  unfold roundNearestEven
  rw [hE]

/-- The rounding error is at most half a unit in the last place. -/
theorem abs_roundNearestEven_sub_le (prec : ℕ) (emin : ℤ) (q : ℚ) :
    |roundNearestEven prec emin q - q| ≤ (2 : ℚ) ^ ulpExp prec emin q / 2 := by
  unfold roundNearestEven
  generalize ulpExp prec emin q = e
  have he0 := two_zpow_pos e
  have h := abs_roundHalfEven_sub_le (q / (2 : ℚ) ^ e)
  have hrw : (roundHalfEven (q / (2 : ℚ) ^ e) : ℚ) * (2 : ℚ) ^ e - q =
      ((roundHalfEven (q / (2 : ℚ) ^ e) : ℚ) - q / (2 : ℚ) ^ e) * (2 : ℚ) ^ e := by
    field_simp
  rw [hrw, abs_mul, abs_of_pos he0]
  calc |(roundHalfEven (q / (2 : ℚ) ^ e) : ℚ) - q / (2 : ℚ) ^ e| * (2 : ℚ) ^ e
      ≤ 1 / 2 * (2 : ℚ) ^ e := mul_le_mul_of_nonneg_right h he0.le
    _ = (2 : ℚ) ^ e / 2 := by ring

/-- Outside the subnormal range the relative rounding error is at most `2^(-prec)`. -/
theorem abs_roundNearestEven_sub_le_rel (prec : ℕ) (emin : ℤ) (q : ℚ) (hq : q ≠ 0)
    (hn : emin ≤ Int.log 2 |q| - ((prec : ℤ) - 1)) :
    |roundNearestEven prec emin q - q| ≤ |q| / (2 : ℚ) ^ prec := by
  have h := abs_roundNearestEven_sub_le prec emin q
  have hE : ulpExp prec emin q = Int.log 2 |q| - ((prec : ℤ) - 1) := by
    unfold ulpExp
    exact max_eq_left hn
  rw [hE] at h
  have hl := zpow_log_le_abs hq
  have hsplit : (2 : ℚ) ^ (Int.log 2 |q| - ((prec : ℤ) - 1)) / 2 =
      (2 : ℚ) ^ Int.log 2 |q| / (2 : ℚ) ^ prec := by
    rw [zpow_sub₀ (by norm_num : (2 : ℚ) ≠ 0), zpow_sub₀ (by norm_num : (2 : ℚ) ≠ 0),
      zpow_natCast]
    field_simp
    ring
  rw [hsplit] at h
  have hp : (0 : ℚ) < (2 : ℚ) ^ prec := by positivity
  exact h.trans (div_le_div_of_nonneg_right hl hp.le)

/-- Rounding is monotone on the non-negative rationals. -/
theorem roundNearestEven_mono (prec : ℕ) (emin : ℤ) (hprec : 0 < prec) {p q : ℚ}
    (hp : 0 ≤ p) (hpq : p ≤ q) :
    roundNearestEven prec emin p ≤ roundNearestEven prec emin q := by
  rcases hp.lt_or_eq with hp0 | hp0
  swap
  · rw [← hp0, roundNearestEven_zero]
    exact roundNearestEven_nonneg prec emin (hp.trans hpq)
  have hq0 : 0 < q := hp0.trans_le hpq
  have hlog : Int.log 2 |p| ≤ Int.log 2 |q| := by
    apply Int.log_mono_right (abs_pos.mpr hp0.ne')
    rw [abs_of_pos hp0, abs_of_pos hq0]
    exact hpq
  have hE : ulpExp prec emin p ≤ ulpExp prec emin q := by
    unfold ulpExp
    exact max_le_max (by omega) le_rfl
  rcases hE.lt_or_eq with hlt | heq
  swap
  · unfold roundNearestEven
    rw [heq]
    have he0 := two_zpow_pos (ulpExp prec emin q)
    have hd : p / (2 : ℚ) ^ ulpExp prec emin q ≤ q / (2 : ℚ) ^ ulpExp prec emin q :=
      div_le_div_of_nonneg_right hpq he0.le
    have := roundHalfEven_mono hd
    have hc : (roundHalfEven (p / (2 : ℚ) ^ ulpExp prec emin q) : ℚ) ≤
        (roundHalfEven (q / (2 : ℚ) ^ ulpExp prec emin q) : ℚ) := by exact_mod_cast this
    exact mul_le_mul_of_nonneg_right hc he0.le
  -- different binades: a power of two separates the two roundings
  have hEq : ulpExp prec emin q = Int.log 2 |q| - ((prec : ℤ) - 1) := by
    have h1 := emin_le_ulpExp prec emin p
    unfold ulpExp at hlt ⊢
    rcases max_cases (Int.log 2 |q| - ((prec : ℤ) - 1)) emin with ⟨h, _⟩ | ⟨h, _⟩
    · exact h
    · rw [h] at hlt
      unfold ulpExp at h1
      omega
  have hEp : Int.log 2 |p| - ((prec : ℤ) - 1) ≤ ulpExp prec emin p := le_max_left _ _
  obtain ⟨n, hn⟩ : ∃ n : ℕ, prec = n + 1 := ⟨prec - 1, by omega⟩
  -- upper bound for the rounding of p
  have hup : roundNearestEven prec emin p ≤ (2 : ℚ) ^ ((prec : ℤ) + ulpExp prec emin p) := by
    unfold roundNearestEven
    generalize ulpExp prec emin p = e at hEp
    have he0 := two_zpow_pos e
    have hplt : |p| < (2 : ℚ) ^ ((prec : ℤ) + e) :=
      (abs_lt_zpow_log_succ p).trans_le
        (zpow_le_zpow_right₀ (by norm_num) (by omega))
    rw [abs_of_pos hp0, zpow_add₀ (by norm_num : (2 : ℚ) ≠ 0), zpow_natCast] at hplt
    have hdiv : p / (2 : ℚ) ^ e ≤ ((2 ^ prec : ℤ) : ℚ) := by
      push_cast
      rw [div_le_iff₀ he0]
      exact hplt.le
    have := roundHalfEven_le_of_le hdiv
    have hc : (roundHalfEven (p / (2 : ℚ) ^ e) : ℚ) ≤ (2 : ℚ) ^ prec := by exact_mod_cast this
    rw [zpow_add₀ (by norm_num : (2 : ℚ) ≠ 0), zpow_natCast]
    exact mul_le_mul_of_nonneg_right hc he0.le
  -- lower bound for the rounding of q
  have hlo : (2 : ℚ) ^ ((n : ℤ) + ulpExp prec emin q) ≤ roundNearestEven prec emin q := by
    unfold roundNearestEven
    have hql := zpow_log_le_abs hq0.ne'
    rw [abs_of_pos hq0] at hql
    generalize ulpExp prec emin q = e at hEq
    have he0 := two_zpow_pos e
    have hlogq : Int.log 2 q = (n : ℤ) + e := by
      rw [abs_of_pos hq0] at hEq
      omega
    rw [hlogq, zpow_add₀ (by norm_num : (2 : ℚ) ≠ 0), zpow_natCast] at hql
    have hdiv : ((2 ^ n : ℤ) : ℚ) ≤ q / (2 : ℚ) ^ e := by
      push_cast
      rw [le_div_iff₀ he0]
      exact hql
    have := le_roundHalfEven_of_le hdiv
    have hc : (2 : ℚ) ^ n ≤ (roundHalfEven (q / (2 : ℚ) ^ e) : ℚ) := by exact_mod_cast this
    rw [zpow_add₀ (by norm_num : (2 : ℚ) ≠ 0), zpow_natCast]
    exact mul_le_mul_of_nonneg_right hc he0.le
  have hmid : (2 : ℚ) ^ ((prec : ℤ) + ulpExp prec emin p) ≤
      (2 : ℚ) ^ ((n : ℤ) + ulpExp prec emin q) :=
    zpow_le_zpow_right₀ (by norm_num) (by omega)
  exact hup.trans (hmid.trans hlo)

theorem wrapInt_eq_self {z : ℤ} (h1 : -2 ^ 63 ≤ z) (h2 : z < 2 ^ 63) : wrapInt z = z := by
  unfold wrapInt
  omega

theorem tdiv_two_eq (d : ℤ) : Int.tdiv d 2 = if 0 ≤ d then d / 2 else -((-d) / 2) := by
  split_ifs with h
  · exact Int.tdiv_eq_ediv h (by norm_num)
  · have h2 : Int.tdiv (-d) 2 = (-d) / 2 := Int.tdiv_eq_ediv (by omega) (by norm_num)
    rw [← h2, Int.neg_tdiv, neg_neg]

theorem f64_exact (m k : ℤ) (hm : |m| < 2 ^ 53) (hk : -1074 ≤ k) :
    f64 ((m : ℚ) * (2 : ℚ) ^ k) = (m : ℚ) * (2 : ℚ) ^ k :=
  roundNearestEven_exact 53 (-1074) m k hm hk

theorem float64OfInt_exact (n : ℤ) (hn : |n| < 2 ^ 53) : float64OfInt n = n := by
  have h := f64_exact n 0 hn (by norm_num)
  simpa [float64OfInt] using h

/-- The float64 evaluation of `(n + 0.5)^2 + (k + 0.5)^2` is exact for moderate `n`, `k`. -/
theorem circle_lhs_exact (n k : ℤ) (hn : |n| < 2 ^ 25 + 2 ^ 23) (hk : |k| < 2 ^ 25 + 2 ^ 23) :
    addF64 (mulF64 (addF64 (float64OfInt n) (1 / 2)) (addF64 (float64OfInt n) (1 / 2)))
        (mulF64 (addF64 (float64OfInt k) (1 / 2)) (addF64 (float64OfInt k) (1 / 2))) =
      (((2 * n + 1) ^ 2 + (2 * k + 1) ^ 2 : ℤ) : ℚ) / 4 := by
  have hn' := abs_lt.mp hn
  have hk' := abs_lt.mp hk
  have half : ∀ j : ℤ, |j| < 2 ^ 25 + 2 ^ 23 →
      addF64 (float64OfInt j) (1 / 2) = ((2 * j + 1 : ℤ) : ℚ) * (2 : ℚ) ^ (-1 : ℤ) := by
    intro j hj
    have hj' := abs_lt.mp hj
    rw [float64OfInt_exact j (by rw [abs_lt]; constructor <;> omega)]
    have e : (j : ℚ) + 1 / 2 = ((2 * j + 1 : ℤ) : ℚ) * (2 : ℚ) ^ (-1 : ℤ) := by
      push_cast
      norm_num
      ring
    unfold addF64
    rw [e]
    exact f64_exact _ _ (by rw [abs_lt]; constructor <;> omega) (by norm_num)
  have sq : ∀ j : ℤ, |j| < 2 ^ 25 + 2 ^ 23 →
      mulF64 (((2 * j + 1 : ℤ) : ℚ) * (2 : ℚ) ^ (-1 : ℤ))
          (((2 * j + 1 : ℤ) : ℚ) * (2 : ℚ) ^ (-1 : ℤ)) =
        (((2 * j + 1) ^ 2 : ℤ) : ℚ) * (2 : ℚ) ^ (-2 : ℤ) := by
    intro j hj
    have hj' := abs_lt.mp hj
    have e : ((2 * j + 1 : ℤ) : ℚ) * (2 : ℚ) ^ (-1 : ℤ) *
        (((2 * j + 1 : ℤ) : ℚ) * (2 : ℚ) ^ (-1 : ℤ)) =
        (((2 * j + 1) ^ 2 : ℤ) : ℚ) * (2 : ℚ) ^ (-2 : ℤ) := by
      push_cast
      norm_num
      ring
    unfold mulF64
    rw [e]
    refine f64_exact _ _ ?_ (by norm_num)
    rw [abs_lt]
    constructor <;> nlinarith
  rw [half n hn, half k hk, sq n hn, sq k hk]
  obtain ⟨c, hc⟩ : ∃ c : ℤ, (2 * n + 1) ^ 2 + (2 * k + 1) ^ 2 = 2 * c :=
    ⟨2 * n ^ 2 + 2 * n + 2 * k ^ 2 + 2 * k + 1, by ring⟩
  have e : (((2 * n + 1) ^ 2 : ℤ) : ℚ) * (2 : ℚ) ^ (-2 : ℤ) +
      (((2 * k + 1) ^ 2 : ℤ) : ℚ) * (2 : ℚ) ^ (-2 : ℤ) = (c : ℚ) * (2 : ℚ) ^ (-1 : ℤ) := by
    have hc' : (((2 * n + 1) ^ 2 : ℤ) : ℚ) + (((2 * k + 1) ^ 2 : ℤ) : ℚ) = 2 * (c : ℚ) := by
      exact_mod_cast hc
    have : ((2 : ℚ) ^ (-2 : ℤ)) = 1 / 4 := by norm_num
    rw [this]
    have : ((2 : ℚ) ^ (-1 : ℤ)) = 1 / 2 := by norm_num
    rw [this]
    linarith
  unfold addF64
  rw [e, f64_exact c (-1) (by rw [abs_lt]; constructor <;> nlinarith) (by norm_num)]
  have hc' : ((((2 * n + 1) ^ 2 + (2 * k + 1) ^ 2 : ℤ)) : ℚ) = 2 * (c : ℚ) := by
    exact_mod_cast hc
  rw [hc']
  norm_num
  ring

/-! ## Theorems: the circle test -/

/-- Within the range where float64 is exact, the comparison of `circleAtFunc` is the
comparison `(2n+1)^2 + (2k+1)^2 < 4*R^2` of integers. -/
theorem circleTest_iff (n k R : ℤ) (hn : |n| < 2 ^ 25 + 2 ^ 23) (hk : |k| < 2 ^ 25 + 2 ^ 23)
    (hR : |R| < 2 ^ 26) :
    circleTest n k R = true ↔ (2 * n + 1) ^ 2 + (2 * k + 1) ^ 2 < 4 * R ^ 2 := by
  rw [abs_lt] at hR
  unfold circleTest
  have hL := circle_lhs_exact n k hn hk
  have hRR : mulF64 (float64OfInt R) (float64OfInt R) = ((R ^ 2 : ℤ) : ℚ) := by
    rw [float64OfInt_exact R (by rw [abs_lt]; constructor <;> omega)]
    have h := f64_exact (R ^ 2) 0 (by rw [abs_lt]; constructor <;> nlinarith) (by norm_num)
    unfold mulF64
    rw [zpow_zero, mul_one] at h
    rw [← h]
    push_cast
    ring_nf
  simp only [hL, hRR]
  rw [decide_eq_true_iff, div_lt_iff₀ (by norm_num : (0 : ℚ) < 4)]
  rw [show ((R ^ 2 : ℤ) : ℚ) * 4 = ((4 * R ^ 2 : ℤ) : ℚ) by push_cast; ring]
  exact Int.cast_lt

/-- The rational and the integer form of the circle test agree. -/
theorem circleSpec_iff_int (I : Rectangle) (x y : ℤ) :
    circleSpec I x y ↔ circleSpecInt I x y := by
  unfold circleSpec circleSpecInt
  generalize Int.tdiv (I.Max.X - I.Min.X) 2 = X
  generalize Int.tdiv (I.Max.Y - I.Min.Y) 2 = Y
  generalize x - I.Min.X = a
  generalize y - I.Min.Y = c
  rw [← @Int.cast_lt ℚ]
  push_cast
  constructor <;> intro h <;> nlinarith

/-- C1. Circle shape test.  For a mask with inner region `I` and a pixel `(x, y)`, when the
pixel coordinates, the coordinates of `I.Min` and the sizes `I.Max - I.Min` have magnitude
below `2^24` (which the bound on all coordinates and sizes implies), the float64 evaluation in
`circleAtFunc` is exact: the pixel is treated as inside exactly when
`(x' - X + 1/2)^2 + (y' - Y + 1/2)^2 < R^2` holds over the rationals, with `x' = x - I.Min.X`,
`y' = y - I.Min.Y`, `X = Dx(I)/2`, `Y = Dy(I)/2`, `R = Dx(I)/2` (truncating division, the
radius from the width only); equivalently `(2(x'-X)+1)^2 + (2(y'-Y)+1)^2 < 4*R^2` over the
integers. -/
theorem circle_test_exact (m : AlphaMask) (x y : ℤ)
    (hx : |x| < 2 ^ 24) (hy : |y| < 2 ^ 24)
    (hminX : |m.Inner.Min.X| < 2 ^ 24) (hminY : |m.Inner.Min.Y| < 2 ^ 24)
    (hdx : |m.Inner.Max.X - m.Inner.Min.X| < 2 ^ 24)
    (hdy : |m.Inner.Max.Y - m.Inner.Min.Y| < 2 ^ 24) :
    (circleInside m x y = true ↔ circleSpec m.Inner x y) ∧
      (circleSpec m.Inner x y ↔ circleSpecInt m.Inner x y) ∧
      circleAtFunc m x y = alphaOf (circleInside m x y) m.Reverse := by
  refine ⟨?_, circleSpec_iff_int m.Inner x y, rfl⟩
  rw [circleSpec_iff_int]
  rw [abs_lt] at hx hy hminX hminY hdx hdy
  have hX := tdiv_two_eq (m.Inner.Max.X - m.Inner.Min.X)
  have hY := tdiv_two_eq (m.Inner.Max.Y - m.Inner.Min.Y)
  generalize hXd : Int.tdiv (m.Inner.Max.X - m.Inner.Min.X) 2 = X at hX
  generalize hYd : Int.tdiv (m.Inner.Max.Y - m.Inner.Min.Y) 2 = Y at hY
  have hXb : -2 ^ 23 < X ∧ X < 2 ^ 23 := by
    split_ifs at hX <;> constructor <;> omega
  have hYb : -2 ^ 23 < Y ∧ Y < 2 ^ 23 := by
    split_ifs at hY <;> constructor <;> omega
  unfold circleInside circleSpecInt
  simp only [Rectangle.Dx, Rectangle.Dy]
  have w1 := wrapInt_eq_self (z := m.Inner.Max.X - m.Inner.Min.X) (by omega) (by omega)
  have w2 := wrapInt_eq_self (z := m.Inner.Max.Y - m.Inner.Min.Y) (by omega) (by omega)
  have w3 := wrapInt_eq_self (z := x - m.Inner.Min.X) (by omega) (by omega)
  have w4 := wrapInt_eq_self (z := y - m.Inner.Min.Y) (by omega) (by omega)
  have w5 := wrapInt_eq_self (z := x - m.Inner.Min.X - X) (by omega) (by omega)
  have w6 := wrapInt_eq_self (z := y - m.Inner.Min.Y - Y) (by omega) (by omega)
  simp only [w1, w2, w3, w4, hXd, hYd, w5, w6]
  exact circleTest_iff _ _ _ (by rw [abs_lt]; constructor <;> omega)
    (by rw [abs_lt]; constructor <;> omega) (by rw [abs_lt]; constructor <;> omega)

theorem circle_test_exact_witness :
    |(250 : ℤ)| < 2 ^ 24 ∧ |(50 : ℤ)| < 2 ^ 24 ∧ |exampleMask.Inner.Min.X| < 2 ^ 24 ∧
      |exampleMask.Inner.Min.Y| < 2 ^ 24 ∧
      |exampleMask.Inner.Max.X - exampleMask.Inner.Min.X| < 2 ^ 24 ∧
      |exampleMask.Inner.Max.Y - exampleMask.Inner.Min.Y| < 2 ^ 24 ∧
      ((circleInside exampleMask 250 50 = true ↔ circleSpec exampleMask.Inner 250 50) ∧
        (circleSpec exampleMask.Inner 250 50 ↔ circleSpecInt exampleMask.Inner 250 50) ∧
        circleAtFunc exampleMask 250 50 =
          alphaOf (circleInside exampleMask 250 50) exampleMask.Reverse) :=
  ⟨by norm_num [abs_lt], by norm_num [abs_lt], by norm_num [abs_lt, exampleMask],
    by norm_num [abs_lt, exampleMask], by norm_num [abs_lt, exampleMask],
    by norm_num [abs_lt, exampleMask],
    circle_test_exact exampleMask 250 50 (by norm_num [abs_lt]) (by norm_num [abs_lt])
      (by norm_num [abs_lt, exampleMask]) (by norm_num [abs_lt, exampleMask])
      (by norm_num [abs_lt, exampleMask]) (by norm_num [abs_lt, exampleMask])⟩

/-! ## Theorems: the masks -/

theorem alphaOf_A (inner reverse : Bool) :
    (alphaOf inner reverse).A = if inner = reverse then 0 else 255 := by
  cases inner <;> cases reverse <;> rfl

/-- C2. Rectangle shape test.  The non-reversed rectangle mask has opacity 255 exactly at the
pixels of the half-open inner region, `Min.X <= x < Max.X` and `Min.Y <= y < Max.Y`, and
opacity 0 exactly at the others; in particular it is 0 at every pixel with `x = I.Max.X` and
at every pixel with `y = I.Max.Y`. -/
theorem rectangle_mask_opacity (O I : Rectangle) (x y : ℤ) :
    ((rectangleAtFunc ⟨O, I, false, Shape.rectangle⟩ x y).A = 255 ↔
        (I.Min.X ≤ x ∧ x < I.Max.X ∧ I.Min.Y ≤ y ∧ y < I.Max.Y)) ∧
      ((rectangleAtFunc ⟨O, I, false, Shape.rectangle⟩ x y).A = 0 ↔
        ¬ (I.Min.X ≤ x ∧ x < I.Max.X ∧ I.Min.Y ≤ y ∧ y < I.Max.Y)) ∧
      (rectangleAtFunc ⟨O, I, false, Shape.rectangle⟩ I.Max.X y).A = 0 ∧
      (rectangleAtFunc ⟨O, I, false, Shape.rectangle⟩ x I.Max.Y).A = 0 ∧
      (AlphaMask.mk O I false Shape.rectangle).At x y =
        rectangleAtFunc ⟨O, I, false, Shape.rectangle⟩ x y := by
  have key : ∀ a b : ℤ, ((rectangleAtFunc ⟨O, I, false, Shape.rectangle⟩ a b).A = 255 ↔
      (I.Min.X ≤ a ∧ a < I.Max.X ∧ I.Min.Y ≤ b ∧ b < I.Max.Y)) ∧
      ((rectangleAtFunc ⟨O, I, false, Shape.rectangle⟩ a b).A = 0 ↔
      ¬ (I.Min.X ≤ a ∧ a < I.Max.X ∧ I.Min.Y ≤ b ∧ b < I.Max.Y)) := by
    intro a b
    have hin : (Pt a b).In I = true ↔
        (I.Min.X ≤ a ∧ a < I.Max.X ∧ I.Min.Y ≤ b ∧ b < I.Max.Y) := by
      simp [Point.In, Pt, and_assoc]
    rw [← hin]
    cases h : (Pt a b).In I <;> simp [rectangleAtFunc, alphaOf, h]
  refine ⟨(key x y).1, (key x y).2, ?_, ?_, rfl⟩
  · rw [(key I.Max.X y).2]
    omega
  · rw [(key x I.Max.Y).2]
    omega

/-- C3. `alphaOf` is 255 when `inside` differs from `reverse` and 0 when they agree
(`f(true,false)=255`, `f(false,false)=0`, `f(true,true)=0`, `f(false,true)=255`); hence the
opacity of every mask, circle or rectangle, at every pixel is defined and is 0 or 255. -/
theorem alphaOf_table_and_binary :
    (∀ inside reverse : Bool,
        (alphaOf inside reverse).A = if inside = reverse then 0 else 255) ∧
      (alphaOf true false).A = 255 ∧ (alphaOf false false).A = 0 ∧
      (alphaOf true true).A = 0 ∧ (alphaOf false true).A = 255 ∧
      (∀ (m : AlphaMask) (x y : ℤ), (m.At x y).A = 0 ∨ (m.At x y).A = 255) := by
  refine ⟨alphaOf_A, rfl, rfl, rfl, rfl, ?_⟩
  intro m x y
  have h : ∀ a b : Bool, (alphaOf a b).A = 0 ∨ (alphaOf a b).A = 255 := by
    intro a b
    cases a <;> cases b <;> simp [alphaOf]
  unfold AlphaMask.At
  cases m.AtFunc
  · exact h _ _
  · exact h _ _

/-- C4. Reversal is a strict complement: for either shape, every outer and inner region,
every pixel and every flag `rev`, the opacity with `Reverse = rev` is 255 minus the opacity
with `Reverse = !rev` (and the two opacities add up to 255). -/
theorem reverse_complement (s : Shape) (O I : Rectangle) (x y : ℤ) (rev : Bool) :
    ((AlphaMask.mk O I rev s).At x y).A = 255 - ((AlphaMask.mk O I (!rev) s).At x y).A ∧
      ((AlphaMask.mk O I rev s).At x y).A + ((AlphaMask.mk O I (!rev) s).At x y).A = 255 := by
  have h : ∀ a b : Bool, (alphaOf a b).A = 255 - (alphaOf a (!b)).A ∧
      (alphaOf a b).A + (alphaOf a (!b)).A = 255 := by
    intro a b
    cases a <;> cases b <;> simp [alphaOf]
  have hc : circleInside ⟨O, I, rev, Shape.circle⟩ x y =
      circleInside ⟨O, I, !rev, Shape.circle⟩ x y := rfl
  cases s
  · simp only [AlphaMask.At, circleAtFunc, hc]
    exact h _ _
  · simp only [AlphaMask.At, rectangleAtFunc]
    exact h _ _

/-! ## Theorems: the badge size -/

theorem f32_exact (m k : ℤ) (hm : |m| < 2 ^ 24) (hk : -149 ≤ k) :
    f32 ((m : ℚ) * (2 : ℚ) ^ k) = (m : ℚ) * (2 : ℚ) ^ k :=
  roundNearestEven_exact 24 (-149) m k hm hk

theorem f32_mono {p q : ℚ} (hp : 0 ≤ p) (hpq : p ≤ q) : f32 p ≤ f32 q :=
  roundNearestEven_mono 24 (-149) (by norm_num) hp hpq

theorem f64_mono {p q : ℚ} (hp : 0 ≤ p) (hpq : p ≤ q) : f64 p ≤ f64 q :=
  roundNearestEven_mono 53 (-1074) (by norm_num) hp hpq

theorem f32_intCast_exact (n : ℤ) (hn : |n| < 2 ^ 24) : f32 (n : ℚ) = n := by
  have h := f32_exact n 0 hn (by norm_num)
  simpa using h

/-- Every integer of magnitude at most `2^24` is a float32. -/
theorem float32OfInt_exact (n : ℤ) (hn : |n| ≤ 2 ^ 24) : float32OfInt n = n := by
  unfold float32OfInt
  rcases hn.lt_or_eq with h | h
  · exact f32_intCast_exact n h
  · rcases abs_eq (by norm_num : (0 : ℤ) ≤ 2 ^ 24) |>.mp h with h | h
    · have e := f32_exact 1 24 (by norm_num) (by norm_num)
      rw [h]
      norm_num at e ⊢
      exact e
    · have e := f32_exact (-1) 24 (by norm_num) (by norm_num)
      rw [h]
      norm_num at e ⊢
      exact e

/-- Relative error of a float32 rounding of a rational of magnitude at least `1/4`. -/
theorem abs_f32_sub_le {q : ℚ} (hq : 1 / 4 ≤ |q|) : |f32 q - q| ≤ |q| / 2 ^ 24 := by
  have hq0 : q ≠ 0 := by
    intro h
    rw [h, abs_zero] at hq
    norm_num at hq
  have hl : (-2 : ℤ) ≤ Int.log 2 |q| := le_log_of_le_abs hq0 (by norm_num; linarith)
  exact abs_roundNearestEven_sub_le_rel 24 (-149) q hq0 (by push_cast; omega)

theorem truncToInt_of_nonneg {q : ℚ} (hq : 0 ≤ q) (h : ⌊q⌋ < 2 ^ 63) :
    truncToInt q = ⌊q⌋ := by
  unfold truncToInt
  rw [if_pos hq]
  exact wrapInt_eq_self (by have := Int.floor_nonneg.mpr hq; omega) h

theorem badgeSize_zero : badgeSize 0 = 0 := by
  simp [badgeSize, float32OfInt, divF32, f32, roundNearestEven_zero, truncToInt, wrapInt]

/-- The float32 value `float32(d) / 3` of a non-negative `int` is non-negative and at most
half of `d`. -/
theorem badge_float_bounds (d : ℤ) (h0 : 0 ≤ d) :
    0 ≤ f32 (f32 (d : ℚ) / 3) ∧ 2 * f32 (f32 (d : ℚ) / 3) ≤ d := by
  rcases h0.lt_or_eq with hpos | hz
  swap
  · rw [← hz]
    simp [f32, roundNearestEven_zero]
  have hd1 : (1 : ℚ) ≤ (d : ℚ) := by exact_mod_cast hpos
  have e1 := abs_f32_sub_le (q := (d : ℚ)) (by rw [abs_of_pos (by linarith)]; linarith)
  rw [abs_of_pos (by linarith : (0 : ℚ) < d), abs_le] at e1
  have ha : (1 : ℚ) / 2 ≤ f32 (d : ℚ) := by
    have : (d : ℚ) / 2 ^ 24 ≤ (d : ℚ) / 2 := by
      apply div_le_div_of_nonneg_left <;> norm_num
      linarith
    linarith [e1.1]
  have hq : (1 : ℚ) / 4 ≤ |f32 (d : ℚ) / 3| := by
    rw [abs_of_pos (by linarith)]
    linarith
  have e2 := abs_f32_sub_le hq
  rw [abs_of_pos (by linarith : (0 : ℚ) < f32 (d : ℚ) / 3), abs_le] at e2
  have hb0 : 0 ≤ f32 (f32 (d : ℚ) / 3) :=
    roundNearestEven_nonneg 24 (-149) (by linarith)
  have h24 : ((2 : ℚ) ^ 24) = 16777216 := by norm_num
  rw [h24] at e1 e2
  exact ⟨hb0, by linarith [e1.2, e2.2]⟩

/-- For a non-negative `int` the badge size is the integer part of the float32 quotient. -/
theorem badgeSize_eq_floor (d : ℤ) (h0 : 0 ≤ d) (h1 : d < 2 ^ 63) :
    badgeSize d = ⌊f32 (f32 (d : ℚ) / 3)⌋ := by
  obtain ⟨hb0, hb⟩ := badge_float_bounds d h0
  have hfl : (⌊f32 (f32 (d : ℚ) / 3)⌋ : ℚ) ≤ f32 (f32 (d : ℚ) / 3) := Int.floor_le _
  have hfl2 : 2 * ⌊f32 (f32 (d : ℚ) / 3)⌋ ≤ d := by
    have : (2 : ℚ) * (⌊f32 (f32 (d : ℚ) / 3)⌋ : ℚ) ≤ d := by linarith
    exact_mod_cast this
  have hfl0 : 0 ≤ ⌊f32 (f32 (d : ℚ) / 3)⌋ := Int.floor_nonneg.mpr hb0
  unfold badgeSize divF32 float32OfInt
  exact truncToInt_of_nonneg hb0 (by omega)

/-- The badge size of a non-negative `int` is non-negative and at most half of it. -/
theorem badgeSize_bounds (d : ℤ) (h0 : 0 ≤ d) (h1 : d < 2 ^ 63) :
    0 ≤ badgeSize d ∧ 2 * badgeSize d ≤ d := by
  obtain ⟨hb0, hb⟩ := badge_float_bounds d h0
  rw [badgeSize_eq_floor d h0 h1]
  have hfl : (⌊f32 (f32 (d : ℚ) / 3)⌋ : ℚ) ≤ f32 (f32 (d : ℚ) / 3) := Int.floor_le _
  refine ⟨Int.floor_nonneg.mpr hb0, ?_⟩
  have : (2 : ℚ) * (⌊f32 (f32 (d : ℚ) / 3)⌋ : ℚ) ≤ d := by linarith
  exact_mod_cast this

/-- A source dimension of at least 3 gives a badge size of at least 1. -/
theorem one_le_badgeSize (d : ℤ) (h3 : 3 ≤ d) (h1 : d < 2 ^ 63) : 1 ≤ badgeSize d := by
  have hd3 : (3 : ℚ) ≤ (d : ℚ) := by exact_mod_cast h3
  have e3 : f32 (3 : ℚ) = 3 := by
    have := f32_intCast_exact 3 (by norm_num)
    simpa using this
  have e1 : f32 (1 : ℚ) = 1 := by
    have := f32_intCast_exact 1 (by norm_num)
    simpa using this
  have ha : (3 : ℚ) ≤ f32 (d : ℚ) := by
    have := f32_mono (by norm_num) hd3
    rwa [e3] at this
  have hbq : (1 : ℚ) ≤ f32 (f32 (d : ℚ) / 3) := by
    have := f32_mono (p := 1) (q := f32 (d : ℚ) / 3) (by norm_num) (by linarith)
    rwa [e1] at this
  rw [badgeSize_eq_floor d (by omega) h1]
  exact Int.le_floor.mpr (by exact_mod_cast hbq)

/-- The float32 quotient by 3 of an integer below `3 * 2^23` has the integer part of the
exact quotient. -/
theorem floor_f32_div_three (a : ℤ) (h0 : 0 ≤ a) (h1 : a < 3 * 2 ^ 23) :
    ⌊f32 ((a : ℚ) / 3)⌋ = a / 3 := by
  have hk0 : 0 ≤ a / 3 := by omega
  have hdecomp : a = 3 * (a / 3) + a % 3 := by omega
  have hr : a % 3 = 0 ∨ a % 3 = 1 ∨ a % 3 = 2 := by omega
  generalize a / 3 = k at hk0 hdecomp
  generalize a % 3 = r at hdecomp hr
  have hk1 : k < 2 ^ 23 := by omega
  have hkq : (0 : ℚ) ≤ (k : ℚ) := by exact_mod_cast hk0
  have hkq1 : (k : ℚ) < 2 ^ 23 := by exact_mod_cast hk1
  have haq : (a : ℚ) / 3 = k + (r : ℚ) / 3 := by
    rw [hdecomp]
    push_cast
    ring
  rw [haq]
  rcases hr with hr | hr
  · rw [hr]
    have := f32_intCast_exact k (by rw [abs_lt]; constructor <;> omega)
    simp only [Int.cast_zero, zero_div, add_zero, this, Int.floor_intCast]
  · have hrq : (1 : ℚ) / 3 ≤ (r : ℚ) / 3 ∧ (r : ℚ) / 3 ≤ 2 / 3 := by
      rcases hr with hr | hr <;> rw [hr] <;> norm_num
    obtain ⟨q, hqdef⟩ : ∃ q : ℚ, q = k + (r : ℚ) / 3 := ⟨_, rfl⟩
    rw [← hqdef]
    have hqpos : 0 < q := by linarith [hrq.1]
    have hq0 : q ≠ 0 := hqpos.ne'
    have hqlt : |q| < (2 : ℚ) ^ (23 : ℤ) := by
      rw [abs_of_pos hqpos]
      have : (k : ℚ) ≤ 2 ^ 23 - 1 := by
        have : k ≤ 2 ^ 23 - 1 := by omega
        exact_mod_cast this
      norm_num at this ⊢
      linarith [hrq.2]
    have hlog := log_lt_of_abs_lt hq0 hqlt
    have hE : ulpExp 24 (-149) q ≤ -1 := by
      unfold ulpExp
      exact max_le (by push_cast; omega) (by norm_num)
    have herr := abs_roundNearestEven_sub_le 24 (-149) q
    have hpow : (2 : ℚ) ^ ulpExp 24 (-149) q ≤ (2 : ℚ) ^ (-1 : ℤ) :=
      zpow_le_zpow_right₀ (by norm_num) hE
    have hhalf : ((2 : ℚ) ^ (-1 : ℤ)) = 1 / 2 := by norm_num
    rw [hhalf] at hpow
    rw [abs_le] at herr
    rw [Int.floor_eq_iff]
    unfold f32
    constructor <;> linarith [herr.1, herr.2, hrq.1, hrq.2]

/-- In the binade `[2^24, 2^25)` the float32 numbers are the even integers. -/
theorem float32OfInt_binade24 (n : ℤ) (h0 : 2 ^ 24 ≤ n) (h1 : n < 2 ^ 25) :
    float32OfInt n = (roundHalfEven ((n : ℚ) / 2) : ℚ) * 2 := by
  have hn : (0 : ℚ) < (n : ℚ) := by
    have : (0 : ℤ) < n := by omega
    exact_mod_cast this
  have h := roundNearestEven_eq_of_binade 24 (-149) (n : ℚ) 1
    (by
      rw [abs_of_pos hn]
      have : ((2 : ℤ) ^ 24 : ℚ) ≤ (n : ℚ) := by exact_mod_cast h0
      norm_num at this ⊢
      exact this)
    (by
      rw [abs_of_pos hn]
      have : (n : ℚ) < ((2 : ℤ) ^ 25 : ℚ) := by exact_mod_cast h1
      norm_num at this ⊢
      exact this)
    (by norm_num)
  simpa [float32OfInt, f32] using h

theorem floor_intCast_div_three (a : ℤ) : ⌊(a : ℚ) / 3⌋ = a / 3 := by
  rw [Int.floor_eq_iff]
  have hdecomp : a = 3 * (a / 3) + a % 3 := by omega
  have hr0 : 0 ≤ a % 3 := by omega
  have hr2 : a % 3 ≤ 2 := by omega
  generalize a / 3 = k at hdecomp
  generalize a % 3 = r at hdecomp hr0 hr2
  have hr0q : (0 : ℚ) ≤ (r : ℚ) := by exact_mod_cast hr0
  have hr2q : (r : ℚ) ≤ 2 := by exact_mod_cast hr2
  rw [hdecomp]
  push_cast
  constructor <;> linarith

/-- The badge size when `float32(d)` is the integer `a`, `a` below `3 * 2^23`. -/
theorem badgeSize_of_float32 (d a : ℤ) (hd0 : 0 ≤ d) (hd1 : d < 2 ^ 63)
    (ha : float32OfInt d = a) (h0 : 0 ≤ a) (h1 : a < 3 * 2 ^ 23) : badgeSize d = a / 3 := by
  rw [badgeSize_eq_floor d hd0 hd1]
  unfold float32OfInt at ha
  rw [ha]
  exact floor_f32_div_three a h0 h1

theorem float32OfInt_16777217 : float32OfInt 16777217 = (16777216 : ℤ) := by
  rw [float32OfInt_binade24 _ (by norm_num) (by norm_num)]
  norm_num [roundHalfEven]

theorem float32OfInt_16777218 : float32OfInt 16777218 = (16777218 : ℤ) := by
  rw [float32OfInt_binade24 _ (by norm_num) (by norm_num)]
  norm_num [roundHalfEven]

theorem float32OfInt_16777219 : float32OfInt 16777219 = (16777220 : ℤ) := by
  rw [float32OfInt_binade24 _ (by norm_num) (by norm_num)]
  norm_num [roundHalfEven]

theorem float32OfInt_16777220 : float32OfInt 16777220 = (16777220 : ℤ) := by
  rw [float32OfInt_binade24 _ (by norm_num) (by norm_num)]
  norm_num [roundHalfEven]

theorem float32OfInt_16777221 : float32OfInt 16777221 = (16777220 : ℤ) := by
  rw [float32OfInt_binade24 _ (by norm_num) (by norm_num)]
  norm_num [roundHalfEven]

/-- Up to 16777220 the badge size is the integer quotient by 3. -/
theorem badgeSize_eq_div (d : ℤ) (h0 : 0 ≤ d) (h1 : d ≤ 16777220) : badgeSize d = d / 3 := by
  by_cases hs : d ≤ 2 ^ 24
  · exact badgeSize_of_float32 d d h0 (by omega)
      (float32OfInt_exact d (by rw [abs_le]; constructor <;> omega)) h0 (by omega)
  · have hcases : d = 16777217 ∨ d = 16777218 ∨ d = 16777219 ∨ d = 16777220 := by omega
    rcases hcases with h | h | h | h <;> subst h
    · rw [badgeSize_of_float32 _ _ (by norm_num) (by norm_num) float32OfInt_16777217
        (by norm_num) (by norm_num)]
      norm_num
    · rw [badgeSize_of_float32 _ _ (by norm_num) (by norm_num) float32OfInt_16777218
        (by norm_num) (by norm_num)]
    · rw [badgeSize_of_float32 _ _ (by norm_num) (by norm_num) float32OfInt_16777219
        (by norm_num) (by norm_num)]
      norm_num
    · rw [badgeSize_of_float32 _ _ (by norm_num) (by norm_num) float32OfInt_16777220
        (by norm_num) (by norm_num)]

theorem badgeSize_16777221 : badgeSize 16777221 = 5592406 := by
  rw [badgeSize_of_float32 _ _ (by norm_num) (by norm_num) float32OfInt_16777221
    (by norm_num) (by norm_num)]
  norm_num

/-! ## Theorems: the layout -/

theorem circleRect_eq (W H : ℤ) (hW0 : 0 ≤ W) (hW1 : W < 2 ^ 63) (hH0 : 0 ≤ H)
    (hH1 : H < 2 ^ 63) :
    circleRect W H = ⟨⟨W - badgeSize W - 2, 0⟩, ⟨W, badgeSize H + 2⟩⟩ := by
  obtain ⟨hw0, hw1⟩ := badgeSize_bounds W hW0 hW1
  obtain ⟨hh0, hh1⟩ := badgeSize_bounds H hH0 hH1
  unfold circleRect Pt bw
  have e0 : wrapInt (2 * 1) = 2 := by unfold wrapInt; norm_num
  have e1 := wrapInt_eq_self (z := W - badgeSize W) (by omega) (by omega)
  have e2 := wrapInt_eq_self (z := W - badgeSize W - 2) (by omega) (by omega)
  have e3 := wrapInt_eq_self (z := badgeSize H + 2) (by omega) (by omega)
  simp only [e0, e1, e2, e3]

theorem cornerRect_eq (W H : ℤ) (hW0 : 0 ≤ W) (hW1 : W < 2 ^ 63) (hH0 : 0 ≤ H)
    (hH1 : H < 2 ^ 63) :
    cornerRect W H = ⟨⟨W - badgeSize W / 2 - 1, 0⟩, ⟨W, badgeSize H / 2 + 1⟩⟩ := by
  obtain ⟨hw0, hw1⟩ := badgeSize_bounds W hW0 hW1
  obtain ⟨hh0, hh1⟩ := badgeSize_bounds H hH0 hH1
  unfold cornerRect Pt bw
  have t1 : Int.tdiv (badgeSize W) 2 = badgeSize W / 2 := Int.tdiv_eq_ediv hw0 (by norm_num)
  have t2 : Int.tdiv (badgeSize H) 2 = badgeSize H / 2 := Int.tdiv_eq_ediv hh0 (by norm_num)
  have e1 := wrapInt_eq_self (z := W - badgeSize W / 2) (by omega) (by omega)
  have e2 := wrapInt_eq_self (z := W - badgeSize W / 2 - 1) (by omega) (by omega)
  have e3 := wrapInt_eq_self (z := badgeSize H / 2 + 1) (by omega) (by omega)
  simp only [t1, t2, e1, e2, e3]

theorem dogRect_eq (W H : ℤ) (hW0 : 0 ≤ W) (hW1 : W < 2 ^ 63) (hH0 : 0 ≤ H)
    (hH1 : H < 2 ^ 63) :
    dogRect W H = ⟨⟨W - badgeSize W - 1, 1⟩, ⟨W - 1, badgeSize H + 1⟩⟩ := by
  obtain ⟨hw0, hw1⟩ := badgeSize_bounds W hW0 hW1
  obtain ⟨hh0, hh1⟩ := badgeSize_bounds H hH0 hH1
  unfold dogRect Pt bw
  have e1 := wrapInt_eq_self (z := W - badgeSize W) (by omega) (by omega)
  have e2 := wrapInt_eq_self (z := W - badgeSize W - 1) (by omega) (by omega)
  have e3 := wrapInt_eq_self (z := badgeSize H + 1) (by omega) (by omega)
  have e4 := wrapInt_eq_self (z := W - 1) (by omega) (by omega)
  simp only [e1, e2, e3, e4]

/-- C5. Layout rectangles.  For every source size `(W, H)` (non-negative `int`s), with
`w = int(float32(W)/3)`, `h = int(float32(H)/3)` and `bw = 1`, the program builds
`circleRect = [W - w - 2*bw, 0]..[W, h + 2*bw]`,
`cornerRect = [W - w/2 - bw, 0]..[W, h/2 + bw]` (truncating division) and
`dogRect = [W - w - bw, bw]..[W - bw, h + bw]`; no `int` operation overflows. -/
theorem layout_rectangles (W H : ℤ) (hW0 : 0 ≤ W) (hW1 : W < 2 ^ 63) (hH0 : 0 ≤ H)
    (hH1 : H < 2 ^ 63) :
    bw = 1 ∧
      circleRect W H =
        ⟨⟨W - badgeSize W - 2 * bw, 0⟩, ⟨W, badgeSize H + 2 * bw⟩⟩ ∧
      cornerRect W H =
        ⟨⟨W - Int.tdiv (badgeSize W) 2 - bw, 0⟩, ⟨W, Int.tdiv (badgeSize H) 2 + bw⟩⟩ ∧
      dogRect W H = ⟨⟨W - badgeSize W - bw, bw⟩, ⟨W - bw, badgeSize H + bw⟩⟩ := by
  obtain ⟨hw0, -⟩ := badgeSize_bounds W hW0 hW1
  obtain ⟨hh0, -⟩ := badgeSize_bounds H hH0 hH1
  have t1 : Int.tdiv (badgeSize W) 2 = badgeSize W / 2 := Int.tdiv_eq_ediv hw0 (by norm_num)
  have t2 : Int.tdiv (badgeSize H) 2 = badgeSize H / 2 := Int.tdiv_eq_ediv hh0 (by norm_num)
  refine ⟨rfl, ?_, ?_, ?_⟩
  · rw [circleRect_eq W H hW0 hW1 hH0 hH1]
    simp [bw]
  · rw [cornerRect_eq W H hW0 hW1 hH0 hH1, t1, t2]
    simp [bw]
  · rw [dogRect_eq W H hW0 hW1 hH0 hH1]
    simp [bw]

theorem layout_rectangles_witness :
    (0 : ℤ) ≤ 300 ∧ (300 : ℤ) < 2 ^ 63 ∧
      (bw = 1 ∧
        circleRect 300 300 =
          ⟨⟨300 - badgeSize 300 - 2 * bw, 0⟩, ⟨300, badgeSize 300 + 2 * bw⟩⟩ ∧
        cornerRect 300 300 =
          ⟨⟨300 - Int.tdiv (badgeSize 300) 2 - bw, 0⟩,
            ⟨300, Int.tdiv (badgeSize 300) 2 + bw⟩⟩ ∧
        dogRect 300 300 = ⟨⟨300 - badgeSize 300 - bw, bw⟩, ⟨300 - bw, badgeSize 300 + bw⟩⟩) :=
  ⟨by norm_num, by norm_num,
    layout_rectangles 300 300 (by norm_num) (by norm_num) (by norm_num) (by norm_num)⟩

/-- C6 (counterexample). For the width 16777221 the program computes
`int(float32(W)/3) = 5592406`, while `floor(W / 3) = 5592407`: `float32(16777221)` is
`16777220`. -/
theorem badgeSize_ne_floor_third :
    badgeSize 16777221 = 5592406 ∧ ⌊((16777221 : ℤ) : ℚ) / 3⌋ = 5592407 ∧
      badgeSize 16777221 ≠ ⌊((16777221 : ℤ) : ℚ) / 3⌋ := by
  have h : ⌊((16777221 : ℤ) : ℚ) / 3⌋ = 5592407 := by
    rw [floor_intCast_div_three]
    norm_num
  refine ⟨badgeSize_16777221, h, ?_⟩
  rw [badgeSize_16777221, h]
  norm_num

/-- C6 (amended). Badge content size: for every source image of width `0 <= W <= 16777220`
and height `0 <= H <= 16777220`, the values computed by the program as `int(float32(W)/3)`
and `int(float32(H)/3)` are `w = floor(W / 3)` and `h = floor(H / 3)`. -/
theorem badgeSize_eq_floor_third (W H : ℤ) (hW0 : 0 ≤ W) (hW1 : W ≤ 16777220) (hH0 : 0 ≤ H)
    (hH1 : H ≤ 16777220) :
    badgeSize W = ⌊(W : ℚ) / 3⌋ ∧ badgeSize H = ⌊(H : ℚ) / 3⌋ := by
  rw [floor_intCast_div_three, floor_intCast_div_three]
  exact ⟨badgeSize_eq_div W hW0 hW1, badgeSize_eq_div H hH0 hH1⟩

theorem badgeSize_eq_floor_third_witness :
    (0 : ℤ) ≤ 300 ∧ (300 : ℤ) ≤ 16777220 ∧ (0 : ℤ) ≤ 16777220 ∧
      (16777220 : ℤ) ≤ 16777220 ∧
      (badgeSize 300 = ⌊((300 : ℤ) : ℚ) / 3⌋ ∧
        badgeSize 16777220 = ⌊((16777220 : ℤ) : ℚ) / 3⌋) :=
  ⟨by norm_num, by norm_num, by norm_num, by norm_num,
    badgeSize_eq_floor_third 300 16777220 (by norm_num) (by norm_num) (by norm_num)
      (by norm_num)⟩

theorem badgeSize_30 : badgeSize 30 = 10 := by
  rw [badgeSize_eq_div 30 (by norm_num) (by norm_num)]
  norm_num

/-- C10 (counterexample). For a 30 x 30 source, `cornerRect` has 36 pixels and `dogRect` has
100: the area of `cornerRect` is below the area of `dogRect`. -/
theorem area_cornerRect_lt_dogRect :
    (cornerRect 30 30).area = 36 ∧ (dogRect 30 30).area = 100 ∧
      ¬ ((cornerRect 30 30).area ≥ (dogRect 30 30).area) := by
  have h1 : (cornerRect 30 30).area = 36 := by
    rw [cornerRect_eq 30 30 (by norm_num) (by norm_num) (by norm_num) (by norm_num),
      badgeSize_30]
    norm_num [Rectangle.area]
  have h2 : (dogRect 30 30).area = 100 := by
    rw [dogRect_eq 30 30 (by norm_num) (by norm_num) (by norm_num) (by norm_num),
      badgeSize_30]
    norm_num [Rectangle.area]
  refine ⟨h1, h2, ?_⟩
  rw [h1, h2]
  norm_num

/-- C10 (amended). Area ordering of the layout: for every source size `(W, H)` with
`W, H >= 0`, `area(circleRect) >= area(cornerRect)` and `area(circleRect) >= area(dogRect)`;
`area(cornerRect) >= area(dogRect)` holds when `W <= 8` and `H <= 8`. -/
theorem area_ordering (W H : ℤ) (hW0 : 0 ≤ W) (hW1 : W < 2 ^ 63) (hH0 : 0 ≤ H)
    (hH1 : H < 2 ^ 63) :
    (circleRect W H).area ≥ (cornerRect W H).area ∧
      (circleRect W H).area ≥ (dogRect W H).area ∧
      (W ≤ 8 → H ≤ 8 → (cornerRect W H).area ≥ (dogRect W H).area) := by
  obtain ⟨hw0, hw1⟩ := badgeSize_bounds W hW0 hW1
  obtain ⟨hh0, hh1⟩ := badgeSize_bounds H hH0 hH1
  rw [circleRect_eq W H hW0 hW1 hH0 hH1, cornerRect_eq W H hW0 hW1 hH0 hH1,
    dogRect_eq W H hW0 hW1 hH0 hH1]
  simp only [Rectangle.area]
  have hw2 : 0 ≤ badgeSize W / 2 := by omega
  have hh2 : 0 ≤ badgeSize H / 2 := by omega
  have hw3 : badgeSize W / 2 ≤ badgeSize W := by omega
  have hh3 : badgeSize H / 2 ≤ badgeSize H := by omega
  refine ⟨?_, ?_, ?_⟩
  · have e1 : W - (W - badgeSize W - 2) = badgeSize W + 2 := by ring
    have e2 : W - (W - badgeSize W / 2 - 1) = badgeSize W / 2 + 1 := by ring
    rw [e1, e2]
    nlinarith [mul_nonneg hw0 hh0, mul_nonneg hw2 hh2,
      mul_le_mul hw3 hh3 hh2 hw0]
  · have e1 : W - (W - badgeSize W - 2) = badgeSize W + 2 := by ring
    have e2 : W - 1 - (W - badgeSize W - 1) = badgeSize W := by ring
    rw [e1, e2]
    nlinarith [mul_nonneg hw0 hh0]
  · intro hW8 hH8
    have e1 : W - (W - badgeSize W / 2 - 1) = badgeSize W / 2 + 1 := by ring
    have e2 : W - 1 - (W - badgeSize W - 1) = badgeSize W := by ring
    rw [e1, e2]
    have hwv : badgeSize W = 0 ∨ badgeSize W = 1 ∨ badgeSize W = 2 := by
      rw [badgeSize_eq_div W hW0 (by omega)]
      omega
    have hhv : badgeSize H = 0 ∨ badgeSize H = 1 ∨ badgeSize H = 2 := by
      rw [badgeSize_eq_div H hH0 (by omega)]
      omega
    rcases hwv with h | h | h <;> rcases hhv with h' | h' | h' <;> rw [h, h'] <;> norm_num

theorem area_ordering_witness :
    (0 : ℤ) ≤ 6 ∧ (6 : ℤ) < 2 ^ 63 ∧
      ((circleRect 6 6).area ≥ (cornerRect 6 6).area ∧
        (circleRect 6 6).area ≥ (dogRect 6 6).area ∧
        ((6 : ℤ) ≤ 8 → (6 : ℤ) ≤ 8 → (cornerRect 6 6).area ≥ (dogRect 6 6).area)) :=
  ⟨by norm_num, by norm_num,
    area_ordering 6 6 (by norm_num) (by norm_num) (by norm_num) (by norm_num)⟩

/-! ## Theorems: rectangles and clipping -/

theorem In_iff (x y : ℤ) (r : Rectangle) :
    (Pt x y).In r = true ↔ r.Min.X ≤ x ∧ x < r.Max.X ∧ r.Min.Y ≤ y ∧ y < r.Max.Y := by
  simp [Point.In, Pt, and_assoc]

theorem Empty_iff (r : Rectangle) :
    r.Empty = true ↔ (r.Max.X ≤ r.Min.X ∨ r.Max.Y ≤ r.Min.Y) := by
  simp [Rectangle.Empty]

theorem In_Intersect (x y : ℤ) (r s : Rectangle) :
    (Pt x y).In (r.Intersect s) = true ↔ (Pt x y).In r = true ∧ (Pt x y).In s = true := by
  unfold Rectangle.Intersect
  simp only []
  by_cases he : (Rectangle.Empty ⟨⟨if r.Min.X < s.Min.X then s.Min.X else r.Min.X,
      if r.Min.Y < s.Min.Y then s.Min.Y else r.Min.Y⟩,
      ⟨if r.Max.X > s.Max.X then s.Max.X else r.Max.X,
      if r.Max.Y > s.Max.Y then s.Max.Y else r.Max.Y⟩⟩) = true
  · rw [if_pos he]
    rw [Empty_iff] at he
    simp only [In_iff, ZR, ZP]
    simp only [] at he
    constructor
    · intro h
      omega
    · intro h
      exfalso
      split_ifs at he <;> omega
  · rw [if_neg he]
    simp only [In_iff]
    constructor
    · intro h
      split_ifs at h <;> omega
    · intro h
      split_ifs <;> omega

theorem not_In_of_Empty (x y : ℤ) (r : Rectangle) (h : r.Empty = true) :
    (Pt x y).In r = false := by
  rw [Bool.eq_false_iff, Ne, In_iff]
  simp only [Rectangle.Empty, Bool.or_eq_true, decide_eq_true_eq, ge_iff_le] at h
  omega

theorem wrapInt_clip (p a b x : ℤ) :
    wrapInt (wrapInt (p + wrapInt (a - b)) + x - a) = wrapInt (p + x - b) := by
  unfold wrapInt
  omega

/-- The pixels of the result of `DrawMask`: inside the clipped rectangle the loop body applied
to the source pixel and the mask pixel that `sp` and `mp` align with it, elsewhere the
destination as it was. -/
theorem DrawMask_Pix (dst : RGBAImage) (r : Rectangle) (src : Image) (sp : Point)
    (mask : AlphaMask) (mp : Point) (op : Op) (x y : ℤ) :
    (DrawMask dst r src sp mask mp op).Pix x y =
      if (Pt x y).In (clipRect dst.Rect r src.Bounds sp mask.Bounds mp) then
        drawPixel op (dst.Pix x y)
          (src.At (wrapInt (sp.X + x - r.Min.X)) (wrapInt (sp.Y + y - r.Min.Y)))
          ((mask.At (wrapInt (mp.X + x - r.Min.X)) (wrapInt (mp.Y + y - r.Min.Y))).toColor16.a)
      else dst.Pix x y := by
  unfold DrawMask
  simp only []
  by_cases he : (clipRect dst.Rect r src.Bounds sp mask.Bounds mp).Empty = true
  · rw [if_pos he, not_In_of_Empty x y _ he]
    simp
  · rw [if_neg he]
    simp only [drawRGBA, clipPoint, wrapInt_clip]

theorem In_clipRect (x y : ℤ) (dstB r srcB : Rectangle) (sp : Point) (maskB : Rectangle)
    (mp : Point) :
    (Pt x y).In (clipRect dstB r srcB sp maskB mp) = true ↔
      (Pt x y).In r = true ∧ (Pt x y).In dstB = true ∧
        (Pt x y).In (srcB.Add (r.Min.Sub sp)) = true ∧
        (Pt x y).In (maskB.Add (r.Min.Sub mp)) = true := by
  unfold clipRect
  rw [In_Intersect, In_Intersect, In_Intersect]
  tauto

/-- A pixel outside the rectangle passed to `DrawMask` is not changed. -/
theorem DrawMask_Pix_of_not_In (dst : RGBAImage) (r : Rectangle) (src : Image) (sp : Point)
    (mask : AlphaMask) (mp : Point) (op : Op) (x y : ℤ) (h : (Pt x y).In r = false) :
    (DrawMask dst r src sp mask mp op).Pix x y = dst.Pix x y := by
  rw [DrawMask_Pix]
  have : (Pt x y).In (clipRect dst.Rect r src.Bounds sp mask.Bounds mp) = false := by
    rw [Bool.eq_false_iff, Ne, In_clipRect]
    simp [h]
  rw [this]
  simp

/-! ## Theorems: the pixel operation -/

theorem alphaOf_toColor16_a (inner reverse : Bool) :
    (alphaOf inner reverse).toColor16.a = if inner = reverse then 0 else 65535 := by
  cases inner <;> cases reverse <;> decide

theorem srcChannel_zero (s : ℕ) : srcChannel s 0 = 0 := by
  simp [srcChannel, mulU32, toU8]

theorem mul_257_div_256 (d : ℕ) (hd : d ≤ 255) : d * 257 / 256 % 256 = d := by
  have h : d * 257 = d + 256 * d := by ring
  rw [h, Nat.add_mul_div_left _ _ (by norm_num), Nat.div_eq_of_lt (by omega), Nat.zero_add]
  exact Nat.mod_eq_of_lt (by omega)

theorem srcChannel_full (s : ℕ) (hs : s ≤ 0xffff) :
    srcChannel s 65535 = (s >>> 8) % 256 := by
  unfold srcChannel mulU32 toU8 drawM
  have h1 : s * 65535 % 2 ^ 32 = s * 65535 := Nat.mod_eq_of_lt (by omega)
  rw [h1, Nat.mul_div_cancel _ (by norm_num)]

theorem overAlpha_transparent (sa : ℕ) :
    mulU32 (subU32 drawM (mulU32 sa 0 / drawM)) 0x101 = 16842495 := by
  norm_num [mulU32, subU32, drawM]

theorem overChannel_transparent (d s : ℕ) (hd : d ≤ 255) :
    overChannel d 16842495 s 0 = d := by
  unfold overChannel mulU32 addU32 toU8 drawM
  have h1 : d * 16842495 % 2 ^ 32 = d * 16842495 := Nat.mod_eq_of_lt (by omega)
  have h2 : d * 16842495 = d * 257 * 65535 := by ring
  have h3 : (2 : ℕ) ^ 8 = 256 := by norm_num
  rw [Nat.mul_zero, Nat.zero_mod, Nat.add_zero, Nat.mod_mod, h1, h2,
    Nat.mul_div_cancel _ (by norm_num), Nat.shiftRight_eq_div_pow, h3]
  exact mul_257_div_256 d hd

theorem overChannel_opaque_zero (a s : ℕ) (hs : s ≤ 0xffff) :
    overChannel 0 a s 65535 = (s >>> 8) % 256 := by
  unfold overChannel addU32 mulU32 toU8 drawM
  have h2 : s * 65535 % 2 ^ 32 = s * 65535 := Nat.mod_eq_of_lt (by omega)
  rw [Nat.zero_mul, Nat.zero_mod, Nat.zero_add, Nat.mod_mod, h2,
    Nat.mul_div_cancel _ (by norm_num)]

theorem drawPixel_Src_zero (d : RGBA) (s : Color16) : drawPixel Op.Src d s 0 = ⟨0, 0, 0, 0⟩ := by
  simp [drawPixel, srcChannel_zero]

theorem drawPixel_Src_full (d : RGBA) (s : Color16) (hs : s.Valid) :
    drawPixel Op.Src d s 65535 = s.toRGBA := by
  obtain ⟨h1, h2, h3, h4⟩ := hs
  simp [drawPixel, Color16.toRGBA, srcChannel_full _ h1, srcChannel_full _ h2,
    srcChannel_full _ h3, srcChannel_full _ h4]

theorem drawPixel_Over_transparent (d : RGBA) (s : Color16) (hd : d.Is8) :
    drawPixel Op.Over d s 0 = d := by
  obtain ⟨h1, h2, h3, h4⟩ := hd
  simp only [drawPixel, overAlpha_transparent, overChannel_transparent _ _ h1,
    overChannel_transparent _ _ h2, overChannel_transparent _ _ h3,
    overChannel_transparent _ _ h4]

theorem drawPixel_Over_opaque_zero (s : Color16) (hs : s.Valid) :
    drawPixel Op.Over ⟨0, 0, 0, 0⟩ s 65535 = s.toRGBA := by
  obtain ⟨h1, h2, h3, h4⟩ := hs
  simp only [drawPixel, Color16.toRGBA, overChannel_opaque_zero _ _ h1,
    overChannel_opaque_zero _ _ h2, overChannel_opaque_zero _ _ h3,
    overChannel_opaque_zero _ _ h4]

theorem toRGBA_Is8 (s : Color16) : s.toRGBA.Is8 := by
  unfold Color16.toRGBA RGBA.Is8
  simp only []
  omega

theorem drawPixel_Src_Is8 (d : RGBA) (s : Color16) (ma : ℕ) :
    (drawPixel Op.Src d s ma).Is8 := by
  unfold drawPixel RGBA.Is8 srcChannel toU8
  simp only []
  omega

theorem or_shift_eq (v : ℕ) (hv : v ≤ 255) : (v ||| (v <<< 8)) % 2 ^ 32 = v * 257 := by
  have h := Nat.mul_add_lt_is_or (i := 8) (b := v) (by omega) v
  rw [Nat.lor_comm, Nat.shiftLeft_eq, Nat.mul_comm v (2 ^ 8), ← h]
  omega

theorem toColor16_valid (c : RGBA) (hc : c.Is8) : c.toColor16.Valid := by
  obtain ⟨h1, h2, h3, h4⟩ := hc
  unfold RGBA.toColor16 Color16.Valid
  simp only [or_shift_eq _ h1, or_shift_eq _ h2, or_shift_eq _ h3, or_shift_eq _ h4]
  omega

theorem toColor16_toRGBA (c : RGBA) (hc : c.Is8) : c.toColor16.toRGBA = c := by
  obtain ⟨h1, h2, h3, h4⟩ := hc
  unfold RGBA.toColor16 Color16.toRGBA
  have h8 : (2 : ℕ) ^ 8 = 256 := by norm_num
  simp only [or_shift_eq _ h1, or_shift_eq _ h2, or_shift_eq _ h3, or_shift_eq _ h4,
    Nat.shiftRight_eq_div_pow, h8]
  rw [mul_257_div_256 _ h1, mul_257_div_256 _ h2, mul_257_div_256 _ h3, mul_257_div_256 _ h4]

/-! ## Theorems: the circle of the overlay inside the circle of the badge -/

theorem float64OfInt_nonneg {n : ℤ} (hn : 0 ≤ n) : 0 ≤ float64OfInt n :=
  roundNearestEven_nonneg 53 (-1074) (by exact_mod_cast hn)

theorem float64OfInt_mono {a b : ℤ} (ha : 0 ≤ a) (hab : a ≤ b) :
    float64OfInt a ≤ float64OfInt b :=
  f64_mono (by exact_mod_cast ha) (by exact_mod_cast hab)

/-- A larger radius accepts every pixel that a smaller radius accepts. -/
theorem circleTest_mono (n k R R' : ℤ) (hR : 0 ≤ R) (hRR : R ≤ R')
    (h : circleTest n k R = true) : circleTest n k R' = true := by
  unfold circleTest at h ⊢
  simp only [decide_eq_true_eq] at h ⊢
  refine lt_of_lt_of_le h ?_
  have h0 := float64OfInt_nonneg hR
  have h1 := float64OfInt_mono hR hRR
  unfold mulF64
  exact f64_mono (mul_nonneg h0 h0) (mul_le_mul h1 h1 h0 (h0.trans h1))

theorem dogRect_Size (W H : ℤ) (hW0 : 0 ≤ W) (hW1 : W < 2 ^ 63) (hH0 : 0 ≤ H)
    (hH1 : H < 2 ^ 63) : (dogRect W H).Size = ⟨badgeSize W, badgeSize H⟩ := by
  obtain ⟨hw0, hw1⟩ := badgeSize_bounds W hW0 hW1
  obtain ⟨hh0, hh1⟩ := badgeSize_bounds H hH0 hH1
  rw [dogRect_eq W H hW0 hW1 hH0 hH1]
  unfold Rectangle.Size
  have e1 : W - 1 - (W - badgeSize W - 1) = badgeSize W := by ring
  have e2 : badgeSize H + 1 - 1 = badgeSize H := by ring
  simp only [e1, e2]
  rw [wrapInt_eq_self (by omega) (by omega), wrapInt_eq_self (by omega) (by omega)]

theorem overlayMask_eq (W H : ℤ) (hW0 : 0 ≤ W) (hW1 : W < 2 ^ 63) (hH0 : 0 ≤ H)
    (hH1 : H < 2 ^ 63) :
    overlayMask W H = ⟨⟨⟨0, 0⟩, ⟨badgeSize W, badgeSize H⟩⟩,
      ⟨⟨0, 0⟩, ⟨badgeSize W, badgeSize H⟩⟩, false, Shape.circle⟩ := by
  unfold overlayMask
  rw [dogRect_Size W H hW0 hW1 hH0 hH1]
  rfl

/-- The circle test of the overlay mask at an offset `(i, j)`. -/
theorem circleInside_overlayMask (W H i j : ℤ) (hW0 : 0 ≤ W) (hW1 : W < 2 ^ 63) (hH0 : 0 ≤ H)
    (hH1 : H < 2 ^ 63) (hi0 : 0 ≤ i) (hi1 : i < 2 ^ 63) (hj0 : 0 ≤ j) (hj1 : j < 2 ^ 63) :
    circleInside (overlayMask W H) i j =
      circleTest (i - badgeSize W / 2) (j - badgeSize H / 2) (badgeSize W / 2) := by
  obtain ⟨hw0, hw1⟩ := badgeSize_bounds W hW0 hW1
  obtain ⟨hh0, hh1⟩ := badgeSize_bounds H hH0 hH1
  rw [overlayMask_eq W H hW0 hW1 hH0 hH1]
  unfold circleInside Rectangle.Dx Rectangle.Dy
  simp only [sub_zero]
  have e1 := wrapInt_eq_self (z := badgeSize W) (by omega) (by omega)
  have e2 := wrapInt_eq_self (z := badgeSize H) (by omega) (by omega)
  have e3 := wrapInt_eq_self (z := i) (by omega) (by omega)
  have e4 := wrapInt_eq_self (z := j) (by omega) (by omega)
  have t1 : Int.tdiv (badgeSize W) 2 = badgeSize W / 2 := Int.tdiv_eq_ediv hw0 (by norm_num)
  have t2 : Int.tdiv (badgeSize H) 2 = badgeSize H / 2 := Int.tdiv_eq_ediv hh0 (by norm_num)
  have e5 := wrapInt_eq_self (z := i - badgeSize W / 2) (by omega) (by omega)
  have e6 := wrapInt_eq_self (z := j - badgeSize H / 2) (by omega) (by omega)
  simp only [e1, e2, e3, e4, t1, t2, e5, e6]

/-- The circle test of the badge mask (inner region `circleRect`) at a pixel of the image. -/
theorem circleInside_circleRect (O : Rectangle) (rev : Bool) (s : Shape) (W H x y : ℤ)
    (hW1 : W < 2 ^ 63) (hH1 : H < 2 ^ 63) (hx0 : 0 ≤ x) (hx1 : x < W) (hy0 : 0 ≤ y)
    (hy1 : y < H) :
    circleInside ⟨O, circleRect W H, rev, s⟩ x y =
      circleTest (x - (W - badgeSize W - 1) - badgeSize W / 2) (y - 1 - badgeSize H / 2)
        (badgeSize W / 2 + 1) := by
  have hW0 : 0 ≤ W := by omega
  have hH0 : 0 ≤ H := by omega
  obtain ⟨hw0, hw1⟩ := badgeSize_bounds W hW0 hW1
  obtain ⟨hh0, hh1⟩ := badgeSize_bounds H hH0 hH1
  rw [circleRect_eq W H hW0 hW1 hH0 hH1]
  unfold circleInside Rectangle.Dx Rectangle.Dy
  simp only [sub_zero]
  have a1 : W - (W - badgeSize W - 2) = badgeSize W + 2 := by ring
  have e1 := wrapInt_eq_self (z := badgeSize W + 2) (by omega) (by omega)
  have e2 := wrapInt_eq_self (z := badgeSize H + 2) (by omega) (by omega)
  have e3 := wrapInt_eq_self (z := x - (W - badgeSize W - 2)) (by omega) (by omega)
  have e4 := wrapInt_eq_self (z := y) (by omega) (by omega)
  have t1 : Int.tdiv (badgeSize W + 2) 2 = badgeSize W / 2 + 1 := by
    rw [Int.tdiv_eq_ediv (by omega) (by norm_num)]
    omega
  have t2 : Int.tdiv (badgeSize H + 2) 2 = badgeSize H / 2 + 1 := by
    rw [Int.tdiv_eq_ediv (by omega) (by norm_num)]
    omega
  have e5 := wrapInt_eq_self (z := x - (W - badgeSize W - 1) - badgeSize W / 2)
    (by omega) (by omega)
  have e6 := wrapInt_eq_self (z := y - 1 - badgeSize H / 2) (by omega) (by omega)
  have a2 : x - (W - badgeSize W - 2) - (badgeSize W / 2 + 1) =
      x - (W - badgeSize W - 1) - badgeSize W / 2 := by ring
  have a3 : y - (badgeSize H / 2 + 1) = y - 1 - badgeSize H / 2 := by ring
  simp only [a1, e1, e2, e3, e4, t1, t2, e5, e6, a2, a3]

/-- A pixel of `dogRect` is a pixel of the image. -/
theorem In_dogRect_bounds (W H x y : ℤ) (hW0 : 0 ≤ W) (hW1 : W < 2 ^ 63) (hH0 : 0 ≤ H)
    (hH1 : H < 2 ^ 63) (h : (Pt x y).In (dogRect W H) = true) :
    (W - badgeSize W - 1 ≤ x ∧ x < W - 1 ∧ 1 ≤ y ∧ y < badgeSize H + 1) ∧
      (0 ≤ x ∧ x < W ∧ 0 ≤ y ∧ y < H) := by
  obtain ⟨hw0, hw1⟩ := badgeSize_bounds W hW0 hW1
  obtain ⟨hh0, hh1⟩ := badgeSize_bounds H hH0 hH1
  rw [dogRect_eq W H hW0 hW1 hH0 hH1, In_iff] at h
  simp only [] at h
  refine ⟨h, ?_⟩
  omega

/-- Every pixel of `dogRect` at which the overlay mask is opaque lies inside the circle of the
badge. -/
theorem overlay_inside_badge (O : Rectangle) (rev : Bool) (s : Shape) (W H x y : ℤ)
    (hW0 : 0 ≤ W) (hW1 : W < 2 ^ 63) (hH0 : 0 ≤ H) (hH1 : H < 2 ^ 63)
    (hin : (Pt x y).In (dogRect W H) = true)
    (h : circleInside (overlayMask W H) (x - (W - badgeSize W - 1)) (y - 1) = true) :
    circleInside ⟨O, circleRect W H, rev, s⟩ x y = true := by
  obtain ⟨hw0, hw1⟩ := badgeSize_bounds W hW0 hW1
  obtain ⟨hh0, hh1⟩ := badgeSize_bounds H hH0 hH1
  obtain ⟨⟨hd1, hd2, hd3, hd4⟩, hx0, hx1, hy0, hy1⟩ :=
    In_dogRect_bounds W H x y hW0 hW1 hH0 hH1 hin
  rw [circleInside_overlayMask W H _ _ hW0 hW1 hH0 hH1 (by omega) (by omega) (by omega)
    (by omega)] at h
  rw [circleInside_circleRect O rev s W H x y hW1 hH1 hx0 hx1 hy0 hy1]
  exact circleTest_mono _ _ _ _ (by omega) (by omega) h

/-! ## Theorems: the three passes, pixel by pixel -/

theorem toImage_Bounds (p : RGBAImage) : p.toImage.Bounds = p.Rect := rfl

theorem DrawMask_Rect (dst : RGBAImage) (r : Rectangle) (src : Image) (sp : Point)
    (mask : AlphaMask) (mp : Point) (op : Op) :
    (DrawMask dst r src sp mask mp op).Rect = dst.Rect := by
  unfold DrawMask
  simp only []
  split_ifs
  · rfl
  · rfl

theorem Bounds_Dx (b : Rectangle) (W H : ℤ) (hB : b = ⟨⟨0, 0⟩, ⟨W, H⟩⟩) (hW0 : 0 ≤ W)
    (hW1 : W < 2 ^ 63) : b.Dx = W := by
  subst hB
  unfold Rectangle.Dx
  simp only [sub_zero]
  exact wrapInt_eq_self (by omega) hW1

theorem Bounds_Dy (b : Rectangle) (W H : ℤ) (hB : b = ⟨⟨0, 0⟩, ⟨W, H⟩⟩) (hH0 : 0 ≤ H)
    (hH1 : H < 2 ^ 63) : b.Dy = H := by
  subst hB
  unfold Rectangle.Dy
  simp only [sub_zero]
  exact wrapInt_eq_self (by omega) hH1

theorem wrapInt_zero_add_sub_zero (x : ℤ) (h0 : 0 ≤ x) (h1 : x < 2 ^ 63) :
    wrapInt (0 + x - 0) = x := by
  rw [zero_add, sub_zero]
  exact wrapInt_eq_self (by omega) h1

/-- The clipped rectangle of the first two passes is the whole image. -/
theorem In_clipRect_outRect (W H x y : ℤ) (hW1 : W < 2 ^ 63) (hH1 : H < 2 ^ 63) (hx0 : 0 ≤ x)
    (hx1 : x < W) (hy0 : 0 ≤ y) (hy1 : y < H) :
    (Pt x y).In (clipRect (outRect W H) (outRect W H) (outRect W H) ZP (outRect W H) ZP) =
      true := by
  rw [In_clipRect]
  have hadd : (outRect W H).Add ((outRect W H).Min.Sub ZP) = outRect W H := by
    unfold outRect Rectangle.Add Point.Sub ZP
    simp only [sub_zero, add_zero]
    have z : wrapInt 0 = 0 := by unfold wrapInt; norm_num
    simp only [z, add_zero]
    rw [wrapInt_eq_self (by omega) hW1, wrapInt_eq_self (by omega) hH1]
  rw [hadd]
  have hin : (Pt x y).In (outRect W H) = true := by
    rw [In_iff]
    simp only [outRect, ZP]
    omega
  exact ⟨hin, hin, hin, hin⟩

/-- The first pass at a pixel of the image. -/
theorem pass1_Pix (srcImg : Image) (W H x y : ℤ) (hB : srcImg.Bounds = ⟨⟨0, 0⟩, ⟨W, H⟩⟩)
    (hW1 : W < 2 ^ 63) (hH1 : H < 2 ^ 63) (hx0 : 0 ≤ x) (hx1 : x < W) (hy0 : 0 ≤ y)
    (hy1 : y < H) :
    (pass1 srcImg).Pix x y =
      drawPixel Op.Src ⟨0, 0, 0, 0⟩ (srcImg.At x y)
        (alphaOf (circleInside ⟨outRect W H, circleRect W H, true, Shape.circle⟩ x y)
          true).toColor16.a := by
  have hW0 : 0 ≤ W := by omega
  have hH0 : 0 ≤ H := by omega
  unfold pass1
  simp only [Bounds_Dx _ W H hB hW0 hW1, Bounds_Dy _ W H hB hH0 hH1]
  rw [DrawMask_Pix]
  have hb : srcImg.Bounds = outRect W H := hB
  have hc : (Pt x y).In (clipRect (NewRGBA (outRect W H)).Rect (outRect W H) srcImg.Bounds ZP
      (AlphaMask.Bounds ⟨outRect W H, circleRect W H, true, Shape.circle⟩) ZP) = true := by
    rw [hb]
    exact In_clipRect_outRect W H x y hW1 hH1 hx0 hx1 hy0 hy1
  rw [if_pos hc]
  have ex : wrapInt (ZP.X + x - (outRect W H).Min.X) = x :=
    wrapInt_zero_add_sub_zero x hx0 (by omega)
  have ey : wrapInt (ZP.Y + y - (outRect W H).Min.Y) = y :=
    wrapInt_zero_add_sub_zero y hy0 (by omega)
  rw [ex, ey]
  rfl

theorem pass1_Rect (srcImg : Image) :
    (pass1 srcImg).Rect = outRect srcImg.Bounds.Dx srcImg.Bounds.Dy := by
  unfold pass1
  simp only [DrawMask_Rect, NewRGBA]

/-- The second pass at a pixel of the image. -/
theorem pass2_Pix (srcImg : Image) (W H x y : ℤ) (hB : srcImg.Bounds = ⟨⟨0, 0⟩, ⟨W, H⟩⟩)
    (hW1 : W < 2 ^ 63) (hH1 : H < 2 ^ 63) (hx0 : 0 ≤ x) (hx1 : x < W) (hy0 : 0 ≤ y)
    (hy1 : y < H) :
    (pass2 srcImg).Pix x y =
      drawPixel Op.Src ((pass1 srcImg).Pix x y) ((pass1 srcImg).Pix x y).toColor16
        (alphaOf ((Pt x y).In (cornerRect W H)) true).toColor16.a := by
  have hW0 : 0 ≤ W := by omega
  have hH0 : 0 ≤ H := by omega
  have hR := pass1_Rect srcImg
  rw [Bounds_Dx _ W H hB hW0 hW1, Bounds_Dy _ W H hB hH0 hH1] at hR
  have hin : (Pt x y).In (outRect W H) = true := by
    rw [In_iff]
    simp only [outRect, ZP]
    omega
  unfold pass2
  simp only [Bounds_Dx _ W H hB hW0 hW1, Bounds_Dy _ W H hB hH0 hH1]
  rw [DrawMask_Pix]
  have hc : (Pt x y).In (clipRect (pass1 srcImg).Rect (outRect W H)
      (pass1 srcImg).toImage.Bounds ZP
      (AlphaMask.Bounds ⟨outRect W H, cornerRect W H, true, Shape.rectangle⟩) ZP) = true := by
    rw [toImage_Bounds, hR]
    exact In_clipRect_outRect W H x y hW1 hH1 hx0 hx1 hy0 hy1
  rw [if_pos hc]
  have ex : wrapInt (ZP.X + x - (outRect W H).Min.X) = x :=
    wrapInt_zero_add_sub_zero x hx0 (by omega)
  have ey : wrapInt (ZP.Y + y - (outRect W H).Min.Y) = y :=
    wrapInt_zero_add_sub_zero y hy0 (by omega)
  rw [ex, ey]
  have hat : (pass1 srcImg).toImage.At x y = ((pass1 srcImg).Pix x y).toColor16 := by
    unfold RGBAImage.toImage RGBAImage.RGBAAt
    simp only [hR, hin, if_true]
  rw [hat]
  rfl

/-- The third pass at any pixel: a pixel of the clipped rectangle is blended with the overlay
through the mask value at its offset from `dogRect.Min`, any other pixel is left as it was. -/
theorem pass3_Pix (srcImg overImg : Image) (W H x y : ℤ)
    (hB : srcImg.Bounds = ⟨⟨0, 0⟩, ⟨W, H⟩⟩) (hW0 : 0 ≤ W) (hW1 : W < 2 ^ 63) (hH0 : 0 ≤ H)
    (hH1 : H < 2 ^ 63) :
    (pass3 srcImg overImg).Pix x y =
      if (Pt x y).In (clipRect (pass2 srcImg).Rect (dogRect W H) overImg.Bounds ZP
          (overlayMask W H).Bounds ZP) then
        drawPixel Op.Over ((pass2 srcImg).Pix x y)
          (overImg.At (wrapInt (0 + x - (dogRect W H).Min.X))
            (wrapInt (0 + y - (dogRect W H).Min.Y)))
          (alphaOf (circleInside (overlayMask W H) (wrapInt (0 + x - (dogRect W H).Min.X))
            (wrapInt (0 + y - (dogRect W H).Min.Y))) false).toColor16.a
      else (pass2 srcImg).Pix x y := by
  unfold pass3
  simp only [Bounds_Dx _ W H hB hW0 hW1, Bounds_Dy _ W H hB hH0 hH1]
  rw [DrawMask_Pix]
  rfl

theorem alphaOf_A_eq_255 (a b : Bool) : (alphaOf a b).A = 255 ↔ a ≠ b := by
  cases a <;> cases b <;> simp [alphaOf]

theorem overlayMask_At (W H i j : ℤ) :
    (overlayMask W H).At i j = alphaOf (circleInside (overlayMask W H) i j) false := rfl

theorem overlayMask_opaque_iff (W H i j : ℤ) :
    ((overlayMask W H).At i j).A = 255 ↔ circleInside (overlayMask W H) i j = true := by
  rw [overlayMask_At, alphaOf_A_eq_255]
  simp

/-- Offsets from `dogRect.Min`, for a pixel of `dogRect`. -/
theorem dogRect_offsets (W H x y : ℤ) (hW0 : 0 ≤ W) (hW1 : W < 2 ^ 63) (hH0 : 0 ≤ H)
    (hH1 : H < 2 ^ 63) (h : (Pt x y).In (dogRect W H) = true) :
    wrapInt (0 + x - (dogRect W H).Min.X) = x - (W - badgeSize W - 1) ∧
      wrapInt (0 + y - (dogRect W H).Min.Y) = y - 1 := by
  obtain ⟨hw0, hw1⟩ := badgeSize_bounds W hW0 hW1
  obtain ⟨hh0, hh1⟩ := badgeSize_bounds H hH0 hH1
  obtain ⟨⟨hd1, hd2, hd3, hd4⟩, hx0, hx1, hy0, hy1⟩ :=
    In_dogRect_bounds W H x y hW0 hW1 hH0 hH1 h
  rw [dogRect_eq W H hW0 hW1 hH0 hH1]
  simp only [zero_add]
  exact ⟨wrapInt_eq_self (by omega) (by omega), wrapInt_eq_self (by omega) (by omega)⟩

theorem pass2_Is8 (srcImg : Image) (W H x y : ℤ) (hB : srcImg.Bounds = ⟨⟨0, 0⟩, ⟨W, H⟩⟩)
    (hW1 : W < 2 ^ 63) (hH1 : H < 2 ^ 63) (hx0 : 0 ≤ x) (hx1 : x < W) (hy0 : 0 ≤ y)
    (hy1 : y < H) : ((pass2 srcImg).Pix x y).Is8 := by
  rw [pass2_Pix srcImg W H x y hB hW1 hH1 hx0 hx1 hy0 hy1]
  exact drawPixel_Src_Is8 _ _ _

/-- The third pass leaves a pixel as it was unless it is a pixel of `dogRect` at which the
overlay mask is opaque. -/
theorem pass3_unchanged (srcImg overImg : Image) (W H x y : ℤ)
    (hB : srcImg.Bounds = ⟨⟨0, 0⟩, ⟨W, H⟩⟩) (hW0 : 0 ≤ W) (hW1 : W < 2 ^ 63) (hH0 : 0 ≤ H)
    (hH1 : H < 2 ^ 63)
    (h : ¬ ((Pt x y).In (dogRect W H) = true ∧
      circleInside (overlayMask W H) (x - (W - badgeSize W - 1)) (y - 1) = true)) :
    (pass3 srcImg overImg).Pix x y = (pass2 srcImg).Pix x y := by
  rw [pass3_Pix srcImg overImg W H x y hB hW0 hW1 hH0 hH1]
  split_ifs with hc
  · rw [In_clipRect] at hc
    obtain ⟨hin, -⟩ := hc
    obtain ⟨ex, ey⟩ := dogRect_offsets W H x y hW0 hW1 hH0 hH1 hin
    obtain ⟨-, hx0, hx1, hy0, hy1⟩ := In_dogRect_bounds W H x y hW0 hW1 hH0 hH1 hin
    rw [ex, ey]
    have hf : circleInside (overlayMask W H) (x - (W - badgeSize W - 1)) (y - 1) = false := by
      rw [Bool.eq_false_iff]
      intro ht
      exact h ⟨hin, ht⟩
    rw [hf, alphaOf_toColor16_a]
    simp only [if_true]
    exact drawPixel_Over_transparent _ _ (pass2_Is8 srcImg W H x y hB hW1 hH1 hx0 hx1 hy0 hy1)
  · rfl

/-- After the second pass, a pixel of the image inside the circle of the badge or inside
`cornerRect` is zero. -/
theorem pass2_cleared (srcImg : Image) (W H x y : ℤ) (hB : srcImg.Bounds = ⟨⟨0, 0⟩, ⟨W, H⟩⟩)
    (hW1 : W < 2 ^ 63) (hH1 : H < 2 ^ 63) (hx0 : 0 ≤ x) (hx1 : x < W) (hy0 : 0 ≤ y)
    (hy1 : y < H)
    (h : circleInside ⟨outRect W H, circleRect W H, true, Shape.circle⟩ x y = true ∨
      (Pt x y).In (cornerRect W H) = true) :
    (pass2 srcImg).Pix x y = ⟨0, 0, 0, 0⟩ := by
  rw [pass2_Pix srcImg W H x y hB hW1 hH1 hx0 hx1 hy0 hy1]
  by_cases hcorner : (Pt x y).In (cornerRect W H) = true
  · rw [hcorner, alphaOf_toColor16_a]
    simp only [if_true]
    exact drawPixel_Src_zero _ _
  · have hcirc : circleInside ⟨outRect W H, circleRect W H, true, Shape.circle⟩ x y = true := by
      rcases h with h | h
      · exact h
      · exact absurd h hcorner
    have h1 : (pass1 srcImg).Pix x y = ⟨0, 0, 0, 0⟩ := by
      rw [pass1_Pix srcImg W H x y hB hW1 hH1 hx0 hx1 hy0 hy1, hcirc, alphaOf_toColor16_a]
      simp only [if_true]
      exact drawPixel_Src_zero _ _
    rw [Bool.not_eq_true] at hcorner
    rw [h1, hcorner, alphaOf_toColor16_a]
    have hz : RGBA.Is8 ⟨0, 0, 0, 0⟩ := by
      unfold RGBA.Is8
      simp
    simp only [Bool.false_eq_true, if_false]
    rw [drawPixel_Src_full _ _ (toColor16_valid _ hz), toColor16_toRGBA _ hz]

/-- After the second pass, a pixel of the image outside the circle of the badge and outside
`cornerRect` holds the source pixel. -/
theorem pass2_kept (srcImg : Image) (W H x y : ℤ) (hB : srcImg.Bounds = ⟨⟨0, 0⟩, ⟨W, H⟩⟩)
    (hW1 : W < 2 ^ 63) (hH1 : H < 2 ^ 63) (hvalid : (srcImg.At x y).Valid) (hx0 : 0 ≤ x)
    (hx1 : x < W) (hy0 : 0 ≤ y) (hy1 : y < H)
    (hcirc : circleInside ⟨outRect W H, circleRect W H, true, Shape.circle⟩ x y = false)
    (hcorner : (Pt x y).In (cornerRect W H) = false) :
    (pass1 srcImg).Pix x y = (srcImg.At x y).toRGBA ∧
      (pass2 srcImg).Pix x y = (srcImg.At x y).toRGBA := by
  have h1 : (pass1 srcImg).Pix x y = (srcImg.At x y).toRGBA := by
    rw [pass1_Pix srcImg W H x y hB hW1 hH1 hx0 hx1 hy0 hy1, hcirc, alphaOf_toColor16_a]
    simp only [Bool.false_eq_true, if_false]
    exact drawPixel_Src_full _ _ hvalid
  refine ⟨h1, ?_⟩
  rw [pass2_Pix srcImg W H x y hB hW1 hH1 hx0 hx1 hy0 hy1, hcorner, alphaOf_toColor16_a, h1]
  simp only [Bool.false_eq_true, if_false]
  rw [drawPixel_Src_full _ _ (toColor16_valid _ (toRGBA_Is8 _)),
    toColor16_toRGBA _ (toRGBA_Is8 _)]

/-! ## Theorems: the composite image -/

theorem badgeSize_300 : badgeSize 300 = 100 := by
  rw [badgeSize_eq_div 300 (by norm_num) (by norm_num)]
  norm_num

theorem pass2_Rect (srcImg : Image) :
    (pass2 srcImg).Rect = outRect srcImg.Bounds.Dx srcImg.Bounds.Dy := by
  unfold pass2
  simp only [DrawMask_Rect, pass1_Rect]

/-- With an overlay of size `w x h`, the clipped rectangle of the third pass is `dogRect`. -/
theorem In_clipRect_dogRect (srcImg overImg : Image) (W H x y : ℤ)
    (hB : srcImg.Bounds = ⟨⟨0, 0⟩, ⟨W, H⟩⟩) (hW0 : 0 ≤ W) (hW1 : W < 2 ^ 63) (hH0 : 0 ≤ H)
    (hH1 : H < 2 ^ 63) (hO : overImg.Bounds = ⟨⟨0, 0⟩, ⟨badgeSize W, badgeSize H⟩⟩)
    (hin : (Pt x y).In (dogRect W H) = true) :
    (Pt x y).In (clipRect (pass2 srcImg).Rect (dogRect W H) overImg.Bounds ZP
      (overlayMask W H).Bounds ZP) = true := by
  obtain ⟨hw0, hw1⟩ := badgeSize_bounds W hW0 hW1
  obtain ⟨hh0, hh1⟩ := badgeSize_bounds H hH0 hH1
  obtain ⟨⟨hd1, hd2, hd3, hd4⟩, hx0, hx1, hy0, hy1⟩ :=
    In_dogRect_bounds W H x y hW0 hW1 hH0 hH1 hin
  have hadd : (Rectangle.mk ⟨0, 0⟩ ⟨badgeSize W, badgeSize H⟩).Add ((dogRect W H).Min.Sub ZP) =
      dogRect W H := by
    rw [dogRect_eq W H hW0 hW1 hH0 hH1]
    unfold Rectangle.Add Point.Sub ZP
    simp only [sub_zero, zero_add]
    have e1 := wrapInt_eq_self (z := W - badgeSize W - 1) (by omega) (by omega)
    have e2 := wrapInt_eq_self (z := (1 : ℤ)) (by norm_num) (by norm_num)
    simp only [e1, e2]
    have e3 := wrapInt_eq_self (z := badgeSize W + (W - badgeSize W - 1)) (by omega) (by omega)
    have e4 := wrapInt_eq_self (z := badgeSize H + 1) (by omega) (by omega)
    have a1 : badgeSize W + (W - badgeSize W - 1) = W - 1 := by ring
    rw [a1] at e3
    simp only [a1, e3, e4]
  have hmask : (overlayMask W H).Bounds = ⟨⟨0, 0⟩, ⟨badgeSize W, badgeSize H⟩⟩ := by
    rw [overlayMask_eq W H hW0 hW1 hH0 hH1]
    rfl
  rw [In_clipRect, hO, hmask, hadd, pass2_Rect, Bounds_Dx _ W H hB hW0 hW1,
    Bounds_Dy _ W H hB hH0 hH1]
  refine ⟨hin, ?_, hin, hin⟩
  rw [In_iff]
  simp only [outRect, ZP]
  omega

/-- C7. Untouched region keeps the source.  For a source image of size `W x H` (bounds
`(0,0)..(W,H)`), every overlay, and a pixel `(x, y)` of the image that is outside the circle of
the badge (the circle test over `circleRect`) and outside `cornerRect`, the output pixel after
each of the three passes is the source pixel converted to `color.RGBA`: no pass changes it. -/
theorem untouched_pixel_keeps_source (srcImg overImg : Image) (W H x y : ℤ)
    (hB : srcImg.Bounds = ⟨⟨0, 0⟩, ⟨W, H⟩⟩) (hW1 : W < 2 ^ 63) (hH1 : H < 2 ^ 63)
    (hvalid : (srcImg.At x y).Valid) (hx0 : 0 ≤ x) (hx1 : x < W) (hy0 : 0 ≤ y) (hy1 : y < H)
    (hcirc : circleInside ⟨outRect W H, circleRect W H, true, Shape.circle⟩ x y = false)
    (hcorner : (Pt x y).In (cornerRect W H) = false) :
    (pass1 srcImg).Pix x y = (srcImg.At x y).toRGBA ∧
      (pass2 srcImg).Pix x y = (srcImg.At x y).toRGBA ∧
      (pass3 srcImg overImg).Pix x y = (srcImg.At x y).toRGBA := by
  have hW0 : 0 ≤ W := by omega
  have hH0 : 0 ≤ H := by omega
  obtain ⟨h1, h2⟩ := pass2_kept srcImg W H x y hB hW1 hH1 hvalid hx0 hx1 hy0 hy1 hcirc hcorner
  refine ⟨h1, h2, ?_⟩
  rw [pass3_unchanged srcImg overImg W H x y hB hW0 hW1 hH0 hH1 ?_, h2]
  rintro ⟨hin, hov⟩
  have := overlay_inside_badge (outRect W H) true Shape.circle W H x y hW0 hW1 hH0 hH1 hin hov
  rw [hcirc] at this
  exact Bool.noConfusion this

theorem untouched_pixel_keeps_source_witness :
    exampleSrc.Bounds = ⟨⟨0, 0⟩, ⟨300, 300⟩⟩ ∧ (300 : ℤ) < 2 ^ 63 ∧
      (exampleSrc.At 0 0).Valid ∧ (0 : ℤ) ≤ 0 ∧ (0 : ℤ) < 300 ∧
      circleInside ⟨outRect 300 300, circleRect 300 300, true, Shape.circle⟩ 0 0 = false ∧
      (Pt 0 0).In (cornerRect 300 300) = false ∧
      ((pass1 exampleSrc).Pix 0 0 = (exampleSrc.At 0 0).toRGBA ∧
        (pass2 exampleSrc).Pix 0 0 = (exampleSrc.At 0 0).toRGBA ∧
        (pass3 exampleSrc exampleOver).Pix 0 0 = (exampleSrc.At 0 0).toRGBA) := by
  have hv : (exampleSrc.At 0 0).Valid := by
    simp [exampleSrc, Color16.Valid]
  have hcirc : circleInside ⟨outRect 300 300, circleRect 300 300, true, Shape.circle⟩ 0 0 =
      false := by
    rw [circleInside_circleRect _ _ _ 300 300 0 0 (by norm_num) (by norm_num) (by norm_num)
      (by norm_num) (by norm_num) (by norm_num), badgeSize_300, Bool.eq_false_iff, Ne,
      circleTest_iff _ _ _ (by norm_num [abs_lt]) (by norm_num [abs_lt])
        (by norm_num [abs_lt])]
    norm_num
  have hcorner : (Pt 0 0).In (cornerRect 300 300) = false := by
    rw [cornerRect_eq 300 300 (by norm_num) (by norm_num) (by norm_num) (by norm_num),
      badgeSize_300, Bool.eq_false_iff, Ne, In_iff]
    norm_num
  exact ⟨rfl, by norm_num, hv, by norm_num, by norm_num, hcirc, hcorner,
    untouched_pixel_keeps_source exampleSrc exampleOver 300 300 0 0 rfl (by norm_num)
      (by norm_num) hv (by norm_num) (by norm_num) (by norm_num) (by norm_num) hcirc hcorner⟩

/-- C8. Overlay pass result.  For a source of size `W x H` with `W, H >= 3` (so that
`w, h >= 1`), a resized overlay `O` of size `w x h` and an offset `(i, j)` with `0 <= i < w`,
`0 <= j < h`: the mask of the pass is the non-reversed circle over `(0,0)..(w,h)`; where it is
opaque at `(i, j)`, the output pixel at `dogRect.Min + (i, j)` is `O(i, j)` over-blended onto
a fully transparent pixel, which is `O(i, j)` converted to `color.RGBA` (its premultiplied
channels, nothing of the source image); where the mask is transparent, the pixel is what it
was before the pass. -/
theorem overlay_pass_result (srcImg overImg : Image) (W H i j : ℤ)
    (hB : srcImg.Bounds = ⟨⟨0, 0⟩, ⟨W, H⟩⟩) (hW3 : 3 ≤ W) (hW1 : W < 2 ^ 63) (hH3 : 3 ≤ H)
    (hH1 : H < 2 ^ 63) (hO : overImg.Bounds = ⟨⟨0, 0⟩, ⟨badgeSize W, badgeSize H⟩⟩)
    (hvalid : (overImg.At i j).Valid) (hi0 : 0 ≤ i) (hi1 : i < badgeSize W) (hj0 : 0 ≤ j)
    (hj1 : j < badgeSize H) :
    (1 ≤ badgeSize W ∧ 1 ≤ badgeSize H) ∧
      overlayMask W H = ⟨⟨⟨0, 0⟩, ⟨badgeSize W, badgeSize H⟩⟩,
        ⟨⟨0, 0⟩, ⟨badgeSize W, badgeSize H⟩⟩, false, Shape.circle⟩ ∧
      (pass3 srcImg overImg).Pix ((dogRect W H).Min.X + i) ((dogRect W H).Min.Y + j) =
        (if ((overlayMask W H).At i j).A = 255 then
          drawPixel Op.Over ⟨0, 0, 0, 0⟩ (overImg.At i j) 65535
        else (pass2 srcImg).Pix ((dogRect W H).Min.X + i) ((dogRect W H).Min.Y + j)) ∧
      drawPixel Op.Over ⟨0, 0, 0, 0⟩ (overImg.At i j) 65535 = (overImg.At i j).toRGBA := by
  have hW0 : 0 ≤ W := by omega
  have hH0 : 0 ≤ H := by omega
  obtain ⟨hw0, hw1⟩ := badgeSize_bounds W hW0 hW1
  obtain ⟨hh0, hh1⟩ := badgeSize_bounds H hH0 hH1
  refine ⟨⟨one_le_badgeSize W hW3 hW1, one_le_badgeSize H hH3 hH1⟩,
    overlayMask_eq W H hW0 hW1 hH0 hH1, ?_, drawPixel_Over_opaque_zero _ hvalid⟩
  have hminX : (dogRect W H).Min.X = W - badgeSize W - 1 := by
    rw [dogRect_eq W H hW0 hW1 hH0 hH1]
  have hminY : (dogRect W H).Min.Y = 1 := by
    rw [dogRect_eq W H hW0 hW1 hH0 hH1]
  rw [hminX, hminY]
  have hin : (Pt (W - badgeSize W - 1 + i) (1 + j)).In (dogRect W H) = true := by
    rw [dogRect_eq W H hW0 hW1 hH0 hH1, In_iff]
    simp only []
    omega
  obtain ⟨-, hx0, hx1, hy0, hy1⟩ := In_dogRect_bounds W H _ _ hW0 hW1 hH0 hH1 hin
  obtain ⟨ex, ey⟩ := dogRect_offsets W H _ _ hW0 hW1 hH0 hH1 hin
  have ax : W - badgeSize W - 1 + i - (W - badgeSize W - 1) = i := by ring
  have ay : 1 + j - 1 = j := by ring
  rw [ax] at ex
  rw [ay] at ey
  rw [pass3_Pix srcImg overImg W H _ _ hB hW0 hW1 hH0 hH1,
    if_pos (In_clipRect_dogRect srcImg overImg W H _ _ hB hW0 hW1 hH0 hH1 hO hin), ex, ey]
  simp only [overlayMask_opaque_iff]
  by_cases hop : circleInside (overlayMask W H) i j = true
  · rw [if_pos hop, hop, alphaOf_toColor16_a]
    simp only [Bool.true_eq_false, if_false]
    have hov : circleInside (overlayMask W H)
        (W - badgeSize W - 1 + i - (W - badgeSize W - 1)) (1 + j - 1) = true := by
      rw [ax, ay]
      exact hop
    rw [pass2_cleared srcImg W H _ _ hB hW1 hH1 hx0 hx1 hy0 hy1
      (Or.inl (overlay_inside_badge _ _ _ W H _ _ hW0 hW1 hH0 hH1 hin hov))]
  · rw [if_neg hop]
    rw [Bool.not_eq_true] at hop
    rw [hop, alphaOf_toColor16_a]
    simp only [if_true]
    exact drawPixel_Over_transparent _ _ (pass2_Is8 srcImg W H _ _ hB hW1 hH1 hx0 hx1 hy0 hy1)

theorem overlay_pass_result_witness :
    exampleSrc.Bounds = ⟨⟨0, 0⟩, ⟨300, 300⟩⟩ ∧ (3 : ℤ) ≤ 300 ∧ (300 : ℤ) < 2 ^ 63 ∧
      exampleOver.Bounds = ⟨⟨0, 0⟩, ⟨badgeSize 300, badgeSize 300⟩⟩ ∧
      (exampleOver.At 50 50).Valid ∧ (0 : ℤ) ≤ 50 ∧ (50 : ℤ) < badgeSize 300 ∧
      ((1 ≤ badgeSize 300 ∧ 1 ≤ badgeSize 300) ∧
        overlayMask 300 300 = ⟨⟨⟨0, 0⟩, ⟨badgeSize 300, badgeSize 300⟩⟩,
          ⟨⟨0, 0⟩, ⟨badgeSize 300, badgeSize 300⟩⟩, false, Shape.circle⟩ ∧
        (pass3 exampleSrc exampleOver).Pix ((dogRect 300 300).Min.X + 50)
            ((dogRect 300 300).Min.Y + 50) =
          (if ((overlayMask 300 300).At 50 50).A = 255 then
            drawPixel Op.Over ⟨0, 0, 0, 0⟩ (exampleOver.At 50 50) 65535
          else (pass2 exampleSrc).Pix ((dogRect 300 300).Min.X + 50)
            ((dogRect 300 300).Min.Y + 50)) ∧
        drawPixel Op.Over ⟨0, 0, 0, 0⟩ (exampleOver.At 50 50) 65535 =
          (exampleOver.At 50 50).toRGBA) := by
  have hv : (exampleOver.At 50 50).Valid := by
    simp [exampleOver, Color16.Valid]
  have hO : exampleOver.Bounds = ⟨⟨0, 0⟩, ⟨badgeSize 300, badgeSize 300⟩⟩ := by
    rw [badgeSize_300]
    rfl
  have h50 : (50 : ℤ) < badgeSize 300 := by
    rw [badgeSize_300]
    norm_num
  exact ⟨rfl, by norm_num, by norm_num, hO, hv, by norm_num, h50,
    overlay_pass_result exampleSrc exampleOver 300 300 50 50 rfl (by norm_num) (by norm_num)
      (by norm_num) (by norm_num) hO hv (by norm_num) h50 (by norm_num) h50⟩

/-- C9. Cleared region is transparent.  For a source image of size `W x H` and a pixel
`(x, y)` of the image that lies inside the circle of the badge (circle test over `circleRect`)
or inside `cornerRect`, and that is not a pixel of `dogRect` at which the overlay circle mask
is opaque, the final output pixel is fully transparent (`R = G = B = A = 0`), whatever the
source and the overlay are. -/
theorem cleared_pixel_transparent (srcImg overImg : Image) (W H x y : ℤ)
    (hB : srcImg.Bounds = ⟨⟨0, 0⟩, ⟨W, H⟩⟩) (hW1 : W < 2 ^ 63) (hH1 : H < 2 ^ 63)
    (hx0 : 0 ≤ x) (hx1 : x < W) (hy0 : 0 ≤ y) (hy1 : y < H)
    (hclear : circleInside ⟨outRect W H, circleRect W H, true, Shape.circle⟩ x y = true ∨
      (Pt x y).In (cornerRect W H) = true)
    (hnot : ¬ ((Pt x y).In (dogRect W H) = true ∧
      ((overlayMask W H).At (x - (dogRect W H).Min.X) (y - (dogRect W H).Min.Y)).A = 255)) :
    (pass3 srcImg overImg).Pix x y = ⟨0, 0, 0, 0⟩ := by
  have hW0 : 0 ≤ W := by omega
  have hH0 : 0 ≤ H := by omega
  have hminX : (dogRect W H).Min.X = W - badgeSize W - 1 := by
    rw [dogRect_eq W H hW0 hW1 hH0 hH1]
  have hminY : (dogRect W H).Min.Y = 1 := by
    rw [dogRect_eq W H hW0 hW1 hH0 hH1]
  rw [hminX, hminY, overlayMask_opaque_iff] at hnot
  rw [pass3_unchanged srcImg overImg W H x y hB hW0 hW1 hH0 hH1 hnot]
  exact pass2_cleared srcImg W H x y hB hW1 hH1 hx0 hx1 hy0 hy1 hclear

theorem cleared_pixel_transparent_witness :
    exampleSrc.Bounds = ⟨⟨0, 0⟩, ⟨300, 300⟩⟩ ∧ (300 : ℤ) < 2 ^ 63 ∧ (0 : ℤ) ≤ 299 ∧
      (299 : ℤ) < 300 ∧ (0 : ℤ) ≤ 0 ∧ (0 : ℤ) < 300 ∧
      (circleInside ⟨outRect 300 300, circleRect 300 300, true, Shape.circle⟩ 299 0 = true ∨
        (Pt 299 0).In (cornerRect 300 300) = true) ∧
      ¬ ((Pt 299 0).In (dogRect 300 300) = true ∧
        ((overlayMask 300 300).At (299 - (dogRect 300 300).Min.X)
          (0 - (dogRect 300 300).Min.Y)).A = 255) ∧
      (pass3 exampleSrc exampleOver).Pix 299 0 = ⟨0, 0, 0, 0⟩ := by
  have hclear :
      circleInside ⟨outRect 300 300, circleRect 300 300, true, Shape.circle⟩ 299 0 = true ∨
        (Pt 299 0).In (cornerRect 300 300) = true := by
    right
    rw [cornerRect_eq 300 300 (by norm_num) (by norm_num) (by norm_num) (by norm_num),
      badgeSize_300, In_iff]
    norm_num
  have hnot : ¬ ((Pt 299 0).In (dogRect 300 300) = true ∧
      ((overlayMask 300 300).At (299 - (dogRect 300 300).Min.X)
        (0 - (dogRect 300 300).Min.Y)).A = 255) := by
    rintro ⟨hin, -⟩
    rw [dogRect_eq 300 300 (by norm_num) (by norm_num) (by norm_num) (by norm_num),
      badgeSize_300, In_iff] at hin
    norm_num at hin
  exact ⟨rfl, by norm_num, by norm_num, by norm_num, by norm_num, by norm_num, hclear, hnot,
    cleared_pixel_transparent exampleSrc exampleOver 300 300 299 0 rfl (by norm_num)
      (by norm_num) (by norm_num) (by norm_num) (by norm_num) (by norm_num) hclear hnot⟩

/-! ## Theorems: the layout rectangles inside the image -/

theorem badgeSize_1 : badgeSize 1 = 0 := by
  rw [badgeSize_eq_div 1 (by norm_num) (by norm_num)]
  norm_num

theorem Rectangle_In_iff (r s : Rectangle) (hne : r.Empty = false) :
    r.In s = true ↔
      s.Min.X ≤ r.Min.X ∧ r.Max.X ≤ s.Max.X ∧ s.Min.Y ≤ r.Min.Y ∧ r.Max.Y ≤ s.Max.Y := by
  unfold Rectangle.In
  rw [hne]
  simp [and_assoc]

theorem Rectangle_In_self (r : Rectangle) : r.In r = true := by
  unfold Rectangle.In
  split_ifs
  · rfl
  · simp

/-- C11 (counterexample). For a 1 x 1 source, `circleRect` is `(-1,0)..(1,2)`: it is not
contained in the full image rectangle `(0,0)..(1,1)`. -/
theorem circleRect_not_in_outRect :
    circleRect 1 1 = ⟨⟨-1, 0⟩, ⟨1, 2⟩⟩ ∧ (circleRect 1 1).In (outRect 1 1) = false := by
  have h : circleRect 1 1 = ⟨⟨-1, 0⟩, ⟨1, 2⟩⟩ := by
    rw [circleRect_eq 1 1 (by norm_num) (by norm_num) (by norm_num) (by norm_num), badgeSize_1]
    norm_num
  refine ⟨h, ?_⟩
  rw [h]
  decide

/-- C11 (amended). Inner region within outer bounds: for every source image with `W >= 1` and
`H >= 1`, `cornerRect` is contained in the full image rectangle `(0,0)..(W,H)` and the inner
region `(0,0)..(w,h)` of the overlay mask is contained in its outer bounds `(0,0)..(w,h)`;
`circleRect` is contained in the full image rectangle exactly when `W >= 2` and `H >= 2`. -/
theorem inner_within_outer (W H : ℤ) (hW0 : 1 ≤ W) (hW1 : W < 2 ^ 63) (hH0 : 1 ≤ H)
    (hH1 : H < 2 ^ 63) :
    ((circleRect W H).In (outRect W H) = true ↔ (2 ≤ W ∧ 2 ≤ H)) ∧
      (cornerRect W H).In (outRect W H) = true ∧
      (0 ≤ (cornerRect W H).Min.X ∧ (cornerRect W H).Max.X ≤ W ∧
        0 ≤ (cornerRect W H).Min.Y ∧ (cornerRect W H).Max.Y ≤ H) ∧
      (overlayMask W H).Inner = ⟨⟨0, 0⟩, ⟨badgeSize W, badgeSize H⟩⟩ ∧
      (overlayMask W H).Outer = ⟨⟨0, 0⟩, ⟨badgeSize W, badgeSize H⟩⟩ ∧
      (overlayMask W H).Inner.In (overlayMask W H).Outer = true := by
  have hW0' : 0 ≤ W := by omega
  have hH0' : 0 ≤ H := by omega
  obtain ⟨hw0, hw1⟩ := badgeSize_bounds W hW0' hW1
  obtain ⟨hh0, hh1⟩ := badgeSize_bounds H hH0' hH1
  have hwsmall : W ≤ 3 → badgeSize W = W / 3 := fun h => badgeSize_eq_div W hW0' (by omega)
  have hhsmall : H ≤ 3 → badgeSize H = H / 3 := fun h => badgeSize_eq_div H hH0' (by omega)
  have hov := overlayMask_eq W H hW0' hW1 hH0' hH1
  refine ⟨?_, ?_, ?_, ?_, ?_, ?_⟩
  · have hne : (circleRect W H).Empty = false := by
      rw [circleRect_eq W H hW0' hW1 hH0' hH1, Bool.eq_false_iff, Ne, Empty_iff]
      simp only []
      omega
    rw [Rectangle_In_iff _ _ hne, circleRect_eq W H hW0' hW1 hH0' hH1]
    simp only [outRect, ZP]
    constructor
    · rintro ⟨h1, -, -, h4⟩
      by_contra hcon
      have hc : W ≤ 3 ∧ H ≤ 3 ∨ W ≤ 3 ∧ 3 < H ∨ 3 < W ∧ H ≤ 3 ∨ 3 < W ∧ 3 < H := by omega
      rcases hc with ⟨a, b⟩ | ⟨a, b⟩ | ⟨a, b⟩ | ⟨a, b⟩
      · rw [hwsmall a] at h1
        rw [hhsmall b] at h4
        omega
      · rw [hwsmall a] at h1
        omega
      · rw [hhsmall b] at h4
        omega
      · omega
    · rintro ⟨h1, h2⟩
      have hx : 0 ≤ W - badgeSize W - 2 := by
        by_cases a : W ≤ 3
        · rw [hwsmall a]
          omega
        · omega
      have hy : badgeSize H + 2 ≤ H := by
        by_cases b : H ≤ 3
        · rw [hhsmall b]
          omega
        · omega
      exact ⟨hx, le_refl _, le_refl _, hy⟩
  · have hne : (cornerRect W H).Empty = false := by
      rw [cornerRect_eq W H hW0' hW1 hH0' hH1, Bool.eq_false_iff, Ne, Empty_iff]
      simp only []
      omega
    rw [Rectangle_In_iff _ _ hne, cornerRect_eq W H hW0' hW1 hH0' hH1]
    simp only [outRect, ZP]
    omega
  · rw [cornerRect_eq W H hW0' hW1 hH0' hH1]
    simp only []
    omega
  · rw [hov]
  · rw [hov]
  · rw [hov]
    exact Rectangle_In_self _

theorem inner_within_outer_witness :
    (1 : ℤ) ≤ 300 ∧ (300 : ℤ) < 2 ^ 63 ∧
      (((circleRect 300 300).In (outRect 300 300) = true ↔ ((2 : ℤ) ≤ 300 ∧ (2 : ℤ) ≤ 300)) ∧
        (cornerRect 300 300).In (outRect 300 300) = true ∧
        (0 ≤ (cornerRect 300 300).Min.X ∧ (cornerRect 300 300).Max.X ≤ 300 ∧
          0 ≤ (cornerRect 300 300).Min.Y ∧ (cornerRect 300 300).Max.Y ≤ 300) ∧
        (overlayMask 300 300).Inner = ⟨⟨0, 0⟩, ⟨badgeSize 300, badgeSize 300⟩⟩ ∧
        (overlayMask 300 300).Outer = ⟨⟨0, 0⟩, ⟨badgeSize 300, badgeSize 300⟩⟩ ∧
        (overlayMask 300 300).Inner.In (overlayMask 300 300).Outer = true) :=
  ⟨by norm_num, by norm_num,
    inner_within_outer 300 300 (by norm_num) (by norm_num) (by norm_num) (by norm_num)⟩

/-- C12. Overlay placement stays inside the image with a border: for every source size with
`W >= 30` and `H >= 30`, `dogRect` lies in the full image rectangle `(0,0)..(W,H)` shrunk by
the border width `bw = 1` on every side: `bw <= dogRect.Min.X`, `bw <= dogRect.Min.Y`,
`dogRect.Max.X <= W - bw` and `dogRect.Max.Y <= H - bw`. -/
theorem dogRect_within_border (W H : ℤ) (hW0 : 30 ≤ W) (hW1 : W < 2 ^ 63) (hH0 : 30 ≤ H)
    (hH1 : H < 2 ^ 63) :
    bw = 1 ∧ bw ≤ (dogRect W H).Min.X ∧ bw ≤ (dogRect W H).Min.Y ∧
      (dogRect W H).Max.X ≤ W - bw ∧ (dogRect W H).Max.Y ≤ H - bw := by
  obtain ⟨hw0, hw1⟩ := badgeSize_bounds W (by omega) hW1
  obtain ⟨hh0, hh1⟩ := badgeSize_bounds H (by omega) hH1
  rw [dogRect_eq W H (by omega) hW1 (by omega) hH1]
  dsimp only [bw]
  omega

theorem dogRect_within_border_witness :
    (30 : ℤ) ≤ 30 ∧ (30 : ℤ) < 2 ^ 63 ∧
      (bw = 1 ∧ bw ≤ (dogRect 30 30).Min.X ∧ bw ≤ (dogRect 30 30).Min.Y ∧
        (dogRect 30 30).Max.X ≤ 30 - bw ∧ (dogRect 30 30).Max.Y ≤ 30 - bw) :=
  ⟨by norm_num, by norm_num,
    dogRect_within_border 30 30 (by norm_num) (by norm_num) (by norm_num) (by norm_num)⟩

/-- C18. Badge margin: for every source size `(W, H)`, `circleRect` is `dogRect` grown by the
border width `bw = 1` on every side (`circleRect.Min = dogRect.Min - (1,1)`,
`circleRect.Max = dogRect.Max + (1,1)`), so it is 2 pixels wider and 2 pixels taller than
`dogRect`, and `dogRect` has the size `(w, h)` to which the overlay is resized. -/
theorem badge_margin (W H : ℤ) (hW0 : 0 ≤ W) (hW1 : W < 2 ^ 63) (hH0 : 0 ≤ H)
    (hH1 : H < 2 ^ 63) :
    (circleRect W H).Min = ⟨(dogRect W H).Min.X - 1, (dogRect W H).Min.Y - 1⟩ ∧
      (circleRect W H).Max = ⟨(dogRect W H).Max.X + 1, (dogRect W H).Max.Y + 1⟩ ∧
      (circleRect W H).Dx = (dogRect W H).Dx + 2 ∧
      (circleRect W H).Dy = (dogRect W H).Dy + 2 ∧
      (dogRect W H).Size = ⟨badgeSize W, badgeSize H⟩ ∧
      (dogRect W H).Dx = badgeSize W ∧ (dogRect W H).Dy = badgeSize H := by
  obtain ⟨hw0, hw1⟩ := badgeSize_bounds W hW0 hW1
  obtain ⟨hh0, hh1⟩ := badgeSize_bounds H hH0 hH1
  have hs := dogRect_Size W H hW0 hW1 hH0 hH1
  have hdx : (dogRect W H).Dx = badgeSize W := congrArg Point.X hs
  have hdy : (dogRect W H).Dy = badgeSize H := congrArg Point.Y hs
  refine ⟨?_, ?_, ?_, ?_, hs, hdx, hdy⟩
  · rw [circleRect_eq W H hW0 hW1 hH0 hH1, dogRect_eq W H hW0 hW1 hH0 hH1]
    simp only [Point.mk.injEq]
    omega
  · rw [circleRect_eq W H hW0 hW1 hH0 hH1, dogRect_eq W H hW0 hW1 hH0 hH1]
    simp only [Point.mk.injEq]
    omega
  · rw [hdx, circleRect_eq W H hW0 hW1 hH0 hH1]
    unfold Rectangle.Dx
    have e : W - (W - badgeSize W - 2) = badgeSize W + 2 := by ring
    simp only [e]
    exact wrapInt_eq_self (by omega) (by omega)
  · rw [hdy, circleRect_eq W H hW0 hW1 hH0 hH1]
    unfold Rectangle.Dy
    simp only [sub_zero]
    exact wrapInt_eq_self (by omega) (by omega)

theorem badge_margin_witness :
    (0 : ℤ) ≤ 300 ∧ (300 : ℤ) < 2 ^ 63 ∧
      ((circleRect 300 300).Min = ⟨(dogRect 300 300).Min.X - 1, (dogRect 300 300).Min.Y - 1⟩ ∧
        (circleRect 300 300).Max =
          ⟨(dogRect 300 300).Max.X + 1, (dogRect 300 300).Max.Y + 1⟩ ∧
        (circleRect 300 300).Dx = (dogRect 300 300).Dx + 2 ∧
        (circleRect 300 300).Dy = (dogRect 300 300).Dy + 2 ∧
        (dogRect 300 300).Size = ⟨badgeSize 300, badgeSize 300⟩ ∧
        (dogRect 300 300).Dx = badgeSize 300 ∧ (dogRect 300 300).Dy = badgeSize 300) :=
  ⟨by norm_num, by norm_num,
    badge_margin 300 300 (by norm_num) (by norm_num) (by norm_num) (by norm_num)⟩

/-! ## Theorems: the two circle tests at every pixel -/

theorem wrapInt_wrapInt_sub (a b : ℤ) : wrapInt (wrapInt a - b) = wrapInt (a - b) := by
  unfold wrapInt
  omega

/-- The circle test of the overlay mask at any offset `(i, j)`. -/
theorem circleInside_overlayMask_all (W H i j : ℤ) (hW0 : 0 ≤ W) (hW1 : W < 2 ^ 63)
    (hH0 : 0 ≤ H) (hH1 : H < 2 ^ 63) :
    circleInside (overlayMask W H) i j =
      circleTest (wrapInt (i - badgeSize W / 2)) (wrapInt (j - badgeSize H / 2))
        (badgeSize W / 2) := by
  obtain ⟨hw0, hw1⟩ := badgeSize_bounds W hW0 hW1
  obtain ⟨hh0, hh1⟩ := badgeSize_bounds H hH0 hH1
  rw [overlayMask_eq W H hW0 hW1 hH0 hH1]
  unfold circleInside Rectangle.Dx Rectangle.Dy
  simp only [sub_zero]
  have e1 := wrapInt_eq_self (z := badgeSize W) (by omega) (by omega)
  have e2 := wrapInt_eq_self (z := badgeSize H) (by omega) (by omega)
  have t1 : Int.tdiv (badgeSize W) 2 = badgeSize W / 2 := Int.tdiv_eq_ediv hw0 (by norm_num)
  have t2 : Int.tdiv (badgeSize H) 2 = badgeSize H / 2 := Int.tdiv_eq_ediv hh0 (by norm_num)
  simp only [e1, e2, t1, t2, wrapInt_wrapInt_sub]

/-- The circle test of a mask over `circleRect` at any pixel `(x, y)`. -/
theorem circleInside_circleRect_all (O : Rectangle) (rev : Bool) (s : Shape) (W H x y : ℤ)
    (hW0 : 0 ≤ W) (hW1 : W < 2 ^ 63) (hH0 : 0 ≤ H) (hH1 : H < 2 ^ 63) :
    circleInside ⟨O, circleRect W H, rev, s⟩ x y =
      circleTest (wrapInt (x - (W - badgeSize W - 1) - badgeSize W / 2))
        (wrapInt (y - 1 - badgeSize H / 2)) (badgeSize W / 2 + 1) := by
  obtain ⟨hw0, hw1⟩ := badgeSize_bounds W hW0 hW1
  obtain ⟨hh0, hh1⟩ := badgeSize_bounds H hH0 hH1
  rw [circleRect_eq W H hW0 hW1 hH0 hH1]
  unfold circleInside Rectangle.Dx Rectangle.Dy
  simp only [sub_zero]
  have a1 : W - (W - badgeSize W - 2) = badgeSize W + 2 := by ring
  have e1 := wrapInt_eq_self (z := badgeSize W + 2) (by omega) (by omega)
  have e2 := wrapInt_eq_self (z := badgeSize H + 2) (by omega) (by omega)
  have t1 : Int.tdiv (badgeSize W + 2) 2 = badgeSize W / 2 + 1 := by
    rw [Int.tdiv_eq_ediv (by omega) (by norm_num)]
    omega
  have t2 : Int.tdiv (badgeSize H + 2) 2 = badgeSize H / 2 + 1 := by
    rw [Int.tdiv_eq_ediv (by omega) (by norm_num)]
    omega
  have a2 : x - (W - badgeSize W - 2) - (badgeSize W / 2 + 1) =
      x - (W - badgeSize W - 1) - badgeSize W / 2 := by ring
  have a3 : y - (badgeSize H / 2 + 1) = y - 1 - badgeSize H / 2 := by ring
  simp only [a1, e1, e2, t1, t2, wrapInt_wrapInt_sub, a2, a3]

theorem alphaOf_A_eq_zero (a b : Bool) : (alphaOf a b).A = 0 ↔ a = b := by
  cases a <;> cases b <;> simp [alphaOf]

/-- C19. The overlay disc sits inside the cleared badge disc.  For every source size
`W, H >= 0` and every pixel `(x, y)`: the circle test of the third pass at
`(x, y) - dogRect.Min` (inner region `(0,0)..(w,h)`) and the circle test of the first pass at
`(x, y)` (inner region `circleRect`) are the float64 comparison at the same offsets from the
centre, with radius `w/2` in the third pass and `w/2 + 1` in the first; hence wherever the
overlay mask is opaque the reversed mask of the first pass has opacity 0 (the pixel was
cleared), so at no pixel are both opaque. -/
theorem overlay_disc_inside_badge_disc (W H x y : ℤ) (hW0 : 0 ≤ W) (hW1 : W < 2 ^ 63)
    (hH0 : 0 ≤ H) (hH1 : H < 2 ^ 63) :
    circleInside (overlayMask W H) (x - (dogRect W H).Min.X) (y - (dogRect W H).Min.Y) =
        circleTest (wrapInt (x - (dogRect W H).Min.X - badgeSize W / 2))
          (wrapInt (y - (dogRect W H).Min.Y - badgeSize H / 2)) (badgeSize W / 2) ∧
      circleInside ⟨outRect W H, circleRect W H, true, Shape.circle⟩ x y =
        circleTest (wrapInt (x - (dogRect W H).Min.X - badgeSize W / 2))
          (wrapInt (y - (dogRect W H).Min.Y - badgeSize H / 2)) (badgeSize W / 2 + 1) ∧
      Int.tdiv (overlayMask W H).Inner.Dx 2 = badgeSize W / 2 ∧
      Int.tdiv (circleRect W H).Dx 2 = badgeSize W / 2 + 1 ∧
      (((overlayMask W H).At (x - (dogRect W H).Min.X) (y - (dogRect W H).Min.Y)).A = 0 ∨
        ((AlphaMask.mk (outRect W H) (circleRect W H) true Shape.circle).At x y).A = 0) := by
  obtain ⟨hw0, hw1⟩ := badgeSize_bounds W hW0 hW1
  obtain ⟨hh0, hh1⟩ := badgeSize_bounds H hH0 hH1
  have hminX : (dogRect W H).Min.X = W - badgeSize W - 1 := by
    rw [dogRect_eq W H hW0 hW1 hH0 hH1]
  have hminY : (dogRect W H).Min.Y = 1 := by
    rw [dogRect_eq W H hW0 hW1 hH0 hH1]
  have h3 := circleInside_overlayMask_all W H (x - (W - badgeSize W - 1)) (y - 1) hW0 hW1 hH0 hH1
  have h1 := circleInside_circleRect_all (outRect W H) true Shape.circle W H x y hW0 hW1 hH0 hH1
  rw [hminX, hminY]
  refine ⟨h3, h1, ?_, ?_, ?_⟩
  · rw [overlayMask_eq W H hW0 hW1 hH0 hH1]
    unfold Rectangle.Dx
    simp only [sub_zero]
    rw [wrapInt_eq_self (by omega) (by omega), Int.tdiv_eq_ediv hw0 (by norm_num)]
  · rw [circleRect_eq W H hW0 hW1 hH0 hH1]
    unfold Rectangle.Dx
    have a1 : W - (W - badgeSize W - 2) = badgeSize W + 2 := by ring
    simp only [a1]
    rw [wrapInt_eq_self (by omega) (by omega), Int.tdiv_eq_ediv (by omega) (by norm_num)]
    omega
  · by_cases hov : circleInside (overlayMask W H) (x - (W - badgeSize W - 1)) (y - 1) = true
    · right
      have hb : circleInside ⟨outRect W H, circleRect W H, true, Shape.circle⟩ x y = true := by
        rw [h1]
        rw [h3] at hov
        exact circleTest_mono _ _ _ _ (by omega) (by omega) hov
      show (alphaOf (circleInside ⟨outRect W H, circleRect W H, true, Shape.circle⟩ x y)
        true).A = 0
      rw [hb]
      rfl
    · left
      rw [Bool.not_eq_true] at hov
      rw [overlayMask_At, hov]
      rfl

theorem overlay_disc_inside_badge_disc_witness :
    (0 : ℤ) ≤ 300 ∧ (300 : ℤ) < 2 ^ 63 ∧
      (circleInside (overlayMask 300 300) (249 - (dogRect 300 300).Min.X)
          (51 - (dogRect 300 300).Min.Y) =
          circleTest (wrapInt (249 - (dogRect 300 300).Min.X - badgeSize 300 / 2))
            (wrapInt (51 - (dogRect 300 300).Min.Y - badgeSize 300 / 2))
            (badgeSize 300 / 2) ∧
        circleInside ⟨outRect 300 300, circleRect 300 300, true, Shape.circle⟩ 249 51 =
          circleTest (wrapInt (249 - (dogRect 300 300).Min.X - badgeSize 300 / 2))
            (wrapInt (51 - (dogRect 300 300).Min.Y - badgeSize 300 / 2))
            (badgeSize 300 / 2 + 1) ∧
        Int.tdiv (overlayMask 300 300).Inner.Dx 2 = badgeSize 300 / 2 ∧
        Int.tdiv (circleRect 300 300).Dx 2 = badgeSize 300 / 2 + 1 ∧
        (((overlayMask 300 300).At (249 - (dogRect 300 300).Min.X)
            (51 - (dogRect 300 300).Min.Y)).A = 0 ∨
          ((AlphaMask.mk (outRect 300 300) (circleRect 300 300) true Shape.circle).At
            249 51).A = 0)) :=
  ⟨by norm_num, by norm_num,
    overlay_disc_inside_badge_disc 300 300 249 51 (by norm_num) (by norm_num) (by norm_num)
      (by norm_num)⟩

/-! ## Theorems: symmetry and idempotence of the rounding -/

theorem roundHalfEven_neg (q : ℚ) : roundHalfEven (-q) = -roundHalfEven q := by
  have h1 := Int.floor_le q
  have h2 := Int.lt_floor_add_one q
  by_cases hint : q = (⌊q⌋ : ℚ)
  · rw [hint, ← Int.cast_neg, roundHalfEven_intCast, roundHalfEven_intCast]
  · have hlt : (⌊q⌋ : ℚ) < q := lt_of_le_of_ne h1 (Ne.symm hint)
    have hfl : ⌊-q⌋ = -⌊q⌋ - 1 := by
      rw [Int.floor_eq_iff]
      push_cast
      constructor <;> linarith
    unfold roundHalfEven
    rw [hfl]
    push_cast
    split_ifs <;> first | omega | (exfalso; linarith)

theorem roundNearestEven_neg (prec : ℕ) (emin : ℤ) (q : ℚ) :
    roundNearestEven prec emin (-q) = -roundNearestEven prec emin q := by
  unfold roundNearestEven ulpExp
  rw [abs_neg, neg_div, roundHalfEven_neg]
  push_cast
  ring

/-- The integer significand chosen by the rounding has at most `prec` bits, or is `2^prec`. -/
theorem abs_roundHalfEven_div_le (prec : ℕ) (emin : ℤ) (q : ℚ) :
    |roundHalfEven (q / (2 : ℚ) ^ ulpExp prec emin q)| ≤ 2 ^ prec := by
  have hE : Int.log 2 |q| - ((prec : ℤ) - 1) ≤ ulpExp prec emin q := le_max_left _ _
  generalize ulpExp prec emin q = e at hE
  have he0 := two_zpow_pos e
  have hlt : |q| < (2 : ℚ) ^ ((prec : ℤ) + e) :=
    (abs_lt_zpow_log_succ q).trans_le (zpow_le_zpow_right₀ (by norm_num) (by omega))
  rw [zpow_add₀ (by norm_num : (2 : ℚ) ≠ 0), zpow_natCast] at hlt
  have hq := abs_lt.mp hlt
  rw [abs_le]
  constructor
  · have hdiv : ((-(2 ^ prec) : ℤ) : ℚ) ≤ q / (2 : ℚ) ^ e := by
      push_cast
      rw [le_div_iff₀ he0]
      linarith [hq.1]
    exact le_roundHalfEven_of_le hdiv
  · have hdiv : q / (2 : ℚ) ^ e ≤ ((2 ^ prec : ℤ) : ℚ) := by
      push_cast
      rw [div_le_iff₀ he0]
      linarith [hq.2]
    exact roundHalfEven_le_of_le hdiv

/-- A rounded value is a value of the format: rounding it again changes nothing. -/
theorem roundNearestEven_idem (prec : ℕ) (emin : ℤ) (hprec : 0 < prec) (q : ℚ) :
    roundNearestEven prec emin (roundNearestEven prec emin q) = roundNearestEven prec emin q := by
  have hM := abs_roundHalfEven_div_le prec emin q
  have hE := emin_le_ulpExp prec emin q
  have hdef : roundNearestEven prec emin q =
      (roundHalfEven (q / (2 : ℚ) ^ ulpExp prec emin q) : ℚ) * (2 : ℚ) ^ ulpExp prec emin q := rfl
  rw [hdef]
  generalize roundHalfEven (q / (2 : ℚ) ^ ulpExp prec emin q) = M at hM
  generalize ulpExp prec emin q = e at hE
  rcases hM.lt_or_eq with hlt | heq
  · exact roundNearestEven_exact prec emin M e hlt hE
  · have h1 : (1 : ℤ) < 2 ^ prec := by
      have : (2 : ℤ) ^ 0 < 2 ^ prec := pow_lt_pow_right₀ (by norm_num) hprec
      simpa using this
    have hpos : (0 : ℤ) ≤ 2 ^ prec := by positivity
    rcases (abs_eq hpos).mp heq with h | h
    · have e1 := roundNearestEven_exact prec emin 1 (e + prec) (by simpa using h1) (by omega)
      have hrw : (M : ℚ) * (2 : ℚ) ^ e = ((1 : ℤ) : ℚ) * (2 : ℚ) ^ (e + (prec : ℤ)) := by
        rw [h, zpow_add₀ (by norm_num : (2 : ℚ) ≠ 0), zpow_natCast]
        push_cast
        ring
      rw [hrw]
      exact e1
    · have e1 := roundNearestEven_exact prec emin (-1) (e + prec) (by simpa using h1) (by omega)
      have hrw : (M : ℚ) * (2 : ℚ) ^ e = ((-1 : ℤ) : ℚ) * (2 : ℚ) ^ (e + (prec : ℤ)) := by
        rw [h, zpow_add₀ (by norm_num : (2 : ℚ) ≠ 0), zpow_natCast]
        push_cast
        ring
      rw [hrw]
      exact e1

theorem f64_idem (q : ℚ) : f64 (f64 q) = f64 q :=
  roundNearestEven_idem 53 (-1074) (by norm_num) q

theorem f64_neg (q : ℚ) : f64 (-q) = -f64 q := roundNearestEven_neg 53 (-1074) q

theorem f64_nonneg {q : ℚ} (hq : 0 ≤ q) : 0 ≤ f64 q := roundNearestEven_nonneg 53 (-1074) hq

/-- A rational within less than one half of an integer rounds to that integer. -/
theorem roundHalfEven_eq_of_abs_lt (q : ℚ) (M : ℤ) (h : |q - M| < 1 / 2) :
    roundHalfEven q = M := by
  have h1 := abs_roundHalfEven_sub_le q
  rw [abs_lt] at h
  rw [abs_le] at h1
  have h2 : (roundHalfEven q : ℚ) - M < 1 := by linarith [h1.2, h.2]
  have h3 : -1 < (roundHalfEven q : ℚ) - M := by linarith [h1.1, h.1]
  have h4 : roundHalfEven q - M < 1 := by exact_mod_cast h2
  have h5 : -1 < roundHalfEven q - M := by exact_mod_cast h3
  omega

theorem roundHalfEven_tie_53 : roundHalfEven ((2 : ℚ) ^ 53 - 1 / 2) = 2 ^ 53 := by
  norm_num [roundHalfEven]

/-- From `2^53` on, the float64 numbers are at least 1 apart and subtracting one half from
one of them rounds back to it. -/
theorem f64_sub_half_of_large (q : ℚ) (hq : (2 : ℚ) ^ 53 ≤ q) :
    f64 (f64 q - 1 / 2) = f64 q := by
  have hqpos : 0 < q := lt_of_lt_of_le (by norm_num) hq
  have hq0 : q ≠ 0 := hqpos.ne'
  have habs : |q| = q := abs_of_pos hqpos
  have hlog : (53 : ℤ) ≤ Int.log 2 |q| :=
    le_log_of_le_abs hq0 (by rw [habs]; exact_mod_cast hq)
  have hEdef : ulpExp 53 (-1074) q = Int.log 2 |q| - 52 := by
    unfold ulpExp
    rw [max_eq_left (by push_cast; omega)]
    push_cast
    ring
  have hlo := zpow_log_le_abs hq0
  have hhi := abs_lt_zpow_log_succ q
  rw [habs] at hlo hhi
  have hfq : f64 q = (roundHalfEven (q / (2 : ℚ) ^ ulpExp 53 (-1074) q) : ℚ) *
      (2 : ℚ) ^ ulpExp 53 (-1074) q := rfl
  obtain ⟨k, hk⟩ : ∃ k : ℕ, ulpExp 53 (-1074) q = (k : ℤ) + 1 :=
    ⟨(ulpExp 53 (-1074) q - 1).toNat, by omega⟩
  have hlogk : Int.log 2 |q| = (k : ℤ) + 53 := by omega
  rw [hk] at hfq
  rw [habs] at hlogk
  rw [hlogk] at hlo hhi
  have hp1 : (1 : ℚ) ≤ (2 : ℚ) ^ k := one_le_pow₀ (by norm_num)
  have hE : (2 : ℚ) ^ ((k : ℤ) + 1) = 2 * (2 : ℚ) ^ k := by
    rw [zpow_add₀ (by norm_num : (2 : ℚ) ≠ 0), zpow_natCast]
    norm_num
    ring
  have hlo' : (2 : ℚ) ^ 52 * (2 * (2 : ℚ) ^ k) ≤ q := by
    have : (2 : ℚ) ^ ((k : ℤ) + 53) = (2 : ℚ) ^ 52 * (2 * (2 : ℚ) ^ k) := by
      rw [zpow_add₀ (by norm_num : (2 : ℚ) ≠ 0), zpow_natCast]
      norm_num
      ring
    rw [← this]
    exact hlo
  have hhi' : q < (2 : ℚ) ^ 53 * (2 * (2 : ℚ) ^ k) := by
    have : (2 : ℚ) ^ ((k : ℤ) + 53 + 1) = (2 : ℚ) ^ 53 * (2 * (2 : ℚ) ^ k) := by
      rw [zpow_add₀ (by norm_num : (2 : ℚ) ≠ 0), zpow_add₀ (by norm_num : (2 : ℚ) ≠ 0),
        zpow_natCast]
      norm_num
      ring
    rw [← this]
    exact hhi
  rw [hE] at hfq
  have hpos2 : (0 : ℚ) < 2 * (2 : ℚ) ^ k := by positivity
  have hMlo : (2 : ℤ) ^ 52 ≤ roundHalfEven (q / (2 * (2 : ℚ) ^ k)) := by
    apply le_roundHalfEven_of_le
    push_cast
    rw [le_div_iff₀ hpos2]
    exact hlo'
  have hMhi : roundHalfEven (q / (2 * (2 : ℚ) ^ k)) ≤ (2 : ℤ) ^ 53 := by
    apply roundHalfEven_le_of_le
    push_cast
    rw [div_le_iff₀ hpos2]
    exact hhi'.le
  rw [hfq]
  generalize roundHalfEven (q / (2 * (2 : ℚ) ^ k)) = M at hMlo hMhi
  generalize hpdef : (2 : ℚ) ^ k = p at hp1 hE hpos2
  have hMloq : ((2 : ℚ) ^ 52) ≤ (M : ℚ) := by exact_mod_cast hMlo
  have hMhiq : (M : ℚ) ≤ (2 : ℚ) ^ 53 := by exact_mod_cast hMhi
  have hwpos : 0 < (M : ℚ) * (2 * p) - 1 / 2 := by nlinarith
  rcases hMlo.lt_or_eq with hgt | heq
  · -- the significand is above 2^52: same binade
    have hM1 : ((2 : ℚ) ^ 52) + 1 ≤ (M : ℚ) := by
      have : (2 : ℤ) ^ 52 + 1 ≤ M := by omega
      exact_mod_cast this
    have hb := roundNearestEven_eq_of_binade 53 (-1074) ((M : ℚ) * (2 * p) - 1 / 2)
      ((k : ℤ) + 1)
      (by
        rw [abs_of_pos hwpos]
        have : (2 : ℚ) ^ ((k : ℤ) + 1 + ((53 : ℕ) : ℤ) - 1) = (2 : ℚ) ^ 52 * (2 * p) := by
          rw [show (k : ℤ) + 1 + ((53 : ℕ) : ℤ) - 1 = ((k : ℤ) + 1) + 52 by push_cast; ring,
            zpow_add₀ (by norm_num : (2 : ℚ) ≠ 0), hE]
          norm_num
          ring
        rw [this]
        nlinarith)
      (by
        rw [abs_of_pos hwpos]
        have : (2 : ℚ) ^ ((k : ℤ) + 1 + ((53 : ℕ) : ℤ)) = (2 : ℚ) ^ 53 * (2 * p) := by
          rw [zpow_add₀ (by norm_num : (2 : ℚ) ≠ 0), hE]
          norm_num
          ring
        rw [this]
        nlinarith)
      (by omega)
    unfold f64
    rw [hb, hE]
    have hr : roundHalfEven (((M : ℚ) * (2 * p) - 1 / 2) / (2 * p)) = M := by
      apply roundHalfEven_eq_of_abs_lt
      have e : ((M : ℚ) * (2 * p) - 1 / 2) / (2 * p) - M = -(1 / (4 * p)) := by
        field_simp
        ring
      rw [e, abs_neg, abs_of_pos (by positivity)]
      rw [div_lt_div_iff₀ (by positivity) (by norm_num)]
      linarith
    rw [hr]
  · -- the significand is 2^52: the value minus one half lies in the binade below
    have hMq : (M : ℚ) = (2 : ℚ) ^ 52 := by exact_mod_cast heq.symm
    rw [hMq]
    rw [hMq] at hwpos
    have hb := roundNearestEven_eq_of_binade 53 (-1074) ((2 : ℚ) ^ 52 * (2 * p) - 1 / 2)
      (k : ℤ)
      (by
        rw [abs_of_pos hwpos]
        have : (2 : ℚ) ^ ((k : ℤ) + ((53 : ℕ) : ℤ) - 1) = (2 : ℚ) ^ 52 * p := by
          rw [show (k : ℤ) + ((53 : ℕ) : ℤ) - 1 = (k : ℤ) + 52 by push_cast; ring,
            zpow_add₀ (by norm_num : (2 : ℚ) ≠ 0), zpow_natCast, hpdef]
          norm_num
          ring
        rw [this]
        nlinarith)
      (by
        rw [abs_of_pos hwpos]
        have : (2 : ℚ) ^ ((k : ℤ) + ((53 : ℕ) : ℤ)) = (2 : ℚ) ^ 53 * p := by
          rw [zpow_add₀ (by norm_num : (2 : ℚ) ≠ 0), zpow_natCast, hpdef]
          norm_num
          ring
        rw [this]
        nlinarith)
      (by omega)
    unfold f64
    rw [hb, zpow_natCast, hpdef]
    have hr : roundHalfEven (((2 : ℚ) ^ 52 * (2 * p) - 1 / 2) / p) = 2 ^ 53 := by
      rcases hp1.lt_or_eq with hp | hp
      · -- p ≥ 2
        have hp2 : (2 : ℚ) ≤ p := by
          rcases Nat.eq_zero_or_pos k with h0 | h0
          · rw [h0] at hpdef
            norm_num at hpdef
            rw [← hpdef] at hp
            exact absurd hp (lt_irrefl _)
          · rw [← hpdef]
            calc (2 : ℚ) = 2 ^ 1 := by norm_num
              _ ≤ 2 ^ k := pow_le_pow_right₀ (by norm_num) h0
        apply roundHalfEven_eq_of_abs_lt
        have e : ((2 : ℚ) ^ 52 * (2 * p) - 1 / 2) / p - ((2 ^ 53 : ℤ) : ℚ) = -(1 / (2 * p)) := by
          push_cast
          field_simp
          ring
        rw [e, abs_neg, abs_of_pos (by positivity)]
        rw [div_lt_div_iff₀ (by positivity) (by norm_num)]
        linarith
      · rw [← hp]
        have := roundHalfEven_tie_53
        norm_num at this ⊢
        exact this
    rw [hr]
    push_cast
    ring

/-- For integers `p > R >= 0`, `float64(p) - 0.5` does not round below `float64(R)`. -/
theorem f64_sub_half_ge (p R : ℤ) (hR : 0 ≤ R) (hp : R < p) :
    f64 (R : ℚ) ≤ f64 (f64 (p : ℚ) - 1 / 2) := by
  have hRq : (0 : ℚ) ≤ (R : ℚ) := by exact_mod_cast hR
  have hpq : (R : ℚ) + 1 ≤ (p : ℚ) := by
    have : R + 1 ≤ p := by omega
    exact_mod_cast this
  by_cases hbig : (2 : ℤ) ^ 53 ≤ p
  · have hbq : (2 : ℚ) ^ 53 ≤ (p : ℚ) := by exact_mod_cast hbig
    rw [f64_sub_half_of_large _ hbq]
    exact f64_mono hRq (by linarith)
  · have hex : f64 (p : ℚ) = p := by
      have h := f64_exact p 0 (by rw [abs_lt]; constructor <;> omega) (by norm_num)
      simpa using h
    rw [hex]
    exact f64_mono hRq (by linarith)

/-! ## Theorems: the circle stays within its radius -/

/-- The comparison of `circleAtFunc` fails when the first squared term alone reaches the
squared radius. -/
theorem circleTest_false_of_sq_le (n k R : ℤ)
    (h : f64 (float64OfInt R * float64OfInt R) ≤
      mulF64 (addF64 (float64OfInt n) (1 / 2)) (addF64 (float64OfInt n) (1 / 2)) ∨
      f64 (float64OfInt R * float64OfInt R) ≤
      mulF64 (addF64 (float64OfInt k) (1 / 2)) (addF64 (float64OfInt k) (1 / 2))) :
    circleTest n k R = false := by
  unfold circleTest
  simp only [decide_eq_false_iff_not, not_lt]
  have hT : 0 ≤ f64 (float64OfInt R * float64OfInt R) := f64_nonneg (mul_self_nonneg _)
  have hA : 0 ≤ mulF64 (addF64 (float64OfInt n) (1 / 2)) (addF64 (float64OfInt n) (1 / 2)) :=
    f64_nonneg (mul_self_nonneg _)
  have hB : 0 ≤ mulF64 (addF64 (float64OfInt k) (1 / 2)) (addF64 (float64OfInt k) (1 / 2)) :=
    f64_nonneg (mul_self_nonneg _)
  have hrr : mulF64 (float64OfInt R) (float64OfInt R) =
      f64 (float64OfInt R * float64OfInt R) := rfl
  rw [hrr, ← f64_idem (float64OfInt R * float64OfInt R)]
  generalize mulF64 (addF64 (float64OfInt n) (1 / 2)) (addF64 (float64OfInt n) (1 / 2)) = A
    at h hA
  generalize mulF64 (addF64 (float64OfInt k) (1 / 2)) (addF64 (float64OfInt k) (1 / 2)) = B
    at h hB
  show f64 (f64 (float64OfInt R * float64OfInt R)) ≤ f64 (A + B)
  apply f64_mono hT
  rcases h with h | h <;> linarith

/-- The magnitude of `float64(n) + 0.5` is at least `float64(R)` when `n >= R` or
`n <= -R - 1`. -/
theorem abs_add_half_ge (n R : ℤ) (hR : 0 ≤ R) (hn : R ≤ n ∨ n ≤ -R - 1) :
    float64OfInt R ≤ |addF64 (float64OfInt n) (1 / 2)| := by
  have hRq : (0 : ℚ) ≤ (R : ℚ) := by exact_mod_cast hR
  have hρ : 0 ≤ float64OfInt R := float64OfInt_nonneg hR
  unfold addF64 float64OfInt at *
  rcases hn with hn | hn
  · have h1 : f64 (R : ℚ) ≤ f64 (n : ℚ) := f64_mono hRq (by exact_mod_cast hn)
    have h2 : f64 (f64 (R : ℚ)) ≤ f64 (f64 (n : ℚ) + 1 / 2) := f64_mono hρ (by linarith)
    rw [f64_idem] at h2
    exact h2.trans (le_abs_self _)
  · obtain ⟨p, hp⟩ : ∃ p : ℤ, n = -p := ⟨-n, by ring⟩
    subst hp
    have hpR : R < p := by omega
    have h := f64_sub_half_ge p R hR hpR
    have e : f64 (((-p : ℤ) : ℚ)) + 1 / 2 = -(f64 (p : ℚ) - 1 / 2) := by
      push_cast
      rw [f64_neg]
      ring
    rw [e, f64_neg, abs_neg]
    exact h.trans (le_abs_self _)

/-- Outside the offsets `-R <= n <= R - 1` the comparison of `circleAtFunc` fails, for every
`int` offset and every radius `R >= 0`, whatever the rounding does. -/
theorem circleTest_bounds (n k R : ℤ) (hR : 0 ≤ R) (h : circleTest n k R = true) :
    (-R ≤ n ∧ n ≤ R - 1) ∧ (-R ≤ k ∧ k ≤ R - 1) := by
  have hρ : 0 ≤ float64OfInt R := float64OfInt_nonneg hR
  have key : ∀ j : ℤ, (R ≤ j ∨ j ≤ -R - 1) →
      f64 (float64OfInt R * float64OfInt R) ≤
        mulF64 (addF64 (float64OfInt j) (1 / 2)) (addF64 (float64OfInt j) (1 / 2)) := by
    intro j hj
    have ha := abs_add_half_ge j R hR hj
    unfold mulF64
    apply f64_mono (mul_self_nonneg _)
    have : addF64 (float64OfInt j) (1 / 2) * addF64 (float64OfInt j) (1 / 2) =
        |addF64 (float64OfInt j) (1 / 2)| * |addF64 (float64OfInt j) (1 / 2)| :=
      (abs_mul_abs_self _).symm
    rw [this]
    exact mul_le_mul ha ha hρ (hρ.trans ha)
  constructor
  · by_contra hcon
    have hj : R ≤ n ∨ n ≤ -R - 1 := by omega
    rw [circleTest_false_of_sq_le n k R (Or.inl (key n hj))] at h
    exact Bool.noConfusion h
  · by_contra hcon
    have hj : R ≤ k ∨ k ≤ -R - 1 := by omega
    rw [circleTest_false_of_sq_le n k R (Or.inr (key k hj))] at h
    exact Bool.noConfusion h

/-- For a well-formed square inner region the circle of `circleAtFunc` lies in the region. -/
theorem circleInside_In_of_square (m : AlphaMask) (x y : ℤ)
    (hminX : -2 ^ 63 ≤ m.Inner.Min.X) (hminY : -2 ^ 63 ≤ m.Inner.Min.Y)
    (hmaxX : m.Inner.Max.X < 2 ^ 63) (hmaxY : m.Inner.Max.Y < 2 ^ 63)
    (hwfX : m.Inner.Min.X ≤ m.Inner.Max.X) (hwfY : m.Inner.Min.Y ≤ m.Inner.Max.Y)
    (hx0 : -2 ^ 63 ≤ x) (hx1 : x < 2 ^ 63) (hy0 : -2 ^ 63 ≤ y) (hy1 : y < 2 ^ 63)
    (hsq : m.Inner.Dx = m.Inner.Dy) (hd : 0 ≤ m.Inner.Dx)
    (h : circleInside m x y = true) : (Pt x y).In m.Inner = true := by
  unfold circleInside at h
  simp only [] at h
  rw [← hsq] at h
  have hdx : m.Inner.Dx = m.Inner.Max.X - m.Inner.Min.X := by
    unfold Rectangle.Dx wrapInt at hd ⊢
    omega
  have hd' : 0 ≤ m.Inner.Dy := hsq ▸ hd
  have hdy : m.Inner.Dy = m.Inner.Max.Y - m.Inner.Min.Y := by
    unfold Rectangle.Dy wrapInt at hd' ⊢
    omega
  have ht : Int.tdiv m.Inner.Dx 2 = m.Inner.Dx / 2 := Int.tdiv_eq_ediv hd (by norm_num)
  rw [ht] at h
  obtain ⟨⟨hn0, hn1⟩, hk0, hk1⟩ := circleTest_bounds _ _ _ (by omega) h
  rw [In_iff]
  have hdxy : m.Inner.Max.X - m.Inner.Min.X = m.Inner.Max.Y - m.Inner.Min.Y := by
    rw [← hdx, ← hdy]
    exact hsq
  rw [hdx] at hn0 hn1 hk0 hk1
  unfold wrapInt at hn0 hn1 hk0 hk1
  refine ⟨?_, ?_, ?_, ?_⟩ <;> omega

/-! ## Theorems: mirror images -/

/-- The circle test of a mask over the square `(0,0)..(d,d)`. -/
theorem circleInside_origin_square (O : Rectangle) (rev : Bool) (s : Shape) (d x y : ℤ)
    (hd0 : 0 ≤ d) (hd1 : d < 2 ^ 62) (hx : |x| < 2 ^ 62) (hy : |y| < 2 ^ 62) :
    circleInside ⟨O, ⟨⟨0, 0⟩, ⟨d, d⟩⟩, rev, s⟩ x y =
      circleTest (x - d / 2) (y - d / 2) (d / 2) := by
  rw [abs_lt] at hx hy
  unfold circleInside Rectangle.Dx Rectangle.Dy
  simp only [sub_zero]
  have e1 := wrapInt_eq_self (z := d) (by omega) (by omega)
  have t1 : Int.tdiv d 2 = d / 2 := Int.tdiv_eq_ediv hd0 (by norm_num)
  have e2 := wrapInt_eq_self (z := x - d / 2) (by omega) (by omega)
  have e3 := wrapInt_eq_self (z := y - d / 2) (by omega) (by omega)
  simp only [e1, t1, wrapInt_wrapInt_sub, e2, e3]

/-- In the range where `n + 0.5` is a float64, the offsets `n` and `-(n+1)` give opposite
values of `float64(n) + 0.5`. -/
theorem addF64_half_neg_succ (n : ℤ) (hn0 : -2 ^ 52 ≤ n) (hn1 : n < 2 ^ 52) :
    addF64 (float64OfInt (-(n + 1))) (1 / 2) = -addF64 (float64OfInt n) (1 / 2) := by
  have half : ∀ j : ℤ, -2 ^ 52 ≤ j → j < 2 ^ 52 →
      addF64 (float64OfInt j) (1 / 2) = (j : ℚ) + 1 / 2 := by
    intro j hj0 hj1
    rw [float64OfInt_exact j (by rw [abs_lt]; constructor <;> omega)]
    have e : (j : ℚ) + 1 / 2 = ((2 * j + 1 : ℤ) : ℚ) * (2 : ℚ) ^ (-1 : ℤ) := by
      push_cast
      norm_num
      ring
    unfold addF64
    have h := f64_exact (2 * j + 1) (-1) (by rw [abs_lt]; constructor <;> omega) (by norm_num)
    rw [← e] at h
    exact h
  rw [half n hn0 hn1, half (-(n + 1)) (by omega) (by omega)]
  push_cast
  ring

theorem circleTest_mirror (n k R : ℤ) (hn0 : -2 ^ 52 ≤ n) (hn1 : n < 2 ^ 52)
    (hk0 : -2 ^ 52 ≤ k) (hk1 : k < 2 ^ 52) :
    circleTest (-(n + 1)) k R = circleTest n k R ∧
      circleTest n (-(k + 1)) R = circleTest n k R := by
  unfold circleTest
  simp only [addF64_half_neg_succ n hn0 hn1, addF64_half_neg_succ k hk0 hk1, mulF64, neg_mul_neg]
  exact ⟨trivial, trivial⟩

/-- The circle test of a mask over the square `(0,0)..(d,d)` is symmetric about the centre
that the code uses: `x` mirrors to `d - 1 - d % 2 - x`. -/
theorem circleInside_mirror (O : Rectangle) (rev : Bool) (s : Shape) (d x y : ℤ) (hd0 : 0 ≤ d)
    (hd1 : d < 2 ^ 51) (hx : |x| < 2 ^ 51) (hy : |y| < 2 ^ 51) :
    circleInside ⟨O, ⟨⟨0, 0⟩, ⟨d, d⟩⟩, rev, s⟩ (d - 1 - d % 2 - x) y =
        circleInside ⟨O, ⟨⟨0, 0⟩, ⟨d, d⟩⟩, rev, s⟩ x y ∧
      circleInside ⟨O, ⟨⟨0, 0⟩, ⟨d, d⟩⟩, rev, s⟩ x (d - 1 - d % 2 - y) =
        circleInside ⟨O, ⟨⟨0, 0⟩, ⟨d, d⟩⟩, rev, s⟩ x y := by
  have hx' := abs_lt.mp hx
  have hy' := abs_lt.mp hy
  have bx : |x| < 2 ^ 62 := by rw [abs_lt]; constructor <;> omega
  have by' : |y| < 2 ^ 62 := by rw [abs_lt]; constructor <;> omega
  have bmx : |d - 1 - d % 2 - x| < 2 ^ 62 := by rw [abs_lt]; constructor <;> omega
  have bmy : |d - 1 - d % 2 - y| < 2 ^ 62 := by rw [abs_lt]; constructor <;> omega
  rw [circleInside_origin_square O rev s d _ y hd0 (by omega) bmx by',
    circleInside_origin_square O rev s d x _ hd0 (by omega) bx bmy,
    circleInside_origin_square O rev s d x y hd0 (by omega) bx by']
  have ex : d - 1 - d % 2 - x - d / 2 = -((x - d / 2) + 1) := by omega
  have ey : d - 1 - d % 2 - y - d / 2 = -((y - d / 2) + 1) := by omega
  rw [ex, ey]
  exact circleTest_mirror _ _ _ (by omega) (by omega) (by omega) (by omega)

/-- C16 (counterexample). For the 3 x 3 inner region `(0,0)..(3,3)` the pixel `(0,1)` is
opaque and its mirror image `(3-1-0, 1) = (2,1)` is transparent. -/
theorem mirror_fails_odd :
    (exampleOddMask.At 0 1).A = 255 ∧ (exampleOddMask.At (3 - 1 - 0) 1).A = 0 ∧
      exampleOddMask.Inner = ⟨⟨0, 0⟩, ⟨3, 3⟩⟩ := by
  have h1 : circleInside exampleOddMask 0 1 = true := by
    unfold exampleOddMask
    rw [circleInside_origin_square _ _ _ 3 0 1 (by norm_num) (by norm_num) (by norm_num)
      (by norm_num), circleTest_iff _ _ _ (by norm_num [abs_lt]) (by norm_num [abs_lt])
      (by norm_num [abs_lt])]
    norm_num
  have h2 : circleInside exampleOddMask (3 - 1 - 0) 1 = false := by
    unfold exampleOddMask
    rw [circleInside_origin_square _ _ _ 3 _ 1 (by norm_num) (by norm_num) (by norm_num)
      (by norm_num), Bool.eq_false_iff, Ne,
      circleTest_iff _ _ _ (by norm_num [abs_lt]) (by norm_num [abs_lt])
      (by norm_num [abs_lt])]
    norm_num
  refine ⟨?_, ?_, rfl⟩
  · show (alphaOf (circleInside exampleOddMask 0 1) false).A = 255
    rw [h1]
    rfl
  · show (alphaOf (circleInside exampleOddMask (3 - 1 - 0) 1) false).A = 0
    rw [h2]
    rfl

/-- C16 (amended). Unbiased circle about the centre the code uses: for every `0 <= d < 2^51`,
a circle mask whose inner region is the square `(0,0)..(d,d)`, and every pixel `(x, y)` with
`|x|, |y| < 2^51`, the opacity at `(x, y)` equals the opacity at `(d - 1 - (d mod 2) - x, y)`
and at `(x, d - 1 - (d mod 2) - y)`; for even `d` these are the mirrored pixels
`(d-1-x, y)` and `(x, d-1-y)`. -/
theorem circle_mirror_symmetry (O : Rectangle) (rev : Bool) (d x y : ℤ) (hd0 : 0 ≤ d)
    (hd1 : d < 2 ^ 51) (hx : |x| < 2 ^ 51) (hy : |y| < 2 ^ 51) :
    (AlphaMask.mk O ⟨⟨0, 0⟩, ⟨d, d⟩⟩ rev Shape.circle).At x y =
        (AlphaMask.mk O ⟨⟨0, 0⟩, ⟨d, d⟩⟩ rev Shape.circle).At (d - 1 - d % 2 - x) y ∧
      (AlphaMask.mk O ⟨⟨0, 0⟩, ⟨d, d⟩⟩ rev Shape.circle).At x y =
        (AlphaMask.mk O ⟨⟨0, 0⟩, ⟨d, d⟩⟩ rev Shape.circle).At x (d - 1 - d % 2 - y) := by
  obtain ⟨h1, h2⟩ := circleInside_mirror O rev Shape.circle d x y hd0 hd1 hx hy
  constructor
  · show alphaOf (circleInside ⟨O, ⟨⟨0, 0⟩, ⟨d, d⟩⟩, rev, Shape.circle⟩ x y) rev =
      alphaOf (circleInside ⟨O, ⟨⟨0, 0⟩, ⟨d, d⟩⟩, rev, Shape.circle⟩ (d - 1 - d % 2 - x) y) rev
    rw [h1]
  · show alphaOf (circleInside ⟨O, ⟨⟨0, 0⟩, ⟨d, d⟩⟩, rev, Shape.circle⟩ x y) rev =
      alphaOf (circleInside ⟨O, ⟨⟨0, 0⟩, ⟨d, d⟩⟩, rev, Shape.circle⟩ x (d - 1 - d % 2 - y)) rev
    rw [h2]

theorem circle_mirror_symmetry_witness :
    (0 : ℤ) ≤ 100 ∧ (100 : ℤ) < 2 ^ 51 ∧ |(3 : ℤ)| < 2 ^ 51 ∧ |(40 : ℤ)| < 2 ^ 51 ∧
      ((AlphaMask.mk ⟨⟨0, 0⟩, ⟨100, 100⟩⟩ ⟨⟨0, 0⟩, ⟨100, 100⟩⟩ false Shape.circle).At 3 40 =
          (AlphaMask.mk ⟨⟨0, 0⟩, ⟨100, 100⟩⟩ ⟨⟨0, 0⟩, ⟨100, 100⟩⟩ false Shape.circle).At
            (100 - 1 - 100 % 2 - 3) 40 ∧
        (AlphaMask.mk ⟨⟨0, 0⟩, ⟨100, 100⟩⟩ ⟨⟨0, 0⟩, ⟨100, 100⟩⟩ false Shape.circle).At 3 40 =
          (AlphaMask.mk ⟨⟨0, 0⟩, ⟨100, 100⟩⟩ ⟨⟨0, 0⟩, ⟨100, 100⟩⟩ false Shape.circle).At 3
            (100 - 1 - 100 % 2 - 40)) :=
  ⟨by norm_num, by norm_num, by norm_num [abs_lt], by norm_num [abs_lt],
    circle_mirror_symmetry ⟨⟨0, 0⟩, ⟨100, 100⟩⟩ false 100 3 40 (by norm_num) (by norm_num)
      (by norm_num [abs_lt]) (by norm_num [abs_lt])⟩

/-- C17 (counterexample). The inner region `(2^63 - 2, 0)..(-2^63 + 2, 4)` has
`Dx = Dy = 4 >= 0` in `int` arithmetic (the width wraps around), the circle test holds at the
pixel `(-2^63, 2)`, and that pixel is not in the region (no pixel is: `Min.X > Max.X`). -/
theorem square_circle_escapes_wrapped :
    exampleWrapMask.Inner.Dx = 4 ∧ exampleWrapMask.Inner.Dy = 4 ∧
      circleInside exampleWrapMask (-2 ^ 63) 2 = true ∧
      (Pt (-2 ^ 63) 2).In exampleWrapMask.Inner = false := by
  have hdx : exampleWrapMask.Inner.Dx = 4 := by decide
  have hdy : exampleWrapMask.Inner.Dy = 4 := by decide
  refine ⟨hdx, hdy, ?_, by decide⟩
  unfold circleInside
  simp only [hdx, hdy]
  have t1 : Int.tdiv 4 2 = 2 := by decide
  have e1 : wrapInt (-2 ^ 63 - exampleWrapMask.Inner.Min.X) = 2 := by decide
  have e2 : wrapInt (2 - exampleWrapMask.Inner.Min.Y) = 2 := by decide
  have e3 : wrapInt (2 - 2) = 0 := by decide
  simp only [t1, e1, e2, e3]
  rw [circleTest_iff _ _ _ (by norm_num [abs_lt]) (by norm_num [abs_lt])
    (by norm_num [abs_lt])]
  norm_num

/-- C17 (amended). Square inner regions give a circle that stays inside them.  For every
inner region `I` with `int` coordinates that is well formed (`Min.X <= Max.X` and
`Min.Y <= Max.Y`, as every rectangle of the program is) or has `Dx(I) <= 1`, with
`Dx(I) = Dy(I) >= 0`, and every `int` pixel `(x, y)`: if the circle test of `circleAtFunc`
holds at `(x, y)` then `(x, y)` lies in `I`; and for the inner region `(0,0)..(4,2)`, which
is wider than high, the circle test holds at the pixel `(1, 2)` outside it (the radius comes
from the width only). -/
theorem square_circle_stays_inside (m : AlphaMask) (x y : ℤ)
    (hminX : -2 ^ 63 ≤ m.Inner.Min.X) (hminY : -2 ^ 63 ≤ m.Inner.Min.Y)
    (hmaxX : m.Inner.Max.X < 2 ^ 63) (hmaxY : m.Inner.Max.Y < 2 ^ 63)
    (hwf : (m.Inner.Min.X ≤ m.Inner.Max.X ∧ m.Inner.Min.Y ≤ m.Inner.Max.Y) ∨ m.Inner.Dx ≤ 1)
    (hx0 : -2 ^ 63 ≤ x) (hx1 : x < 2 ^ 63) (hy0 : -2 ^ 63 ≤ y) (hy1 : y < 2 ^ 63)
    (hsq : m.Inner.Dx = m.Inner.Dy) (hd : 0 ≤ m.Inner.Dx)
    (h : circleInside m x y = true) :
    (Pt x y).In m.Inner = true ∧
      (exampleWideMask.Inner.Dx > exampleWideMask.Inner.Dy ∧
        circleInside exampleWideMask 1 2 = true ∧
        (Pt 1 2).In exampleWideMask.Inner = false) := by
  refine ⟨?_, ?_, ?_, ?_⟩
  · rcases hwf with ⟨hwfX, hwfY⟩ | hsmall
    · exact circleInside_In_of_square m x y hminX hminY hmaxX hmaxY hwfX hwfY hx0 hx1 hy0 hy1
        hsq hd h
    · exfalso
      unfold circleInside at h
      simp only [] at h
      have hR : Int.tdiv m.Inner.Dx 2 = 0 := by
        rw [Int.tdiv_eq_ediv hd (by norm_num)]
        omega
      rw [hR] at h
      have hb := circleTest_bounds _ _ 0 le_rfl h
      omega
  · decide
  · unfold exampleWideMask circleInside Rectangle.Dx Rectangle.Dy
    have e4 : wrapInt (4 - 0) = 4 := by decide
    have e2 : wrapInt (2 - 0) = 2 := by decide
    have e1 : wrapInt (1 - 0) = 1 := by decide
    have t4 : Int.tdiv 4 2 = 2 := by decide
    have t2 : Int.tdiv 2 2 = 1 := by decide
    have e5 : wrapInt (1 - 2) = -1 := by decide
    have e6 : wrapInt (2 - 1) = 1 := by decide
    simp only [e4, e2, e1, t4, t2, e5, e6]
    rw [circleTest_iff _ _ _ (by norm_num [abs_lt]) (by norm_num [abs_lt])
      (by norm_num [abs_lt])]
    norm_num
  · decide

/-- The circle test of the example mask holds at the pixel `(250, 50)`. -/
theorem circleInside_exampleMask : circleInside exampleMask 250 50 = true := by
  unfold exampleMask circleInside Rectangle.Dx Rectangle.Dy
  have e1 : wrapInt (300 - 198) = 102 := by decide
  have e2 : wrapInt (102 - 0) = 102 := by decide
  have e3 : wrapInt (250 - 198) = 52 := by decide
  have e4 : wrapInt (50 - 0) = 50 := by decide
  have t1 : Int.tdiv 102 2 = 51 := by decide
  have e5 : wrapInt (52 - 51) = 1 := by decide
  have e6 : wrapInt (50 - 51) = -1 := by decide
  simp only [e1, e2, e3, e4, t1, e5, e6]
  rw [circleTest_iff _ _ _ (by norm_num [abs_lt]) (by norm_num [abs_lt])
    (by norm_num [abs_lt])]
  norm_num

theorem square_circle_stays_inside_witness :
    circleInside exampleMask 250 50 = true ∧
      ((Pt 250 50).In exampleMask.Inner = true ∧
        (exampleWideMask.Inner.Dx > exampleWideMask.Inner.Dy ∧
          circleInside exampleWideMask 1 2 = true ∧
          (Pt 1 2).In exampleWideMask.Inner = false)) :=
  ⟨circleInside_exampleMask,
    square_circle_stays_inside exampleMask 250 50 (by decide) (by decide) (by decide)
      (by decide) (Or.inl ⟨by decide, by decide⟩) (by decide) (by decide) (by decide)
      (by decide) (by decide) (by decide) circleInside_exampleMask⟩

/-! ## Theorems: mirror images beyond the exact range of float64 -/

/-- Evaluation of a float64 rounding in a known binade. -/
theorem f64_of_binade (q : ℚ) (e M : ℤ) (hlo : (2 : ℚ) ^ (e + 52) ≤ |q|)
    (hhi : |q| < (2 : ℚ) ^ (e + 53)) (he : -1074 ≤ e)
    (hM : roundHalfEven (q / (2 : ℚ) ^ e) = M) : f64 q = (M : ℚ) * (2 : ℚ) ^ e := by
  unfold f64
  rw [roundNearestEven_eq_of_binade 53 (-1074) q e
    (by rw [show e + ((53 : ℕ) : ℤ) - 1 = e + 52 by push_cast; ring]; exact hlo)
    (by rw [show e + ((53 : ℕ) : ℤ) = e + 53 by push_cast; ring]; exact hhi) he, hM]

theorem circleTest_huge_true : circleTest (2 ^ 53 + 1) 0 (2 ^ 53 + 2) = true := by
  have a : float64OfInt (2 ^ 53 + 1) = 2 ^ 53 := by
    unfold float64OfInt
    rw [f64_of_binade _ 1 (2 ^ 52) (by norm_num [abs_of_nonneg]) (by norm_num [abs_of_nonneg])
      (by norm_num) (by norm_num [roundHalfEven])]
    norm_num
  have b : addF64 (2 ^ 53) (1 / 2) = 2 ^ 53 := by
    unfold addF64
    rw [f64_of_binade _ 1 (2 ^ 52) (by norm_num [abs_of_nonneg]) (by norm_num [abs_of_nonneg])
      (by norm_num) (by norm_num [roundHalfEven])]
    norm_num
  have c : mulF64 (2 ^ 53) (2 ^ 53) = 2 ^ 106 := by
    unfold mulF64
    have h := f64_exact 1 106 (by norm_num) (by norm_num)
    norm_num at h ⊢
    exact h
  have d0 : float64OfInt 0 = 0 := by
    have h := float64OfInt_exact 0 (by norm_num)
    simpa using h
  have d1 : addF64 0 (1 / 2) = 1 / 2 := by
    unfold addF64
    have h := f64_exact 1 (-1) (by norm_num) (by norm_num)
    norm_num at h ⊢
    exact h
  have d2 : mulF64 (1 / 2) (1 / 2) = 1 / 4 := by
    unfold mulF64
    have h := f64_exact 1 (-2) (by norm_num) (by norm_num)
    norm_num at h ⊢
    exact h
  have e : addF64 (2 ^ 106) (1 / 4) = 2 ^ 106 := by
    unfold addF64
    rw [f64_of_binade _ 54 (2 ^ 52) (by norm_num [abs_of_nonneg])
      (by norm_num [abs_of_nonneg]) (by norm_num) (by norm_num [roundHalfEven])]
    norm_num
  have f : float64OfInt (2 ^ 53 + 2) = 2 ^ 53 + 2 := by
    unfold float64OfInt
    have h := f64_exact (2 ^ 52 + 1) 1 (by norm_num [abs_lt]) (by norm_num)
    norm_num at h ⊢
    exact h
  have g : mulF64 (2 ^ 53 + 2) (2 ^ 53 + 2) = 2 ^ 106 + 2 ^ 55 := by
    unfold mulF64
    rw [f64_of_binade _ 54 (2 ^ 52 + 2) (by norm_num [abs_of_nonneg])
      (by norm_num [abs_of_nonneg]) (by norm_num) (by norm_num [roundHalfEven])]
    norm_num
  unfold circleTest
  simp only [a, b, c, d0, d1, d2, e, f, g]
  norm_num

theorem circleTest_huge_false : circleTest (-(2 ^ 53 + 2)) 0 (2 ^ 53 + 2) = false := by
  have a : float64OfInt (-(2 ^ 53 + 2)) = -(2 ^ 53 + 2) := by
    unfold float64OfInt
    have h := f64_exact (-(2 ^ 52 + 1)) 1 (by norm_num [abs_lt]) (by norm_num)
    norm_num at h ⊢
    exact h
  have b : addF64 (-(2 ^ 53 + 2)) (1 / 2) = -(2 ^ 53 + 2) := by
    unfold addF64
    rw [f64_of_binade _ 1 (-(2 ^ 52 + 1)) (by norm_num [abs_of_neg])
      (by norm_num [abs_of_neg]) (by norm_num) (by norm_num [roundHalfEven])]
    norm_num
  have d0 : float64OfInt 0 = 0 := by
    have h := float64OfInt_exact 0 (by norm_num)
    simpa using h
  have d1 : addF64 0 (1 / 2) = 1 / 2 := by
    unfold addF64
    have h := f64_exact 1 (-1) (by norm_num) (by norm_num)
    norm_num at h ⊢
    exact h
  have d2 : mulF64 (1 / 2) (1 / 2) = 1 / 4 := by
    unfold mulF64
    have h := f64_exact 1 (-2) (by norm_num) (by norm_num)
    norm_num at h ⊢
    exact h
  have f : float64OfInt (2 ^ 53 + 2) = 2 ^ 53 + 2 := by
    unfold float64OfInt
    have h := f64_exact (2 ^ 52 + 1) 1 (by norm_num [abs_lt]) (by norm_num)
    norm_num at h ⊢
    exact h
  have g : mulF64 (2 ^ 53 + 2) (2 ^ 53 + 2) = 2 ^ 106 + 2 ^ 55 := by
    unfold mulF64
    rw [f64_of_binade _ 54 (2 ^ 52 + 2) (by norm_num [abs_of_nonneg])
      (by norm_num [abs_of_nonneg]) (by norm_num) (by norm_num [roundHalfEven])]
    norm_num
  have g' : mulF64 (-(2 ^ 53 + 2)) (-(2 ^ 53 + 2)) = 2 ^ 106 + 2 ^ 55 := by
    rw [show mulF64 (-(2 ^ 53 + 2)) (-(2 ^ 53 + 2)) = mulF64 (2 ^ 53 + 2) (2 ^ 53 + 2) by
      unfold mulF64
      rw [neg_mul_neg], g]
  have e : addF64 (2 ^ 106 + 2 ^ 55) (1 / 4) = 2 ^ 106 + 2 ^ 55 := by
    unfold addF64
    rw [f64_of_binade _ 54 (2 ^ 52 + 2) (by norm_num [abs_of_nonneg])
      (by norm_num [abs_of_nonneg]) (by norm_num) (by norm_num [roundHalfEven])]
    norm_num
  unfold circleTest
  simp only [a, b, d0, d1, d2, e, f, g, g']
  norm_num

/-- Beyond the range in which float64 holds every `n + 0.5`, the mirror symmetry fails for an
even side too: in the square of side `d = 2^54 + 4` the pixel `(d - 1, d / 2)` is opaque and
its mirror image `(0, d / 2)` is transparent. -/
theorem mirror_fails_huge_even :
    (exampleHugeMask.At (2 ^ 54 + 4 - 1) (2 ^ 53 + 2)).A = 255 ∧
      (exampleHugeMask.At (2 ^ 54 + 4 - 1 - (2 ^ 54 + 4 - 1)) (2 ^ 53 + 2)).A = 0 := by
  have h1 : circleInside exampleHugeMask (2 ^ 54 + 4 - 1) (2 ^ 53 + 2) = true := by
    unfold exampleHugeMask
    rw [circleInside_origin_square _ _ _ (2 ^ 54 + 4) _ _ (by norm_num) (by norm_num)
      (by norm_num [abs_lt]) (by norm_num [abs_lt])]
    norm_num
    exact circleTest_huge_true
  have h2 : circleInside exampleHugeMask (2 ^ 54 + 4 - 1 - (2 ^ 54 + 4 - 1)) (2 ^ 53 + 2) =
      false := by
    unfold exampleHugeMask
    rw [circleInside_origin_square _ _ _ (2 ^ 54 + 4) _ _ (by norm_num) (by norm_num)
      (by norm_num [abs_lt]) (by norm_num [abs_lt])]
    norm_num
    exact circleTest_huge_false
  constructor
  · show (alphaOf (circleInside exampleHugeMask (2 ^ 54 + 4 - 1) (2 ^ 53 + 2)) false).A = 255
    rw [h1]
    rfl
  · show (alphaOf (circleInside exampleHugeMask (2 ^ 54 + 4 - 1 - (2 ^ 54 + 4 - 1))
      (2 ^ 53 + 2)) false).A = 0
    rw [h2]
    rfl

/-! ## Theorems: the function `main` -/

/-- With fewer than three entries in `os.Args`, `main` prints the usage and exits. -/
theorem mainRun_short (args : List String) (env : Env) (v : World) (hlen : args.length < 3) :
    mainRun args env v = ({ v with stderr := v.stderr ++ usage ++ "\n" }, Exit.status 1) := by
  unfold mainRun
  rw [if_pos hlen]

/-- The source file cannot be opened. -/
theorem mainRun_open_src_fails (args : List String) (env : Env) (v : World)
    (hlen : ¬ args.length < 3) (h1 : v.files (args.getD 1 "") = none) :
    mainRun args env v = (v.log (Event.osOpen (args.getD 1 "")), Exit.panic) := by
  simp only [mainRun, if_neg hlen, h1]

/-- The overlay file cannot be opened. -/
theorem mainRun_open_over_fails (args : List String) (env : Env) (v : World)
    (hlen : ¬ args.length < 3) (srcData : List ℕ)
    (h1 : v.files (args.getD 1 "") = some srcData) (h2 : v.files (args.getD 2 "") = none) :
    mainRun args env v =
      (((v.log (Event.osOpen (args.getD 1 ""))).log (Event.osOpen (args.getD 2 ""))).log
        (Event.fileClose (args.getD 1 "")), Exit.panic) := by
  simp only [mainRun, if_neg hlen, h1, h2]

/-- The source file cannot be decoded. -/
theorem mainRun_decode_src_fails (args : List String) (env : Env) (v : World)
    (hlen : ¬ args.length < 3) (srcData overData : List ℕ)
    (h1 : v.files (args.getD 1 "") = some srcData)
    (h2 : v.files (args.getD 2 "") = some overData) (h3 : env.decode srcData = none) :
    mainRun args env v =
      ((((((v.log (Event.osOpen (args.getD 1 ""))).log (Event.osOpen (args.getD 2 ""))).log
        (Event.imageDecode (args.getD 1 ""))).log (Event.fileClose (args.getD 2 ""))).log
        (Event.fileClose (args.getD 1 ""))), Exit.panic) := by
  simp only [mainRun, if_neg hlen, h1, h2, h3]

/-- The overlay file cannot be decoded. -/
theorem mainRun_decode_over_fails (args : List String) (env : Env) (v : World)
    (hlen : ¬ args.length < 3) (srcData overData : List ℕ) (srcImg : Image)
    (h1 : v.files (args.getD 1 "") = some srcData)
    (h2 : v.files (args.getD 2 "") = some overData) (h3 : env.decode srcData = some srcImg)
    (h4 : env.decode overData = none) :
    mainRun args env v =
      (((((((v.log (Event.osOpen (args.getD 1 ""))).log (Event.osOpen (args.getD 2 ""))).log
        (Event.imageDecode (args.getD 1 ""))).log (Event.imageDecode (args.getD 2 ""))).log
        (Event.fileClose (args.getD 2 ""))).log (Event.fileClose (args.getD 1 ""))),
        Exit.panic) := by
  simp only [mainRun, if_neg hlen, h1, h2, h3, h4]

/-- With three or more entries in `os.Args`, `main` writes nothing to the error stream, does
not exit with status 1, and its first call opens the source file. -/
theorem mainRun_long (args : List String) (env : Env) (v : World) (hlen : ¬ args.length < 3) :
    (mainRun args env v).1.stderr = v.stderr ∧ (mainRun args env v).2 ≠ Exit.status 1 ∧
      ∃ l : List Event,
        (mainRun args env v).1.calls = v.calls ++ Event.osOpen (args.getD 1 "") :: l := by
  cases h1 : v.files (args.getD 1 "") with
  | none =>
    rw [mainRun_open_src_fails args env v hlen h1]
    exact ⟨rfl, by simp, [], rfl⟩
  | some srcData =>
    cases h2 : v.files (args.getD 2 "") with
    | none =>
      rw [mainRun_open_over_fails args env v hlen srcData h1 h2]
      exact ⟨rfl, by simp, _, by simp only [World.log, World.write, List.append_assoc]; rfl⟩
    | some overData =>
      cases h3 : env.decode srcData with
      | none =>
        rw [mainRun_decode_src_fails args env v hlen srcData overData h1 h2 h3]
        exact ⟨rfl, by simp, _, by simp only [World.log, World.write, List.append_assoc]; rfl⟩
      | some srcImg =>
        cases h4 : env.decode overData with
        | none =>
          rw [mainRun_decode_over_fails args env v hlen srcData overData srcImg h1 h2 h3 h4]
          exact ⟨rfl, by simp, _, by simp only [World.log, World.write, List.append_assoc]; rfl⟩
        | some overImg =>
          simp only [mainRun, if_neg hlen, h1, h2, h3, h4]
          split_ifs
          · exact ⟨rfl, by simp, _, by simp only [World.log, World.write, List.append_assoc]; rfl⟩
          · exact ⟨rfl, by simp, _, by simp only [World.log, World.write, List.append_assoc]; rfl⟩
          · exact ⟨rfl, by simp, _, by simp only [World.log, World.write, List.append_assoc]; rfl⟩

/-- C14. For every run with two arguments in which opening or decoding the source or the
overlay file fails, the process ends by a panic, the content of every file is as before (so
`./merged.png` is neither created nor written), nothing is printed on the standard output,
and the only calls made on files are opens, decodes and closes of the two inputs: no
`os.Create` and no `png.Encode`. -/
theorem no_output_on_bad_input (args : List String) (env : Env) (v : World)
    (hargs : 3 ≤ args.length)
    (hbad : loadImage env v (args.getD 1 "") = none ∨
      loadImage env v (args.getD 2 "") = none) :
    (mainRun args env v).2 = Exit.panic ∧
      (mainRun args env v).1.files = v.files ∧
      (mainRun args env v).1.stdout = v.stdout ∧
      ∃ l : List Event, (mainRun args env v).1.calls = v.calls ++ l ∧
        Event.osCreate outPath ∉ l ∧ Event.pngEncode outPath ∉ l ∧
        ∀ e ∈ l, e ∈ [Event.osOpen (args.getD 1 ""), Event.osOpen (args.getD 2 ""),
          Event.imageDecode (args.getD 1 ""), Event.imageDecode (args.getD 2 ""),
          Event.fileClose (args.getD 1 ""), Event.fileClose (args.getD 2 "")] := by
  have hlen : ¬ args.length < 3 := by omega
  unfold loadImage at hbad
  cases h1 : v.files (args.getD 1 "") with
  | none =>
    rw [mainRun_open_src_fails args env v hlen h1]
    refine ⟨rfl, rfl, rfl, [Event.osOpen (args.getD 1 "")], rfl, ?_, ?_, ?_⟩ <;> simp
  | some srcData =>
    cases h2 : v.files (args.getD 2 "") with
    | none =>
      rw [mainRun_open_over_fails args env v hlen srcData h1 h2]
      refine ⟨rfl, rfl, rfl, [Event.osOpen (args.getD 1 ""), Event.osOpen (args.getD 2 ""),
        Event.fileClose (args.getD 1 "")], ?_, ?_, ?_, ?_⟩ <;> simp [World.log]
    | some overData =>
      rw [h1, h2] at hbad
      simp only [Option.some_bind] at hbad
      cases h3 : env.decode srcData with
      | none =>
        rw [mainRun_decode_src_fails args env v hlen srcData overData h1 h2 h3]
        refine ⟨rfl, rfl, rfl, [Event.osOpen (args.getD 1 ""), Event.osOpen (args.getD 2 ""),
          Event.imageDecode (args.getD 1 ""), Event.fileClose (args.getD 2 ""),
          Event.fileClose (args.getD 1 "")], ?_, ?_, ?_, ?_⟩ <;> simp [World.log]
      | some srcImg =>
        cases h4 : env.decode overData with
        | none =>
          rw [mainRun_decode_over_fails args env v hlen srcData overData srcImg h1 h2 h3 h4]
          refine ⟨rfl, rfl, rfl, [Event.osOpen (args.getD 1 ""),
            Event.osOpen (args.getD 2 ""), Event.imageDecode (args.getD 1 ""),
            Event.imageDecode (args.getD 2 ""), Event.fileClose (args.getD 2 ""),
            Event.fileClose (args.getD 1 "")], ?_, ?_, ?_, ?_⟩ <;> simp [World.log]
        | some overImg =>
          rw [h3, h4] at hbad
          simp at hbad

/-- The file `bad.png` of the example state opens and does not decode. -/
theorem loadImage_bad : loadImage exampleEnv exampleWorld "bad.png" = none := by
  simp [loadImage, exampleEnv, exampleWorld]

theorem no_output_on_bad_input_witness :
    (3 ≤ ["slack-icon-merger", "good.png", "bad.png"].length ∧
      (loadImage exampleEnv exampleWorld
          (["slack-icon-merger", "good.png", "bad.png"].getD 1 "") = none ∨
        loadImage exampleEnv exampleWorld
          (["slack-icon-merger", "good.png", "bad.png"].getD 2 "") = none)) ∧
    ((mainRun ["slack-icon-merger", "good.png", "bad.png"] exampleEnv exampleWorld).2 =
        Exit.panic ∧
      (mainRun ["slack-icon-merger", "good.png", "bad.png"] exampleEnv exampleWorld).1.files =
        exampleWorld.files ∧
      (mainRun ["slack-icon-merger", "good.png", "bad.png"] exampleEnv exampleWorld).1.stdout =
        exampleWorld.stdout ∧
      ∃ l : List Event,
        (mainRun ["slack-icon-merger", "good.png", "bad.png"] exampleEnv exampleWorld).1.calls =
          exampleWorld.calls ++ l ∧
        Event.osCreate outPath ∉ l ∧ Event.pngEncode outPath ∉ l ∧
        ∀ e ∈ l, e ∈ [Event.osOpen (["slack-icon-merger", "good.png", "bad.png"].getD 1 ""),
          Event.osOpen (["slack-icon-merger", "good.png", "bad.png"].getD 2 ""),
          Event.imageDecode (["slack-icon-merger", "good.png", "bad.png"].getD 1 ""),
          Event.imageDecode (["slack-icon-merger", "good.png", "bad.png"].getD 2 ""),
          Event.fileClose (["slack-icon-merger", "good.png", "bad.png"].getD 1 ""),
          Event.fileClose (["slack-icon-merger", "good.png", "bad.png"].getD 2 "")]) :=
  ⟨⟨by decide, Or.inr loadImage_bad⟩,
    no_output_on_bad_input ["slack-icon-merger", "good.png", "bad.png"] exampleEnv exampleWorld
      (by decide) (Or.inr loadImage_bad)⟩

/-- C15. The process exits with status 1 exactly when `len(os.Args) < 3`; in that case
the usage text and a line break are appended to the error stream, no call is made on any
file (nothing is opened, `./merged.png` is not created), the content of every file is as
before and nothing is printed on the standard output. With three or more entries in
`os.Args` the program writes nothing to the error stream and its first call opens the
source file `os.Args[1]`. -/
theorem usage_error (args : List String) (env : Env) (v : World) :
    ((mainRun args env v).2 = Exit.status 1 ↔ args.length < 3) ∧
      (mainRun args env v).1.stderr =
        (if args.length < 3 then v.stderr ++ usage ++ "\n" else v.stderr) ∧
      (3 ≤ args.length ∨
        ((mainRun args env v).1.calls = v.calls ∧ (mainRun args env v).1.files = v.files ∧
          (mainRun args env v).1.stdout = v.stdout)) ∧
      (args.length < 3 ∨
        ∃ l : List Event,
          (mainRun args env v).1.calls = v.calls ++ Event.osOpen (args.getD 1 "") :: l) := by
  by_cases hlen : args.length < 3
  · rw [mainRun_short args env v hlen, if_pos hlen]
    exact ⟨⟨fun _ => hlen, fun _ => rfl⟩, rfl, Or.inr ⟨rfl, rfl, rfl⟩, Or.inl hlen⟩
  · obtain ⟨h1, h2, h3⟩ := mainRun_long args env v hlen
    rw [if_neg hlen]
    exact ⟨⟨fun h => absurd h h2, fun h => absurd h hlen⟩, h1, Or.inl (by omega), Or.inr h3⟩

/-! ## Theorems: the half disc as the region under a concave curve -/

/-- The height `sqrt (r^2 - t^2)` of the half disc is concave: a chord lies below the
curve. -/
theorem sqrt_chord_le (r p q l : ℝ) (hp : p ^ 2 ≤ r ^ 2) (hq : q ^ 2 ≤ r ^ 2) (hl0 : 0 ≤ l)
    (hl1 : l ≤ 1) :
    (1 - l) * √(r ^ 2 - p ^ 2) + l * √(r ^ 2 - q ^ 2) ≤
      √(r ^ 2 - ((1 - l) * p + l * q) ^ 2) := by
  have hu0 : 0 ≤ √(r ^ 2 - p ^ 2) := Real.sqrt_nonneg _
  have hv0 : 0 ≤ √(r ^ 2 - q ^ 2) := Real.sqrt_nonneg _
  have hu : √(r ^ 2 - p ^ 2) ^ 2 = r ^ 2 - p ^ 2 := Real.sq_sqrt (by linarith)
  have hv : √(r ^ 2 - q ^ 2) ^ 2 = r ^ 2 - q ^ 2 := Real.sq_sqrt (by linarith)
  obtain ⟨u, hudef⟩ : ∃ u : ℝ, u = √(r ^ 2 - p ^ 2) := ⟨_, rfl⟩
  obtain ⟨v, hvdef⟩ : ∃ v : ℝ, v = √(r ^ 2 - q ^ 2) := ⟨_, rfl⟩
  rw [← hudef] at hu hu0 ⊢
  rw [← hvdef] at hv hv0 ⊢
  have h1l : 0 ≤ 1 - l := by linarith
  apply Real.le_sqrt_of_sq_le
  have hcross : u * v + p * q ≤ r ^ 2 := by nlinarith [sq_nonneg (u - v), sq_nonneg (p - q)]
  have hll : 0 ≤ l * (1 - l) := mul_nonneg hl0 h1l
  nlinarith [mul_nonneg hll (sub_nonneg.mpr hcross)]

/-- The height of the half disc lies below its tangent at `m`. -/
theorem sqrt_tangent_le (r m t : ℝ) (hm : m ^ 2 < r ^ 2) (ht : t ^ 2 ≤ r ^ 2) :
    √(r ^ 2 - t ^ 2) ≤ (r ^ 2 - t * m) / √(r ^ 2 - m ^ 2) := by
  have hv0 : 0 < √(r ^ 2 - m ^ 2) := Real.sqrt_pos.mpr (by linarith)
  have hu0 : 0 ≤ √(r ^ 2 - t ^ 2) := Real.sqrt_nonneg _
  have hu : √(r ^ 2 - t ^ 2) ^ 2 = r ^ 2 - t ^ 2 := Real.sq_sqrt (by linarith)
  have hv : √(r ^ 2 - m ^ 2) ^ 2 = r ^ 2 - m ^ 2 := Real.sq_sqrt (by linarith)
  rw [le_div_iff₀ hv0]
  nlinarith [sq_nonneg (√(r ^ 2 - t ^ 2) - √(r ^ 2 - m ^ 2)), sq_nonneg (t - m)]

theorem continuous_sqrt_disc (r : ℝ) : Continuous fun t : ℝ => √(r ^ 2 - t ^ 2) := by
  continuity

/-- The area under the curve over a unit interval is at most the height at the midpoint. -/
theorem integral_le_midpoint (r a : ℝ) (ha0 : -r ≤ a) (ha1 : a + 1 ≤ r) :
    ∫ t in a..(a + 1), √(r ^ 2 - t ^ 2) ≤ √(r ^ 2 - (a + 1 / 2) ^ 2) := by
  have hm : (a + 1 / 2) ^ 2 < r ^ 2 := by nlinarith
  have hv0 : 0 < √(r ^ 2 - (a + 1 / 2) ^ 2) := Real.sqrt_pos.mpr (by linarith)
  have hv : √(r ^ 2 - (a + 1 / 2) ^ 2) ^ 2 = r ^ 2 - (a + 1 / 2) ^ 2 :=
    Real.sq_sqrt (by linarith)
  obtain ⟨v, hvdef⟩ : ∃ v : ℝ, v = √(r ^ 2 - (a + 1 / 2) ^ 2) := ⟨_, rfl⟩
  rw [← hvdef] at hv hv0 ⊢
  have hmono : ∫ t in a..(a + 1), √(r ^ 2 - t ^ 2) ≤
      ∫ t in a..(a + 1), (r ^ 2 / v - (a + 1 / 2) / v * t) := by
    apply intervalIntegral.integral_mono_on (by linarith)
      ((continuous_sqrt_disc r).intervalIntegrable _ _)
      ((by continuity : Continuous fun t : ℝ => r ^ 2 / v - (a + 1 / 2) / v * t).intervalIntegrable
        _ _)
    intro t ht
    have htr : t ^ 2 ≤ r ^ 2 := by
      obtain ⟨h1, h2⟩ := ht
      nlinarith
    have h := sqrt_tangent_le r (a + 1 / 2) t hm htr
    rw [← hvdef] at h
    calc √(r ^ 2 - t ^ 2) ≤ (r ^ 2 - t * (a + 1 / 2)) / v := h
      _ = r ^ 2 / v - (a + 1 / 2) / v * t := by ring
  have hval : ∫ t in a..(a + 1), (r ^ 2 / v - (a + 1 / 2) / v * t) = v := by
    rw [intervalIntegral.integral_sub (by apply Continuous.intervalIntegrable; continuity)
      (by apply Continuous.intervalIntegrable; continuity),
      intervalIntegral.integral_const, intervalIntegral.integral_const_mul, integral_id]
    simp only [smul_eq_mul]
    field_simp
    nlinarith
  linarith

/-- The area under the curve over a unit interval is at least the area under the chord. -/
theorem trapezoid_le_integral (r a : ℝ) (ha0 : -r ≤ a) (ha1 : a + 1 ≤ r) :
    (√(r ^ 2 - a ^ 2) + √(r ^ 2 - (a + 1) ^ 2)) / 2 ≤ ∫ t in a..(a + 1), √(r ^ 2 - t ^ 2) := by
  obtain ⟨u0, hu0⟩ : ∃ u : ℝ, u = √(r ^ 2 - a ^ 2) := ⟨_, rfl⟩
  obtain ⟨u1, hu1⟩ : ∃ u : ℝ, u = √(r ^ 2 - (a + 1) ^ 2) := ⟨_, rfl⟩
  have hmono : ∫ t in a..(a + 1), ((u0 - (u1 - u0) * a) + (u1 - u0) * t) ≤
      ∫ t in a..(a + 1), √(r ^ 2 - t ^ 2) := by
    apply intervalIntegral.integral_mono_on (by linarith)
      ((by continuity :
        Continuous fun t : ℝ => (u0 - (u1 - u0) * a) + (u1 - u0) * t).intervalIntegrable _ _)
      ((continuous_sqrt_disc r).intervalIntegrable _ _)
    intro t ht
    obtain ⟨h1, h2⟩ := ht
    have h := sqrt_chord_le r a (a + 1) (t - a) (by nlinarith) (by nlinarith) (by linarith)
      (by linarith)
    rw [← hu0, ← hu1] at h
    have e : (1 - (t - a)) * a + (t - a) * (a + 1) = t := by ring
    rw [e] at h
    calc (u0 - (u1 - u0) * a) + (u1 - u0) * t = (1 - (t - a)) * u0 + (t - a) * u1 := by ring
      _ ≤ √(r ^ 2 - t ^ 2) := h
  have hval : ∫ t in a..(a + 1), ((u0 - (u1 - u0) * a) + (u1 - u0) * t) = (u0 + u1) / 2 := by
    rw [intervalIntegral.integral_add (by apply Continuous.intervalIntegrable; continuity)
      (by apply Continuous.intervalIntegrable; continuity),
      intervalIntegral.integral_const, intervalIntegral.integral_const_mul, integral_id]
    simp only [smul_eq_mul]
    ring
  rw [← hu0, ← hu1]
  linarith

/-- The area of the half disc of radius `r`. -/
theorem integral_half_disc (r : ℝ) (hr : 0 < r) :
    ∫ t in (-r)..r, √(r ^ 2 - t ^ 2) = Real.pi * r ^ 2 / 2 := by
  have h := intervalIntegral.integral_comp_div (a := -r) (b := r)
    (fun x : ℝ => √(1 - x ^ 2)) hr.ne.symm
  rw [neg_div, div_self hr.ne.symm, integral_sqrt_one_sub_sq] at h
  have e : (fun t : ℝ => √(r ^ 2 - t ^ 2)) = fun t : ℝ => r * √(1 - (t / r) ^ 2) := by
    funext t
    have : r ^ 2 - t ^ 2 = r ^ 2 * (1 - (t / r) ^ 2) := by
      field_simp
    rw [this, Real.sqrt_mul (sq_nonneg r), Real.sqrt_sq hr.le]
  rw [e, intervalIntegral.integral_const_mul, h]
  simp only [smul_eq_mul]
  ring

/-- The midpoint sum of the half disc over the unit intervals of `[-r, r]` is at least its
area. -/
theorem half_disc_le_midpoint_sum (r : ℕ) (hr : 1 ≤ r) :
    Real.pi * (r : ℝ) ^ 2 / 2 ≤
      ∑ k ∈ Finset.range (2 * r), √((r : ℝ) ^ 2 - (-(r : ℝ) + k + 1 / 2) ^ 2) := by
  have hr0 : (0 : ℝ) < r := by exact_mod_cast hr
  have hsum := intervalIntegral.sum_integral_adjacent_intervals
    (f := fun t : ℝ => √((r : ℝ) ^ 2 - t ^ 2)) (μ := MeasureTheory.volume)
    (a := fun k : ℕ => -(r : ℝ) + k) (n := 2 * r)
    (fun k _ => (continuous_sqrt_disc r).intervalIntegrable _ _)
  have e0 : -(r : ℝ) + ((0 : ℕ) : ℝ) = -r := by simp
  have e1 : -(r : ℝ) + ((2 * r : ℕ) : ℝ) = r := by
    push_cast
    ring
  simp only [e0, e1] at hsum
  rw [← integral_half_disc r hr0, ← hsum]
  apply Finset.sum_le_sum
  intro k hk
  rw [Finset.mem_range] at hk
  have hk' : (k : ℝ) + 1 ≤ 2 * r := by exact_mod_cast hk
  have h := integral_le_midpoint r (-(r : ℝ) + k) (by linarith) (by linarith)
  have e2 : -(r : ℝ) + ((k + 1 : ℕ) : ℝ) = -(r : ℝ) + k + 1 := by
    push_cast
    ring
  rw [e2]
  exact h

/-- The trapezoid sum of the half disc over the unit intervals of `[-r, r]` is at most its
area. -/
theorem trapezoid_sum_le_half_disc (r : ℕ) (hr : 1 ≤ r) :
    ∑ k ∈ Finset.range (2 * r),
        (√((r : ℝ) ^ 2 - (-(r : ℝ) + k) ^ 2) + √((r : ℝ) ^ 2 - (-(r : ℝ) + k + 1) ^ 2)) / 2 ≤
      Real.pi * (r : ℝ) ^ 2 / 2 := by
  have hr0 : (0 : ℝ) < r := by exact_mod_cast hr
  have hsum := intervalIntegral.sum_integral_adjacent_intervals
    (f := fun t : ℝ => √((r : ℝ) ^ 2 - t ^ 2)) (μ := MeasureTheory.volume)
    (a := fun k : ℕ => -(r : ℝ) + k) (n := 2 * r)
    (fun k _ => (continuous_sqrt_disc r).intervalIntegrable _ _)
  have e0 : -(r : ℝ) + ((0 : ℕ) : ℝ) = -r := by simp
  have e1 : -(r : ℝ) + ((2 * r : ℕ) : ℝ) = r := by
    push_cast
    ring
  simp only [e0, e1] at hsum
  rw [← integral_half_disc r hr0, ← hsum]
  apply Finset.sum_le_sum
  intro k hk
  rw [Finset.mem_range] at hk
  have hk' : (k : ℝ) + 1 ≤ 2 * r := by exact_mod_cast hk
  have h := trapezoid_le_integral r (-(r : ℝ) + k) (by linarith) (by linarith)
  have e2 : -(r : ℝ) + ((k + 1 : ℕ) : ℝ) = -(r : ℝ) + k + 1 := by
    push_cast
    ring
  rw [e2]
  exact h

/-- For a function whose slopes over half steps decrease (midpoint concavity on the grid of
`[-r, r]`), the midpoint sum exceeds the trapezoid sum by at most half the difference of the
first and the last slope. -/
theorem midpoint_sub_trapezoid_le_of_concave (F : ℝ → ℝ) (r : ℕ) (hr : 1 ≤ r)
    (hmid : ∀ x : ℝ, -(r : ℝ) + 1 / 2 ≤ x → x ≤ (r : ℝ) - 1 / 2 →
      F (x - 1 / 2) + F (x + 1 / 2) ≤ 2 * F x) :
    ∑ k ∈ Finset.range (2 * r),
        (F (-(r : ℝ) + k + 1 / 2) - (F (-(r : ℝ) + k) + F (-(r : ℝ) + k + 1)) / 2) ≤
      ((F (-(r : ℝ) + 1 / 2) - F (-(r : ℝ))) - (F r - F ((r : ℝ) - 1 / 2))) / 2 := by
  have key : ∀ m : ℕ, 1 ≤ m → m ≤ 2 * r →
      ∑ k ∈ Finset.range m,
          (F (-(r : ℝ) + k + 1 / 2) - (F (-(r : ℝ) + k) + F (-(r : ℝ) + k + 1)) / 2) ≤
        ((F (-(r : ℝ) + 1 / 2) - F (-(r : ℝ))) -
          (F (-(r : ℝ) + m) - F (-(r : ℝ) + m - 1 / 2))) / 2 := by
    intro m hm
    induction m, hm using Nat.le_induction with
    | base =>
      intro _
      rw [Finset.range_one, Finset.sum_singleton]
      have b1 : F (-(r : ℝ) + ((0 : ℕ) : ℝ) + 1 / 2) = F (-(r : ℝ) + 1 / 2) :=
        congrArg F (by push_cast; ring)
      have b2 : F (-(r : ℝ) + ((0 : ℕ) : ℝ)) = F (-(r : ℝ)) := congrArg F (by push_cast; ring)
      have b3 : F (-(r : ℝ) + ((0 : ℕ) : ℝ) + 1) = F (-(r : ℝ) + ((1 : ℕ) : ℝ)) :=
        congrArg F (by push_cast; ring)
      have b4 : F (-(r : ℝ) + ((1 : ℕ) : ℝ) - 1 / 2) = F (-(r : ℝ) + 1 / 2) :=
        congrArg F (by push_cast; ring)
      rw [b1, b2, b3, b4]
      apply le_of_eq
      ring
    | succ m hm ih =>
      intro hle
      have ih' := ih (by omega)
      rw [Finset.sum_range_succ]
      have hm1 : (1 : ℝ) ≤ m := by exact_mod_cast hm
      have hm2 : (m : ℝ) + 1 ≤ 2 * r := by exact_mod_cast hle
      have hc := hmid (-(r : ℝ) + m) (by linarith) (by linarith)
      have c1 : F (-(r : ℝ) + ((m + 1 : ℕ) : ℝ)) = F (-(r : ℝ) + m + 1) :=
        congrArg F (by push_cast; ring)
      have c2 : F (-(r : ℝ) + ((m + 1 : ℕ) : ℝ) - 1 / 2) = F (-(r : ℝ) + m + 1 / 2) :=
        congrArg F (by push_cast; ring)
      rw [c1, c2]
      linarith
  have h := key (2 * r) (by omega) le_rfl
  have d1 : F (-(r : ℝ) + ((2 * r : ℕ) : ℝ)) = F r := congrArg F (by push_cast; ring)
  have d2 : F (-(r : ℝ) + ((2 * r : ℕ) : ℝ) - 1 / 2) = F ((r : ℝ) - 1 / 2) :=
    congrArg F (by push_cast; ring)
  rw [d1, d2] at h
  exact h

/-- The midpoint sum of the half disc exceeds its trapezoid sum by at most the height at
`r - 1/2`. -/
theorem midpoint_sub_trapezoid_le (r : ℕ) (hr : 1 ≤ r) :
    ∑ k ∈ Finset.range (2 * r),
        (√((r : ℝ) ^ 2 - (-(r : ℝ) + k + 1 / 2) ^ 2) -
          (√((r : ℝ) ^ 2 - (-(r : ℝ) + k) ^ 2) +
            √((r : ℝ) ^ 2 - (-(r : ℝ) + k + 1) ^ 2)) / 2) ≤
      √((r : ℝ) - 1 / 4) := by
  have hr0 : (1 : ℝ) ≤ r := by exact_mod_cast hr
  have h := midpoint_sub_trapezoid_le_of_concave (fun t : ℝ => √((r : ℝ) ^ 2 - t ^ 2)) r hr
    (by
      intro x hx0 hx1
      have h := sqrt_chord_le r (x - 1 / 2) (x + 1 / 2) (1 / 2) (by nlinarith) (by nlinarith)
        (by norm_num) (by norm_num)
      have e : (1 - 1 / 2 : ℝ) * (x - 1 / 2) + 1 / 2 * (x + 1 / 2) = x := by ring
      rw [e] at h
      show √((r : ℝ) ^ 2 - (x - 1 / 2) ^ 2) + √((r : ℝ) ^ 2 - (x + 1 / 2) ^ 2) ≤
        2 * √((r : ℝ) ^ 2 - x ^ 2)
      linarith)
  have z1 : √((r : ℝ) ^ 2 - (-(r : ℝ)) ^ 2) = 0 := by simp
  have z2 : √((r : ℝ) ^ 2 - (r : ℝ) ^ 2) = 0 := by simp
  have s1 : √((r : ℝ) ^ 2 - (-(r : ℝ) + 1 / 2) ^ 2) = √((r : ℝ) - 1 / 4) :=
    congrArg Real.sqrt (by ring)
  have s2 : √((r : ℝ) ^ 2 - ((r : ℝ) - 1 / 2) ^ 2) = √((r : ℝ) - 1 / 4) :=
    congrArg Real.sqrt (by ring)
  have h' : ∑ k ∈ Finset.range (2 * r),
      (√((r : ℝ) ^ 2 - (-(r : ℝ) + k + 1 / 2) ^ 2) -
        (√((r : ℝ) ^ 2 - (-(r : ℝ) + k) ^ 2) +
          √((r : ℝ) ^ 2 - (-(r : ℝ) + k + 1) ^ 2)) / 2) ≤
      ((√((r : ℝ) ^ 2 - (-(r : ℝ) + 1 / 2) ^ 2) - √((r : ℝ) ^ 2 - (-(r : ℝ)) ^ 2)) -
        (√((r : ℝ) ^ 2 - (r : ℝ) ^ 2) - √((r : ℝ) ^ 2 - ((r : ℝ) - 1 / 2) ^ 2))) / 2 := h
  rw [z1, z2, s1, s2] at h'
  linarith

/-- The midpoint sum of the half disc is at most its area plus the height at `r - 1/2`. -/
theorem midpoint_sum_le (r : ℕ) (hr : 1 ≤ r) :
    ∑ k ∈ Finset.range (2 * r), √((r : ℝ) ^ 2 - (-(r : ℝ) + k + 1 / 2) ^ 2) ≤
      Real.pi * (r : ℝ) ^ 2 / 2 + √((r : ℝ) - 1 / 4) := by
  have h1 := trapezoid_sum_le_half_disc r hr
  have h2 := midpoint_sub_trapezoid_le r hr
  rw [Finset.sum_sub_distrib] at h2
  linarith

/-! ## Theorems: counting the pixels of a disc column by column -/

/-- An integer offset with `(2a+1)^2 < 4R^2` lies in `[-R, R-1]`. -/
theorem offset_bounds_of_sq_lt (a b R : ℤ) (hR : 0 ≤ R)
    (h : (2 * a + 1) ^ 2 + (2 * b + 1) ^ 2 < 4 * R ^ 2) : -R ≤ a ∧ a ≤ R - 1 := by
  have hb : 0 ≤ (2 * b + 1) ^ 2 := sq_nonneg _
  constructor
  · by_contra hc
    push_neg at hc
    nlinarith
  · by_contra hc
    push_neg at hc
    nlinarith

/-- The integers strictly between two reals. -/
theorem mem_Icc_floor_ceil (α β : ℝ) (b : ℤ) :
    b ∈ Finset.Icc (⌊α⌋ + 1) (⌈β⌉ - 1) ↔ α < b ∧ (b : ℝ) < β := by
  rw [Finset.mem_Icc, Int.add_one_le_iff, Int.floor_lt, Int.le_sub_one_iff, Int.lt_ceil]

/-- There are between `β - α - 1` and `β - α + 1` integers strictly between `α` and `β`. -/
theorem card_Icc_floor_ceil (α β : ℝ) (h : α ≤ β) :
    β - α - 1 ≤ ((Finset.Icc (⌊α⌋ + 1) (⌈β⌉ - 1)).card : ℝ) ∧
      ((Finset.Icc (⌊α⌋ + 1) (⌈β⌉ - 1)).card : ℝ) ≤ β - α + 1 := by
  rw [Int.card_Icc]
  have e : ⌈β⌉ - 1 + 1 - (⌊α⌋ + 1) = ⌈β⌉ - ⌊α⌋ - 1 := by ring
  rw [e]
  have h1 := Int.floor_le α
  have h2 := Int.lt_floor_add_one α
  have h3 := Int.le_ceil β
  have h4 := Int.ceil_lt_add_one β
  by_cases hz : 0 ≤ ⌈β⌉ - ⌊α⌋ - 1
  · have hc : (((⌈β⌉ - ⌊α⌋ - 1).toNat : ℕ) : ℝ) = (⌈β⌉ : ℝ) - ⌊α⌋ - 1 := by
      have := Int.toNat_of_nonneg hz
      have h' : ((((⌈β⌉ - ⌊α⌋ - 1).toNat : ℕ) : ℤ) : ℝ) = ((⌈β⌉ - ⌊α⌋ - 1 : ℤ) : ℝ) := by
        rw [this]
      push_cast at h'
      exact h'
    rw [hc]
    constructor <;> linarith
  · have hc : (⌈β⌉ - ⌊α⌋ - 1).toNat = 0 := Int.toNat_eq_zero.mpr (by omega)
    rw [hc]
    have hle : (⌈β⌉ : ℝ) ≤ ⌊α⌋ := by exact_mod_cast (by omega : ⌈β⌉ ≤ ⌊α⌋)
    simp only [Nat.cast_zero]
    constructor <;> linarith

/-- In the column at offset `-r + k` the pixels whose centre is inside the circle of radius
`r` are those with `|b - cy + 1/2| < sqrt (r^2 - (-r + k + 1/2)^2)`. -/
theorem column_test_iff (r k : ℕ) (hk : k < 2 * r) (cy b : ℤ) :
    (2 * (-(r : ℤ) + k) + 1) ^ 2 + (2 * (b - cy) + 1) ^ 2 < 4 * (r : ℤ) ^ 2 ↔
      (cy : ℝ) - 1 / 2 - √((r : ℝ) ^ 2 - (-(r : ℝ) + k + 1 / 2) ^ 2) < b ∧
        (b : ℝ) < (cy : ℝ) - 1 / 2 + √((r : ℝ) ^ 2 - (-(r : ℝ) + k + 1 / 2) ^ 2) := by
  have hk' : (k : ℝ) + 1 ≤ 2 * r := by exact_mod_cast hk
  have hnn : (0 : ℝ) ≤ (r : ℝ) ^ 2 - (-(r : ℝ) + k + 1 / 2) ^ 2 := by nlinarith
  have habs : |(b : ℝ) - cy + 1 / 2| < √((r : ℝ) ^ 2 - (-(r : ℝ) + k + 1 / 2) ^ 2) ↔
      ((b : ℝ) - cy + 1 / 2) ^ 2 < (r : ℝ) ^ 2 - (-(r : ℝ) + k + 1 / 2) ^ 2 := by
    rw [Real.lt_sqrt (abs_nonneg _), sq_abs]
  have hcast : (2 * (-(r : ℤ) + k) + 1) ^ 2 + (2 * (b - cy) + 1) ^ 2 < 4 * (r : ℤ) ^ 2 ↔
      ((b : ℝ) - cy + 1 / 2) ^ 2 < (r : ℝ) ^ 2 - (-(r : ℝ) + k + 1 / 2) ^ 2 := by
    rw [← @Int.cast_lt ℝ]
    push_cast
    constructor <;> intro h <;> nlinarith
  rw [hcast, ← habs, abs_lt]
  constructor <;> rintro ⟨h1, h2⟩ <;> constructor <;> linarith

/-- The set of pixels whose centre is inside the circle of radius `R` about `(cx, cy)`,
counted column by column: with `s k = sqrt (R^2 - (-R + k + 1/2)^2)`, the half height of the
disc at the middle of column `k`, the number of pixels is within `2 R` of twice the sum of
the `s k`. -/
theorem card_lattice_disc_columns (S : Finset (ℤ × ℤ)) (r : ℕ) (cx cy : ℤ)
    (hS : ∀ p : ℤ × ℤ, p ∈ S ↔
      (2 * (p.1 - cx) + 1) ^ 2 + (2 * (p.2 - cy) + 1) ^ 2 < 4 * (r : ℤ) ^ 2) :
    2 * ∑ k ∈ Finset.range (2 * r), √((r : ℝ) ^ 2 - (-(r : ℝ) + k + 1 / 2) ^ 2) - 2 * r ≤
        (S.card : ℝ) ∧
      (S.card : ℝ) ≤
        2 * ∑ k ∈ Finset.range (2 * r), √((r : ℝ) ^ 2 - (-(r : ℝ) + k + 1 / 2) ^ 2) + 2 * r := by
  have hcol : ∀ p ∈ S, (p.1 - cx + r).toNat ∈ Finset.range (2 * r) := by
    intro p hp
    obtain ⟨h1, h2⟩ := offset_bounds_of_sq_lt _ _ _ (by omega) ((hS p).mp hp)
    rw [Finset.mem_range]
    omega
  have hfib : ∀ k ∈ Finset.range (2 * r),
      (S.filter (fun p => (p.1 - cx + r).toNat = k)).card =
        (Finset.Icc (⌊(cy : ℝ) - 1 / 2 - √((r : ℝ) ^ 2 - (-(r : ℝ) + k + 1 / 2) ^ 2)⌋ + 1)
          (⌈(cy : ℝ) - 1 / 2 + √((r : ℝ) ^ 2 - (-(r : ℝ) + k + 1 / 2) ^ 2)⌉ - 1)).card := by
    intro k hk
    rw [Finset.mem_range] at hk
    have himg : S.filter (fun p => (p.1 - cx + r).toNat = k) =
        (Finset.Icc (⌊(cy : ℝ) - 1 / 2 - √((r : ℝ) ^ 2 - (-(r : ℝ) + k + 1 / 2) ^ 2)⌋ + 1)
          (⌈(cy : ℝ) - 1 / 2 + √((r : ℝ) ^ 2 - (-(r : ℝ) + k + 1 / 2) ^ 2)⌉ - 1)).image
          (fun b : ℤ => (cx - r + k, b)) := by
      ext p
      rw [Finset.mem_filter, Finset.mem_image]
      constructor
      · rintro ⟨hp, hpk⟩
        have htest := (hS p).mp hp
        obtain ⟨h1, h2⟩ := offset_bounds_of_sq_lt _ _ _ (by omega) htest
        have hp1 : p.1 = cx - r + k := by omega
        refine ⟨p.2, ?_, ?_⟩
        · rw [mem_Icc_floor_ceil, ← column_test_iff r k hk cy p.2]
          have e : p.1 - cx = -(r : ℤ) + k := by omega
          rw [← e]
          exact htest
        · exact Prod.ext hp1.symm rfl
      · rintro ⟨b, hb, rfl⟩
        rw [mem_Icc_floor_ceil, ← column_test_iff r k hk cy b] at hb
        constructor
        · rw [hS]
          have e : cx - (r : ℤ) + k - cx = -(r : ℤ) + k := by ring
          show (2 * (cx - (r : ℤ) + k - cx) + 1) ^ 2 + (2 * (b - cy) + 1) ^ 2 < 4 * (r : ℤ) ^ 2
          rw [e]
          exact hb
        · show (cx - (r : ℤ) + k - cx + r).toNat = k
          have e : cx - (r : ℤ) + k - cx + r = (k : ℤ) := by ring
          rw [e]
          exact Int.toNat_natCast k
    rw [himg, Finset.card_image_of_injective]
    intro b1 b2 h
    exact (Prod.mk.inj h).2
  have hcard : (S.card : ℝ) = ∑ k ∈ Finset.range (2 * r),
      ((Finset.Icc (⌊(cy : ℝ) - 1 / 2 - √((r : ℝ) ^ 2 - (-(r : ℝ) + k + 1 / 2) ^ 2)⌋ + 1)
        (⌈(cy : ℝ) - 1 / 2 + √((r : ℝ) ^ 2 - (-(r : ℝ) + k + 1 / 2) ^ 2)⌉ - 1)).card : ℝ) := by
    rw [Finset.card_eq_sum_card_fiberwise hcol, Nat.cast_sum]
    apply Finset.sum_congr rfl
    intro k hk
    rw [hfib k hk]
  have hbound : ∀ k ∈ Finset.range (2 * r),
      2 * √((r : ℝ) ^ 2 - (-(r : ℝ) + k + 1 / 2) ^ 2) - 1 ≤
        ((Finset.Icc (⌊(cy : ℝ) - 1 / 2 - √((r : ℝ) ^ 2 - (-(r : ℝ) + k + 1 / 2) ^ 2)⌋ + 1)
          (⌈(cy : ℝ) - 1 / 2 + √((r : ℝ) ^ 2 - (-(r : ℝ) + k + 1 / 2) ^ 2)⌉ - 1)).card : ℝ) ∧
      ((Finset.Icc (⌊(cy : ℝ) - 1 / 2 - √((r : ℝ) ^ 2 - (-(r : ℝ) + k + 1 / 2) ^ 2)⌋ + 1)
          (⌈(cy : ℝ) - 1 / 2 + √((r : ℝ) ^ 2 - (-(r : ℝ) + k + 1 / 2) ^ 2)⌉ - 1)).card : ℝ) ≤
        2 * √((r : ℝ) ^ 2 - (-(r : ℝ) + k + 1 / 2) ^ 2) + 1 := by
    intro k _
    have hs := Real.sqrt_nonneg ((r : ℝ) ^ 2 - (-(r : ℝ) + k + 1 / 2) ^ 2)
    obtain ⟨h1, h2⟩ := card_Icc_floor_ceil
      ((cy : ℝ) - 1 / 2 - √((r : ℝ) ^ 2 - (-(r : ℝ) + k + 1 / 2) ^ 2))
      ((cy : ℝ) - 1 / 2 + √((r : ℝ) ^ 2 - (-(r : ℝ) + k + 1 / 2) ^ 2)) (by linarith)
    constructor <;> linarith
  have hconst : ∑ _k ∈ Finset.range (2 * r), (1 : ℝ) = 2 * r := by
    simp
  rw [hcard]
  constructor
  · have h := Finset.sum_le_sum (fun k hk => (hbound k hk).1)
    rw [Finset.sum_sub_distrib, ← Finset.mul_sum, hconst] at h
    exact h
  · have h := Finset.sum_le_sum (fun k hk => (hbound k hk).2)
    rw [Finset.sum_add_distrib, ← Finset.mul_sum, hconst] at h
    exact h

/-- The circle problem with a half-pixel tolerance.  A finite set `S` of integer points that
holds exactly the points `(x, y)` with `(2(x-cx)+1)^2 + (2(y-cy)+1)^2 < 4R^2`, that is, the
pixels whose centre is inside the circle of radius `R >= 1` about `(cx, cy)`, has between
`pi (R - 1/2)^2` and `pi (R + 1/2)^2` points. -/
theorem card_lattice_disc (S : Finset (ℤ × ℤ)) (R cx cy : ℤ) (hR : 1 ≤ R)
    (hS : ∀ p : ℤ × ℤ, p ∈ S ↔
      (2 * (p.1 - cx) + 1) ^ 2 + (2 * (p.2 - cy) + 1) ^ 2 < 4 * R ^ 2) :
    Real.pi * ((R : ℝ) - 1 / 2) ^ 2 ≤ (S.card : ℝ) ∧
      (S.card : ℝ) ≤ Real.pi * ((R : ℝ) + 1 / 2) ^ 2 := by
  obtain ⟨r, rfl⟩ := Int.eq_ofNat_of_zero_le (by omega : 0 ≤ R)
  have hr : 1 ≤ r := by exact_mod_cast hR
  have hr1 : (1 : ℝ) ≤ r := by exact_mod_cast hr
  obtain ⟨hlo, hhi⟩ := card_lattice_disc_columns S r cx cy hS
  have hM1 := half_disc_le_midpoint_sum r hr
  have hM2 := midpoint_sum_le r hr
  have hpi := Real.pi_gt_three
  have hw0 := Real.sqrt_nonneg ((r : ℝ) - 1 / 4)
  have hw : √((r : ℝ) - 1 / 4) ^ 2 = (r : ℝ) - 1 / 4 := Real.sq_sqrt (by linarith)
  simp only [Int.cast_natCast]
  constructor
  · nlinarith [mul_nonneg (by linarith : (0 : ℝ) ≤ Real.pi - 2)
      (by linarith : (0 : ℝ) ≤ (r : ℝ) - 1)]
  · nlinarith [sq_nonneg (√((r : ℝ) - 1 / 4) - 1),
      mul_nonneg (by linarith : (0 : ℝ) ≤ Real.pi - 3) (sq_nonneg (√((r : ℝ) - 1 / 4)))]

/-! ## Theorems: the area of the circle -/

/-- The circle test of a mask over the square `(x0,y0)..(x0+d,y0+d)` at a pixel of the
square, over the integers: for a side below `2^26` the float64 evaluation is exact. -/
theorem circleInside_square_iff (O : Rectangle) (rev : Bool) (s : Shape) (x0 y0 d x y : ℤ)
    (hx0 : -2 ^ 63 ≤ x0) (hx1 : x0 + d < 2 ^ 63) (hy0 : -2 ^ 63 ≤ y0) (hy1 : y0 + d < 2 ^ 63)
    (hd0 : 0 ≤ d) (hd1 : d < 2 ^ 26) (hx : x0 ≤ x ∧ x < x0 + d) (hy : y0 ≤ y ∧ y < y0 + d) :
    circleInside ⟨O, ⟨⟨x0, y0⟩, ⟨x0 + d, y0 + d⟩⟩, rev, s⟩ x y = true ↔
      (2 * (x - (x0 + d / 2)) + 1) ^ 2 + (2 * (y - (y0 + d / 2)) + 1) ^ 2 <
        4 * (d / 2) ^ 2 := by
  obtain ⟨hxa, hxb⟩ := hx
  obtain ⟨hya, hyb⟩ := hy
  unfold circleInside Rectangle.Dx Rectangle.Dy
  simp only [add_sub_cancel_left]
  have e1 := wrapInt_eq_self (z := d) (by omega) (by omega)
  have t1 : Int.tdiv d 2 = d / 2 := Int.tdiv_eq_ediv hd0 (by norm_num)
  have e2 := wrapInt_eq_self (z := x - x0 - d / 2) (by omega) (by omega)
  have e3 := wrapInt_eq_self (z := y - y0 - d / 2) (by omega) (by omega)
  simp only [e1, t1, wrapInt_wrapInt_sub, e2, e3]
  rw [circleTest_iff _ _ _ (by rw [abs_lt]; constructor <;> omega)
    (by rw [abs_lt]; constructor <;> omega) (by rw [abs_lt]; constructor <;> omega)]
  rw [show x - x0 - d / 2 = x - (x0 + d / 2) by ring,
    show y - y0 - d / 2 = y - (y0 + d / 2) by ring]

/-- The opaque pixels of a non-reversed circle mask over the square `(x0,y0)..(x0+d,y0+d)`
are exactly the integer points that pass the integer test. -/
theorem mem_opaque_square (O : Rectangle) (x0 y0 d : ℤ)
    (hx0 : -2 ^ 63 ≤ x0) (hx1 : x0 + d < 2 ^ 63) (hy0 : -2 ^ 63 ≤ y0) (hy1 : y0 + d < 2 ^ 63)
    (hd0 : 0 ≤ d) (hd1 : d < 2 ^ 26) (p : ℤ × ℤ) :
    p ∈ (Finset.Ico x0 (x0 + d) ×ˢ Finset.Ico y0 (y0 + d)).filter
        (fun p => ((AlphaMask.mk O ⟨⟨x0, y0⟩, ⟨x0 + d, y0 + d⟩⟩ false Shape.circle).At
          p.1 p.2).A = 255) ↔
      (2 * (p.1 - (x0 + d / 2)) + 1) ^ 2 + (2 * (p.2 - (y0 + d / 2)) + 1) ^ 2 <
        4 * (d / 2) ^ 2 := by
  have hR : 0 ≤ d / 2 := by omega
  have hAt : ((AlphaMask.mk O ⟨⟨x0, y0⟩, ⟨x0 + d, y0 + d⟩⟩ false Shape.circle).At
      p.1 p.2).A = 255 ↔
      circleInside ⟨O, ⟨⟨x0, y0⟩, ⟨x0 + d, y0 + d⟩⟩, false, Shape.circle⟩ p.1 p.2 = true := by
    show (alphaOf _ false).A = 255 ↔ _
    rw [alphaOf_A_eq_255]
    simp
  rw [Finset.mem_filter, Finset.mem_product, Finset.mem_Ico, Finset.mem_Ico, hAt]
  constructor
  · rintro ⟨⟨hx, hy⟩, h⟩
    exact (circleInside_square_iff O false Shape.circle x0 y0 d p.1 p.2 hx0 hx1 hy0 hy1 hd0
      hd1 hx hy).mp h
  · intro h
    have ha := offset_bounds_of_sq_lt _ _ _ hR h
    have hb := offset_bounds_of_sq_lt _ _ _ hR
      (show (2 * (p.2 - (y0 + d / 2)) + 1) ^ 2 + (2 * (p.1 - (x0 + d / 2)) + 1) ^ 2 <
        4 * (d / 2) ^ 2 by linarith)
    have hx : x0 ≤ p.1 ∧ p.1 < x0 + d := by
      constructor <;> omega
    have hy : y0 ≤ p.2 ∧ p.2 < y0 + d := by
      constructor <;> omega
    exact ⟨⟨hx, hy⟩, (circleInside_square_iff O false Shape.circle x0 y0 d p.1 p.2 hx0 hx1
      hy0 hy1 hd0 hd1 hx hy).mpr h⟩

/-- C13, counterexample. For `d = 5` the non-reversed circle mask over the 5 x 5 square
`(0,0)..(5,5)` has `N = 12` opaque pixels, fewer than `pi ((5-1)/2)^2 = 4 pi`. -/
theorem circle_area_fails : exampleFiveMask.Inner.Dx = 5 ∧ exampleFiveMask.Inner.Dy = 5 ∧
    exampleFiveMask.Reverse = false ∧
    opaqueCount exampleFiveMask exampleFiveMask.Inner = 12 ∧
    ((opaqueCount exampleFiveMask exampleFiveMask.Inner : ℕ) : ℝ) <
      Real.pi * (((5 : ℝ) - 1) / 2) ^ 2 := by
  have hN : opaqueCount exampleFiveMask exampleFiveMask.Inner = 12 := by
    unfold opaqueCount exampleFiveMask
    have h := mem_opaque_square ⟨⟨0, 0⟩, ⟨5, 5⟩⟩ 0 0 5 (by norm_num) (by norm_num)
      (by norm_num) (by norm_num) (by norm_num) (by norm_num)
    have e : (Finset.Ico (0 : ℤ) (0 + 5) ×ˢ Finset.Ico (0 : ℤ) (0 + 5)).filter
        (fun p => ((AlphaMask.mk ⟨⟨0, 0⟩, ⟨5, 5⟩⟩ ⟨⟨0, 0⟩, ⟨0 + 5, 0 + 5⟩⟩ false
          Shape.circle).At p.1 p.2).A = 255) =
        (Finset.Ico (0 : ℤ) 5 ×ˢ Finset.Ico (0 : ℤ) 5).filter
          (fun p => (2 * (p.1 - 2) + 1) ^ 2 + (2 * (p.2 - 2) + 1) ^ 2 < 16) := by
      ext p
      rw [h p]
      simp only [Finset.mem_filter, Finset.mem_product, Finset.mem_Ico]
      constructor
      · intro hp
        have ha := offset_bounds_of_sq_lt (p.1 - (0 + 5 / 2)) (p.2 - (0 + 5 / 2)) (5 / 2)
          (by norm_num) hp
        have hb := offset_bounds_of_sq_lt (p.2 - (0 + 5 / 2)) (p.1 - (0 + 5 / 2)) (5 / 2)
          (by norm_num) (by linarith)
        norm_num at hp ha hb ⊢
        refine ⟨⟨⟨by omega, by omega⟩, by omega, by omega⟩, ?_⟩
        linarith
      · rintro ⟨_, hp⟩
        norm_num
        linarith
    have e' : (Finset.Ico (0 : ℤ) (0 + 5) ×ˢ Finset.Ico (0 : ℤ) (0 + 5)).filter
        (fun p => ((AlphaMask.mk ⟨⟨0, 0⟩, ⟨5, 5⟩⟩ ⟨⟨0, 0⟩, ⟨0 + 5, 0 + 5⟩⟩ false
          Shape.circle).At p.1 p.2).A = 255) =
        (Finset.Ico (0 : ℤ) 5 ×ˢ Finset.Ico (0 : ℤ) 5).filter
        (fun p => ((AlphaMask.mk ⟨⟨0, 0⟩, ⟨5, 5⟩⟩ ⟨⟨0, 0⟩, ⟨5, 5⟩⟩ false
          Shape.circle).At p.1 p.2).A = 255) := rfl
    rw [← e', e]
    decide
  refine ⟨by decide, by decide, rfl, hN, ?_⟩
  rw [hN]
  have := Real.pi_gt_d2
  norm_num at this ⊢
  linarith

/-- C13, amended. For `1 <= d < 2^26` (the sides for which the float64 test is exact) and a
non-reversed circle mask whose inner region is a `d x d` square `(x0,y0)..(x0+d,y0+d)`
anywhere in the `int` range, the number `N` of opaque pixels of the inner region satisfies
the upper bound `N <= pi ((d+1)/2)^2` of the specification, and its lower bound
`pi ((d-1)/2)^2 <= N` unless `d` is odd and at least 3.  With `R = d / 2` rounded down, the
radius the code uses, `N <= pi (R + 1/2)^2` and, for `d >= 2`, `pi (R - 1/2)^2 <= N`: `N`
approximates `pi R^2` within half a pixel on the radius; for odd `d >= 3` this is
`pi ((d-2)/2)^2 <= N <= pi (d/2)^2`.  For `d = 1`, `N = 0`. -/
theorem circle_area_bounds (O : Rectangle) (x0 y0 d : ℤ)
    (hx0 : -2 ^ 63 ≤ x0) (hx1 : x0 + d < 2 ^ 63) (hy0 : -2 ^ 63 ≤ y0) (hy1 : y0 + d < 2 ^ 63)
    (hd0 : 1 ≤ d) (hd1 : d < 2 ^ 26) :
    (opaqueCount ⟨O, ⟨⟨x0, y0⟩, ⟨x0 + d, y0 + d⟩⟩, false, Shape.circle⟩
          ⟨⟨x0, y0⟩, ⟨x0 + d, y0 + d⟩⟩ : ℝ) ≤
        Real.pi * (((d : ℝ) + 1) / 2) ^ 2 ∧
      ((d % 2 = 1 ∧ 3 ≤ d) ∨ Real.pi * (((d : ℝ) - 1) / 2) ^ 2 ≤
        (opaqueCount ⟨O, ⟨⟨x0, y0⟩, ⟨x0 + d, y0 + d⟩⟩, false, Shape.circle⟩
          ⟨⟨x0, y0⟩, ⟨x0 + d, y0 + d⟩⟩ : ℝ)) ∧
      (opaqueCount ⟨O, ⟨⟨x0, y0⟩, ⟨x0 + d, y0 + d⟩⟩, false, Shape.circle⟩
          ⟨⟨x0, y0⟩, ⟨x0 + d, y0 + d⟩⟩ : ℝ) ≤
        Real.pi * (((d / 2 : ℤ) : ℝ) + 1 / 2) ^ 2 ∧
      (d ≤ 1 ∨ Real.pi * (((d / 2 : ℤ) : ℝ) - 1 / 2) ^ 2 ≤
        (opaqueCount ⟨O, ⟨⟨x0, y0⟩, ⟨x0 + d, y0 + d⟩⟩, false, Shape.circle⟩
          ⟨⟨x0, y0⟩, ⟨x0 + d, y0 + d⟩⟩ : ℝ)) ∧
      (2 ≤ d ∨
        opaqueCount ⟨O, ⟨⟨x0, y0⟩, ⟨x0 + d, y0 + d⟩⟩, false, Shape.circle⟩
          ⟨⟨x0, y0⟩, ⟨x0 + d, y0 + d⟩⟩ = 0) := by
  have hmem := mem_opaque_square O x0 y0 d hx0 hx1 hy0 hy1 (by omega) hd1
  have hN : opaqueCount ⟨O, ⟨⟨x0, y0⟩, ⟨x0 + d, y0 + d⟩⟩, false, Shape.circle⟩
      ⟨⟨x0, y0⟩, ⟨x0 + d, y0 + d⟩⟩ =
      ((Finset.Ico x0 (x0 + d) ×ˢ Finset.Ico y0 (y0 + d)).filter
        (fun p => ((AlphaMask.mk O ⟨⟨x0, y0⟩, ⟨x0 + d, y0 + d⟩⟩ false Shape.circle).At
          p.1 p.2).A = 255)).card := rfl
  have hpi := Real.pi_pos
  rw [hN]
  by_cases hsmall : d ≤ 1
  · have hd : d = 1 := by omega
    have hR : d / 2 = 0 := by omega
    have hzero : ((Finset.Ico x0 (x0 + d) ×ˢ Finset.Ico y0 (y0 + d)).filter
        (fun p => ((AlphaMask.mk O ⟨⟨x0, y0⟩, ⟨x0 + d, y0 + d⟩⟩ false Shape.circle).At
          p.1 p.2).A = 255)).card = 0 := by
      rw [Finset.card_eq_zero, Finset.eq_empty_iff_forall_not_mem]
      intro p hp
      have h := (hmem p).mp hp
      rw [hR] at h
      nlinarith [sq_nonneg (2 * (p.1 - (x0 + 0)) + 1), sq_nonneg (2 * (p.2 - (y0 + 0)) + 1)]
    rw [hzero]
    have hdr : (d : ℝ) = 1 := by exact_mod_cast hd
    refine ⟨?_, Or.inr ?_, ?_, Or.inl hsmall, Or.inr rfl⟩
    · simp only [Nat.cast_zero]
      positivity
    · rw [hdr]
      simp
    · simp only [Nat.cast_zero]
      positivity
  have hd2 : 2 ≤ d := by omega
  obtain ⟨hlo, hhi⟩ := card_lattice_disc
    ((Finset.Ico x0 (x0 + d) ×ˢ Finset.Ico y0 (y0 + d)).filter
      (fun p => ((AlphaMask.mk O ⟨⟨x0, y0⟩, ⟨x0 + d, y0 + d⟩⟩ false Shape.circle).At
        p.1 p.2).A = 255))
    (d / 2) (x0 + d / 2) (y0 + d / 2) (by omega) hmem
  obtain ⟨N, hNdef⟩ : ∃ N : ℝ, N = (((Finset.Ico x0 (x0 + d) ×ˢ Finset.Ico y0 (y0 + d)).filter
      (fun p => ((AlphaMask.mk O ⟨⟨x0, y0⟩, ⟨x0 + d, y0 + d⟩⟩ false Shape.circle).At
        p.1 p.2).A = 255)).card : ℝ) := ⟨_, rfl⟩
  rw [← hNdef] at hlo hhi ⊢
  obtain ⟨R, hRdef⟩ : ∃ R : ℝ, R = ((d / 2 : ℤ) : ℝ) := ⟨_, rfl⟩
  rw [← hRdef] at hlo hhi ⊢
  have hd : (2 : ℝ) ≤ d := by exact_mod_cast hd2
  have hR1 : (1 : ℝ) ≤ R := by
    rw [hRdef]
    exact_mod_cast (by omega : 1 ≤ d / 2)
  have h2r : 2 * R ≤ (d : ℝ) := by
    rw [hRdef]
    exact_mod_cast (by omega : 2 * (d / 2) ≤ d)
  refine ⟨?_, ?_, hhi, Or.inr hlo, Or.inl hd2⟩
  · refine le_trans hhi (mul_le_mul_of_nonneg_left ?_ hpi.le)
    apply sq_le_sq'
    · linarith
    · linarith
  · rcases Int.emod_two_eq_zero_or_one d with h0 | h1
    · right
      have heven : 2 * (d / 2) = d := by omega
      have heven' : 2 * R = (d : ℝ) := by
        rw [hRdef]
        exact_mod_cast heven
      have e : ((d : ℝ) - 1) / 2 = R - 1 / 2 := by linarith
      rw [e]
      exact hlo
    · left
      exact ⟨h1, by omega⟩

theorem circle_area_bounds_witness :
    ((-2 ^ 63 : ℤ) ≤ 198 ∧ (198 : ℤ) + 102 < 2 ^ 63 ∧ (-2 ^ 63 : ℤ) ≤ 0 ∧
      (0 : ℤ) + 102 < 2 ^ 63 ∧ (1 : ℤ) ≤ 102 ∧ (102 : ℤ) < 2 ^ 26) ∧
    ((opaqueCount ⟨⟨⟨0, 0⟩, ⟨300, 300⟩⟩, ⟨⟨198, 0⟩, ⟨198 + 102, 0 + 102⟩⟩, false,
          Shape.circle⟩ ⟨⟨198, 0⟩, ⟨198 + 102, 0 + 102⟩⟩ : ℝ) ≤
        Real.pi * ((((102 : ℤ) : ℝ) + 1) / 2) ^ 2 ∧
      (((102 : ℤ) % 2 = 1 ∧ (3 : ℤ) ≤ 102) ∨ Real.pi * ((((102 : ℤ) : ℝ) - 1) / 2) ^ 2 ≤
        (opaqueCount ⟨⟨⟨0, 0⟩, ⟨300, 300⟩⟩, ⟨⟨198, 0⟩, ⟨198 + 102, 0 + 102⟩⟩, false,
          Shape.circle⟩ ⟨⟨198, 0⟩, ⟨198 + 102, 0 + 102⟩⟩ : ℝ)) ∧
      (opaqueCount ⟨⟨⟨0, 0⟩, ⟨300, 300⟩⟩, ⟨⟨198, 0⟩, ⟨198 + 102, 0 + 102⟩⟩, false,
          Shape.circle⟩ ⟨⟨198, 0⟩, ⟨198 + 102, 0 + 102⟩⟩ : ℝ) ≤
        Real.pi * ((((102 : ℤ) / 2 : ℤ) : ℝ) + 1 / 2) ^ 2 ∧
      ((102 : ℤ) ≤ 1 ∨ Real.pi * ((((102 : ℤ) / 2 : ℤ) : ℝ) - 1 / 2) ^ 2 ≤
        (opaqueCount ⟨⟨⟨0, 0⟩, ⟨300, 300⟩⟩, ⟨⟨198, 0⟩, ⟨198 + 102, 0 + 102⟩⟩, false,
          Shape.circle⟩ ⟨⟨198, 0⟩, ⟨198 + 102, 0 + 102⟩⟩ : ℝ)) ∧
      ((2 : ℤ) ≤ 102 ∨
        opaqueCount ⟨⟨⟨0, 0⟩, ⟨300, 300⟩⟩, ⟨⟨198, 0⟩, ⟨198 + 102, 0 + 102⟩⟩, false,
          Shape.circle⟩ ⟨⟨198, 0⟩, ⟨198 + 102, 0 + 102⟩⟩ = 0)) :=
  ⟨⟨by norm_num, by norm_num, by norm_num, by norm_num, by norm_num, by norm_num⟩,
    circle_area_bounds ⟨⟨0, 0⟩, ⟨300, 300⟩⟩ 198 0 102 (by norm_num) (by norm_num)
      (by norm_num) (by norm_num) (by norm_num) (by norm_num)⟩

end IconMerger
